import Mathlib

/-!
The sparse binary Merkle tree of go-merkletree-old, with path-compressed leaves

A shallow embedding of merkletree.go, db.go and utils.go, and theorems about it.
Byte slices are lists of numbers, a digest is a list of 32 bytes, the key-value store is an
association list, and a Go runtime panic is the outer none of an Option.
-/

set_option autoImplicit false

namespace Merkletree

/-! ## Keccak-256 (the external crypto.Keccak256), on a state packed into one number -/

/-- Evaluate a number before continuing with it. -/
def forceNat {α : Type} (n : Nat) (k : Nat → α) : α :=
  match n with
  | 0 => k 0
  | m + 1 => k (m + 1)

/-- The mask of one 64-bit lane. -/
def kLane : Nat := 2 ^ 64 - 1

/-- The mask of the whole state of 1600 bits: lane (x, y) occupies bits 64 (5 y + x) and up. -/
def kAll : Nat := 2 ^ 1600 - 1

/-- The mask of the row y = 0 (five lanes). -/
def kRow0 : Nat := 2 ^ 320 - 1

/-- Bit 0 of each of the five lanes of a row. -/
def kBit0 : Nat := 1 + 2 ^ 64 + 2 ^ 128 + 2 ^ 192 + 2 ^ 256

/-- The multiplier that copies the row y = 0 to all five rows. -/
def kRep : Nat := 1 + 2 ^ 320 + 2 ^ 640 + 2 ^ 960 + 2 ^ 1280

/-- The mask of the lanes with x = 0. -/
def kX0 : Nat := kLane * kRep

/-- The mask of the lanes with x below 4. -/
def kXlt4 : Nat := (2 ^ 256 - 1) * kRep

/-- The round constants of Keccak-f[1600]. -/
def keccakRC : List Nat :=
  [0x1, 0x8082, 0x800000000000808a, 0x8000000080008000, 0x808b, 0x80000001,
   0x8000000080008081, 0x8000000000008009, 0x8a, 0x88, 0x80008009, 0x8000000a,
   0x8000808b, 0x800000000000008b, 0x8000000000008089, 0x8000000000008003,
   0x8000000000008002, 0x8000000000000080, 0x800a, 0x800000008000000a,
   0x8000000080008081, 0x8000000000008080, 0x80000001, 0x8000000080008008]

/-- Rows of (destination lane, source lane, left rotation) for the rho and pi steps. -/
def keccakRhoPi : List (Nat × Nat × Nat) :=
  [(0, 0, 0), (1, 6, 44), (2, 12, 43), (3, 18, 21), (4, 24, 14), (5, 3, 28), (6, 9, 20), (7, 10, 3), (8, 16, 45), (9, 22, 61), (10, 1, 1), (11, 7, 6), (12, 13, 25), (13, 19, 8), (14, 20, 18), (15, 4, 27), (16, 5, 36), (17, 11, 10), (18, 17, 15), (19, 23, 56), (20, 2, 62), (21, 8, 55), (22, 14, 39), (23, 15, 41), (24, 21, 2)]

/-- Lanes x+1 of every row moved to position x (cyclically within the row). -/
def kRowNext (s : Nat) : Nat :=
  Nat.lor (Nat.land (Nat.shiftRight s 64) kXlt4) (Nat.shiftLeft (Nat.land s kX0) 256)

/-- The theta step: every lane is xored with the parities of two neighbouring columns. -/
def keccakTheta (s : Nat) : Nat :=
  forceNat (Nat.land (Nat.xor s (Nat.xor (Nat.shiftRight s 320) (Nat.xor (Nat.shiftRight s 640)
      (Nat.xor (Nat.shiftRight s 960) (Nat.shiftRight s 1280))))) kRow0) fun c =>
  forceNat (Nat.lor (Nat.land (Nat.shiftLeft c 1) (Nat.xor kRow0 kBit0)) (Nat.land (Nat.shiftRight c 63) kBit0)) fun r =>
  -- d[x] = c[x-1] xor rotl(c[x+1], 1)
  forceNat (Nat.xor (Nat.lor (Nat.land (Nat.shiftLeft c 64) kRow0) (Nat.shiftRight c 256))
      (Nat.lor (Nat.shiftRight r 64) (Nat.land (Nat.shiftLeft r 256) kRow0))) fun d =>
  Nat.xor s (Nat.mul d kRep)

/-- The rho and pi steps: every lane is rotated and moved, row by row of keccakRhoPi. -/
def keccakRhoPiStep (s : Nat) : List (Nat × Nat × Nat) → Nat
  | [] => 0
  | (dst, src, r) :: rest =>
    Nat.lor (Nat.shiftLeft (Nat.mod (Nat.lor (Nat.shiftLeft (Nat.land (Nat.shiftRight s (64 * src)) kLane) r)
        (Nat.shiftRight (Nat.land (Nat.shiftRight s (64 * src)) kLane) (64 - r))) 18446744073709551616) (64 * dst))
      (keccakRhoPiStep s rest)

/-- The chi step: a[x] xor (not a[x+1] and a[x+2]) along every row. -/
def keccakChi (b : Nat) : Nat :=
  forceNat (kRowNext b) fun b1 =>
  forceNat (kRowNext b1) fun b2 =>
  Nat.xor b (Nat.land (Nat.xor b1 kAll) b2)

/-- One round: theta, rho and pi, chi, iota. -/
def keccakRound (s rc : Nat) : Nat :=
  forceNat (keccakTheta s) fun a =>
  forceNat (keccakRhoPiStep a keccakRhoPi) fun b =>
  Nat.xor (keccakChi b) rc

/-- The permutation Keccak-f[1600]: one round per round constant. -/
def keccakF : List Nat → Nat → Nat
  | [], s => s
  | rc :: rcs, s => forceNat (keccakRound s rc) (keccakF rcs)

/-- The number with the given little-endian bytes. -/
def leNat (bs : List Nat) : Nat := bs.foldr (fun b acc => b % 256 + 256 * acc) 0

/-- Absorb k blocks of 136 bytes (the rate of Keccak-256) into the state. -/
def keccakAbsorb : Nat → Nat → List Nat → Nat
  | 0, s, _ => s
  | k + 1, s, bs => forceNat (s ^^^ leNat (bs.take 136)) fun s1 =>
      forceNat (keccakF keccakRC s1) fun s2 => keccakAbsorb k s2 (bs.drop 136)

/-- The padding of Keccak (first pad byte 0x01, last pad bit 0x80) to a multiple of 136. -/
def keccakPad (m : List Nat) : List Nat :=
  let q := 136 - m.length % 136
  if q = 1 then m ++ [0x81] else m ++ [0x01] ++ List.replicate (q - 2) 0 ++ [0x80]

/-- Keccak-256: absorb the padded message, squeeze the first 32 bytes of the state. -/
def keccak256 (m : List Nat) : List Nat :=
  forceNat (keccakAbsorb ((keccakPad m).length / 136) 0 (keccakPad m)) fun s =>
    (List.range 32).map fun i => (s >>> (8 * i)) % 256

/-! ## Byte strings, digests and constants (merkletree.go) -/

/-- A digest, the Go type Hash = [32]byte; bytes are numbers below 256. -/
abbrev Hash := List Nat

/-- The raw hash primitive (crypto.Keccak256 in the source), taken as a parameter. -/
abbrev RawHash := List Nat → List Nat

/-- The tag of an Empty node. -/
def EmptyNodeType : Nat := 0

/-- The tag of a Normal node. -/
def normalNodeType : Nat := 1

/-- The tag of a Final node. -/
def finalNodeType : Nat := 2

/-- The tag of a Value node. -/
def valueNodeType : Nat := 3

/-- The tag of the root record. -/
def rootNodeType : Nat := 4

/-- EmptyNodeValue: the all-zero digest. -/
def EmptyNodeValue : Hash := List.replicate 32 0

/-- Go's copy(dst[:], src) into a zero-initialised [32]byte. -/
def copyHash (src : List Nat) : Hash := src.take 32 ++ List.replicate (32 - src.length) 0

/-- HashBytes (utils.go): the raw hash copied into a Hash. -/
def HashBytes (H : RawHash) (b : List Nat) : Hash := copyHash (H b)

/-- The bytes of the string "root". -/
def rootString : List Nat := [114, 111, 111, 116]

/-- The reserved key rootNodeValue = HashBytes([]byte("root")). -/
def rootNodeValue (H : RawHash) : Hash := HashBytes H rootString

/-- The errors of the engine: the duplicate error of merkletree.go and the errors of the
store (a missing key, an I/O failure). -/
inductive Error where
  | ErrNodeAlreadyExists
  | ErrNotFound
  | ErrStore
  deriving DecidableEq, Repr

/-- A leaf: the Go interface Value with its two methods. -/
structure Value where
  Bytes : List Nat
  IndexLength : Nat
  deriving DecidableEq, Repr

/-! ## Codec (utils.go) -/

/-- Uint32ToBytes: four bytes, little-endian. -/
def Uint32ToBytes (u : Nat) : List Nat :=
  [u % 256, u / 256 % 256, u / 65536 % 256, u / 16777216 % 256]

/-- BytesToUint32: binary.LittleEndian.Uint32; it fails on fewer than four bytes. -/
def BytesToUint32 (b : List Nat) : Option Nat :=
  match b with
  | b0 :: b1 :: b2 :: b3 :: _ => some (b0 + 256 * b1 + 65536 * b2 + 16777216 * b3)
  | _ => none

/-- Go's s[:n] on a slice s whose backing array goes on with the bytes spare after the end
of s: the bound n is checked against the capacity len(s) + len(spare), and the result shows
the bytes of the array past the end of s. -/
def sliceCap (s spare : List Nat) (n : Nat) : Option (List Nat) :=
  if n ≤ s.length + spare.length then some ((s ++ spare).take n) else none

/-- Go's s[:n] for a slice s with no spare capacity (sliceCap s [] n): a runtime failure
when n exceeds the length. For n within the length it is s[:n] whatever the capacity is
(sliceCap_of_le). The leaf bytes and the stored records in Add, GetValueInPos and
GenerateProof are taken with no spare capacity; the proof of CheckProof has a capacity in
CheckProofCap. -/
def sliceTo (s : List Nat) (n : Nat) : Option (List Nat) :=
  if n ≤ s.length then some (s.take n) else none

/-- testbitmap: bit bitno lives in byte len-1-bitno/8 under mask 1 << (bitno % 8);
the index underflows (a runtime failure) when bitno/8 is not below the length. -/
def testbitmap (bitmap : List Nat) (bitno : Nat) : Option Bool :=
  if bitno / 8 < bitmap.length then
    some ((bitmap.getD (bitmap.length - bitno / 8 - 1) 0).testBit (bitno % 8))
  else none

/-- setbitmap: sets bit bitno, same addressing as testbitmap. -/
def setbitmap (bitmap : List Nat) (bitno : Nat) : Option (List Nat) :=
  if bitno / 8 < bitmap.length then
    some (bitmap.set (bitmap.length - bitno / 8 - 1)
      ((bitmap.getD (bitmap.length - bitno / 8 - 1) 0 ||| 1 <<< (bitno % 8)) % 256))
  else none

/-- The loop of getPath, from bit number k-1 down to 0. -/
def getPathFrom (hi : Hash) : Nat → Option (List Bool)
  | 0 => some []
  | k + 1 =>
    match testbitmap hi k with
    | none => none
    | some b =>
      match getPathFrom hi k with
      | none => none
      | some rest => some (b :: rest)

/-- getPath: the bits numLevels-2, numLevels-3, ..., 0 of hi, appended in that order
(nothing when numLevels < 2). -/
def getPath (numLevels : Nat) (hi : Hash) : Option (List Bool) :=
  getPathFrom hi (numLevels - 1)

/-- The loop of comparePaths, over the indices k-1 down to 0. -/
def comparePathsFrom (b1 b2 : List Bool) : Nat → Option Int
  | 0 => some (-1)
  | k + 1 =>
    match b1[k]?, b2[k]? with
    | some x, some y => if x ≠ y then some (k : Int) else comparePathsFrom b1 b2 k
    | _, _ => none

/-- comparePaths: the highest index where b1 and b2 differ, -1 when there is none;
a runtime failure when b2 is too short. -/
def comparePaths (b1 b2 : List Bool) : Option Int :=
  comparePathsFrom b1 b2 b1.length

/-- The loop of getEmptiesBetweenIAndPosHash: one EmptyNodeValue for each i from iPos down to posHash. -/
def getEmptiesBetweenIAndPosHash (iPos posHash : Int) : List Hash :=
  List.replicate (iPos - posHash + 1).toNat EmptyNodeValue

/-! ## Tree nodes -/

/-- Modelled from the spec: the file declaring treeNode is not among the sources.
A Normal node holds two child digests. -/
structure treeNode where
  ChildL : Hash
  ChildR : Hash
  deriving DecidableEq, Repr

/-- Modelled from the spec: treeNode.Bytes, the 64-byte concatenation L ‖ R. -/
def treeNode.Bytes (n : treeNode) : List Nat := n.ChildL ++ n.ChildR

/-- Modelled from the spec: treeNode.Ht, Ht(Normal{L,R}) = H(L ‖ R). -/
def treeNode.Ht (H : RawHash) (n : treeNode) : Hash := HashBytes H n.Bytes

/-- Modelled from the spec: parseNodeBytes, the two child digests of a 64-byte body;
the 32-byte Empty body gives two Empty children. -/
def parseNodeBytes (b : List Nat) : treeNode :=
  { ChildL := copyHash (b.take 32), ChildR := copyHash (b.drop 32) }

/-! ## Store adapter (db.go) -/

/-- The key-value store: its bindings (newest first) and the keys on which a write,
respectively a read, fails with an I/O error. -/
structure DB where
  data : List (List Nat × List Nat)
  badPut : List (List Nat)
  badGet : List (List Nat)
  deriving DecidableEq, Repr

/-- The newest value bound to the key. -/
def DB.lookup (db : DB) (key : List Nat) : Option (List Nat) :=
  (db.data.find? fun kv => kv.1 = key).map fun kv => kv.2

/-- Put of the store: it fails on a bad key, else binds the key. -/
def DB.Put (db : DB) (key value : List Nat) : DB × Option Error :=
  if key ∈ db.badPut then (db, some Error.ErrStore)
  else ({ db with data := (key, value) :: db.data }, none)

/-- Get of the store: an I/O error on a bad key, not-found on a missing key. -/
def DB.Get (db : DB) (key : List Nat) : Except Error (List Nat) :=
  if key ∈ db.badGet then Except.error Error.ErrStore
  else match db.lookup key with
    | some v => Except.ok v
    | none => Except.error Error.ErrNotFound

/-- MerkleTree: the store, the root digest and the number of levels. -/
structure MerkleTree where
  storage : DB
  root : Hash
  numLevels : Nat
  deriving DecidableEq, Repr

/-- Insert (db.go): stores tag ‖ u32(indexLength) ‖ body under key. -/
def MerkleTree.Insert (mt : MerkleTree) (key : Hash) (nodeType : Nat) (indexLength : Nat)
    (nodeBytes : List Nat) : MerkleTree × Option Error :=
  let r := mt.storage.Put key ([nodeType] ++ Uint32ToBytes indexLength ++ nodeBytes)
  ({ mt with storage := r.1 }, r.2)

/-- Get (db.go): the Empty key answers without a lookup; a stored value is split into
tag, index length and body (a runtime failure when it has fewer than five bytes). -/
def MerkleTree.Get (mt : MerkleTree) (key : Hash) : Option (Nat × Nat × List Nat × Option Error) :=
  if key = EmptyNodeValue then some (0, 0, EmptyNodeValue, none)
  else match mt.storage.Get key with
    | Except.error e => some (0, 0, EmptyNodeValue, some e)
    | Except.ok value =>
      match value with
      | tag :: rest =>
        match BytesToUint32 rest with
        | some il => some (tag, il, value.drop 5, none)
        | none => none
      | [] => none

/-! ## Tree engine (merkletree.go) -/

/-- New: load the root record, or create it when the read fails. -/
def New (H : RawHash) (storage : DB) (numLevels : Nat) : Option (Option MerkleTree × Option Error) :=
  let mt : MerkleTree := { storage := storage, root := EmptyNodeValue, numLevels := numLevels }
  match mt.Get (rootNodeValue H) with
  | none => none
  | some (_, _, rootHash, err) =>
    match err with
    | some _ =>
      let r := mt.Insert (rootNodeValue H) rootNodeType 0 EmptyNodeValue
      match r.2 with
      | some e => some (none, some e)
      | none => some (some { r.1 with root := copyHash rootHash }, none)
    | none => some (some { mt with root := copyHash rootHash }, none)

/-- Root returns the root digest. -/
def MerkleTree.Root (mt : MerkleTree) : Hash := mt.root

/-- NumLevels returns the number of levels. -/
def MerkleTree.NumLevels (mt : MerkleTree) : Nat := mt.numLevels

/-- The loop of calcHashFromLeafAndLevel: k steps remain, i is the loop variable. -/
def calcHashLoop (H : RawHash) (path : List Bool) : Nat → Nat → Hash → Option Hash
  | 0, _, nodeCurrLevel => some nodeCurrLevel
  | k + 1, i, nodeCurrLevel =>
    match path[i]? with
    | none => none
    | some true =>
      calcHashLoop H path k (i + 1)
        (treeNode.Ht H { ChildL := EmptyNodeValue, ChildR := nodeCurrLevel })
    | some false =>
      calcHashLoop H path k (i + 1)
        (treeNode.Ht H { ChildL := nodeCurrLevel, ChildR := EmptyNodeValue })

/-- calcHashFromLeafAndLevel: fold leafHash upward over path[0 .. untilLevel-1] with Empty
siblings; indexing past the path is a runtime failure. -/
def calcHashFromLeafAndLevel (H : RawHash) (untilLevel : Nat) (path : List Bool) (leafHash : Hash) :
    Option Hash :=
  calcHashLoop H path untilLevel 0 leafHash

/-- The loop of replaceLeaf from index i on, over the remaining steps. -/
def replaceLeafLoop (H : RawHash) (siblings : List Hash) (path : List Bool) :
    Nat → Nat → MerkleTree → Hash → Option (MerkleTree × Hash)
  | 0, _, mt, currNode => some (mt, currNode)
  | k + 1, i, mt, currNode =>
    match path[i]?, siblings[siblings.length - 1 - i]? with
    | some false, some s =>
      let node : treeNode := { ChildL := currNode, ChildR := s }
      replaceLeafLoop H siblings path k (i + 1)
        (mt.Insert (node.Ht H) normalNodeType 0 node.Bytes).1 (node.Ht H)
    | some true, some s =>
      let node : treeNode := { ChildL := s, ChildR := currNode }
      replaceLeafLoop H siblings path k (i + 1)
        (mt.Insert (node.Ht H) normalNodeType 0 node.Bytes).1 (node.Ht H)
    | _, _ => none

/-- replaceLeaf: write the leaf node, then one Normal node per recorded sibling, deepest
sibling first; the results of Insert are dropped, the returned error is always nil. -/
def MerkleTree.replaceLeaf (H : RawHash) (mt : MerkleTree) (siblings : List Hash) (path : List Bool)
    (newLeafHash : Hash) (nodetype : Nat) (indexLength : Nat) (newLeafValue : List Nat) :
    Option (MerkleTree × Hash) :=
  replaceLeafLoop H siblings path siblings.length 0
    (mt.Insert newLeafHash nodetype indexLength newLeafValue).1 newLeafHash

/-- The Final-node branch of Add (lines 91-121): duplicate check, then the split. -/
def addFinal (H : RawHash) (mt : MerkleTree) (v : Value) (path : List Bool) (i : Nat)
    (siblings : List Hash) (indexLength : Nat) (nodeBytes : List Nat) :
    Option (MerkleTree × Option Error) :=
  match sliceTo nodeBytes indexLength with
  | none => none
  | some index =>
  match getPath mt.numLevels (HashBytes H index) with
  | none => none
  | some pathChild =>
  match comparePaths pathChild path with
  | none => none
  | some posDiff =>
  if posDiff = -1 then some (mt, some Error.ErrNodeAlreadyExists) else
  match calcHashFromLeafAndLevel H posDiff.toNat pathChild (HashBytes H nodeBytes),
      calcHashFromLeafAndLevel H posDiff.toNat path (HashBytes H v.Bytes), path[posDiff.toNat]? with
  | some finalNode1Hash, some finalNode2Hash, some side =>
    let mt1 := (mt.Insert finalNode1Hash finalNodeType indexLength nodeBytes).1
    let mt2 := (mt1.Insert finalNode2Hash finalNodeType v.IndexLength v.Bytes).1
    let parentNode : treeNode :=
      if side then { ChildL := finalNode1Hash, ChildR := finalNode2Hash }
      else { ChildL := finalNode2Hash, ChildR := finalNode1Hash }
    let siblings1 := siblings ++ getEmptiesBetweenIAndPosHash i (posDiff + 1)
    match mt2.replaceLeaf H siblings1 (path.drop (posDiff.toNat + 1)) (parentNode.Ht H)
        normalNodeType 0 parentNode.Bytes with
    | none => none
    | some (mt3, root) =>
      let mt4 : MerkleTree := { mt3 with root := root }
      some ((mt4.Insert (rootNodeValue H) rootNodeType 0 mt4.root).1, none)
  | _, _, _ => none

/-- The loop of Add: k iterations remain, the loop variable i is k-1; k = 0 is the code
after the loop (lines 153-159). -/
def addLoop (H : RawHash) (v : Value) (path : List Bool) :
    Nat → MerkleTree → Hash → List Hash → Option (MerkleTree × Option Error)
  | 0, mt, _, siblings =>
    match mt.replaceLeaf H siblings path (HashBytes H v.Bytes) valueNodeType v.IndexLength v.Bytes with
    | none => none
    | some (mt1, root) =>
      let mt2 : MerkleTree := { mt1 with root := root }
      some ((mt2.Insert (rootNodeValue H) rootNodeType 0 mt2.root).1, none)
  | i + 1, mt, nodeHash, siblings =>
    match mt.Get nodeHash with
    | none => none
    | some (nodeType, indexLength, nodeBytes, err) =>
    match err with
    | some e => some (mt, some e)
    | none =>
    if nodeType = finalNodeType then addFinal H mt v path i siblings indexLength nodeBytes else
    let node := parseNodeBytes nodeBytes
    match path[i]? with
    | none => none
    | some side =>
    let nodeHash1 := if side then node.ChildR else node.ChildL
    let sibling := if side then node.ChildL else node.ChildR
    let siblings1 := siblings ++ [sibling]
    if nodeHash1 = EmptyNodeValue then
      if i + 2 = mt.numLevels ∧ sibling = EmptyNodeValue then
        match calcHashFromLeafAndLevel H (i + 1) path (HashBytes H v.Bytes) with
        | none => none
        | some finalNodeHash =>
          let mt1 := (mt.Insert finalNodeHash finalNodeType v.IndexLength v.Bytes).1
          let mt2 : MerkleTree := { mt1 with root := finalNodeHash }
          some ((mt2.Insert (rootNodeValue H) rootNodeType 0 mt2.root).1, none)
      else
        match calcHashFromLeafAndLevel H i path (HashBytes H v.Bytes) with
        | none => none
        | some finalNodeHash =>
          match mt.replaceLeaf H siblings1 (path.drop i) finalNodeHash finalNodeType
              v.IndexLength v.Bytes with
          | none => none
          | some (mt1, root) =>
            let mt2 : MerkleTree := { mt1 with root := root }
            some ((mt2.Insert (rootNodeValue H) rootNodeType 0 mt2.root).1, none)
    else addLoop H v path i mt nodeHash1 siblings1

/-- Add: the updated tree and the returned error (none is nil); the outer none is a
runtime failure (panic). -/
def MerkleTree.Add (H : RawHash) (mt : MerkleTree) (v : Value) : Option (MerkleTree × Option Error) :=
  let mt1 := (mt.Insert (HashBytes H v.Bytes) valueNodeType v.IndexLength v.Bytes).1
  match sliceTo v.Bytes v.IndexLength with
  | none => none
  | some index =>
  match getPath mt1.numLevels (HashBytes H index) with
  | none => none
  | some path => addLoop H v path (mt1.numLevels - 1) mt1 mt1.root []

/-- The loop of GetValueInPos: k iterations remain, i = k-1; k = 0 is the final Get. -/
def getValueLoop (H : RawHash) (mt : MerkleTree) (path : List Bool) :
    Nat → Hash → Option (List Nat × Option Error)
  | 0, nodeHash =>
    match mt.Get nodeHash with
    | none => none
    | some (_, _, valueBytes, err) => some (valueBytes, err)
  | i + 1, nodeHash =>
    match mt.Get nodeHash with
    | none => none
    | some (nodeType, indexLength, nodeBytes, err) =>
    match err with
    | some e => some (nodeBytes, some e)
    | none =>
    if nodeType = finalNodeType then
      match sliceTo nodeBytes indexLength with
      | none => none
      | some index =>
      match getPath mt.numLevels (HashBytes H index) with
      | none => none
      | some nodePath =>
      match comparePaths path nodePath with
      | none => none
      | some posDiff =>
        if posDiff ≠ -1 then some (EmptyNodeValue, none) else some (nodeBytes, none)
    else
      let node := parseNodeBytes nodeBytes
      match path[i]? with
      | none => none
      | some side => getValueLoop H mt path i (if side then node.ChildR else node.ChildL)

/-- GetValueInPos: the bytes found at the position of hi and the returned error. -/
def MerkleTree.GetValueInPos (H : RawHash) (mt : MerkleTree) (hi : Hash) :
    Option (List Nat × Option Error) :=
  match getPath mt.numLevels hi with
  | none => none
  | some path => getValueLoop H mt path (mt.numLevels - 1) mt.root

/-- The Final-node branch of GenerateProof (lines 175-199): the bitmap and siblings at the break. -/
def proofFinal (H : RawHash) (mt : MerkleTree) (hi : Hash) (path : List Bool) (level : Nat)
    (empties : List Nat) (siblings : List Hash) (indexLength : Nat) (nodeBytes : List Nat) :
    Option ((List Nat × List Hash) × Option Error) :=
  match mt.GetValueInPos H hi with
  | none => none
  | some (realValueInPos, err) =>
  match err with
  | some e => some ((empties, siblings), some e)
  | none =>
  if realValueInPos = EmptyNodeValue then
    match sliceTo nodeBytes indexLength with
    | none => none
    | some index =>
    match getPath mt.numLevels (HashBytes H index) with
    | none => none
    | some pathChild =>
    match comparePaths pathChild path with
    | none => none
    | some posDiff =>
    if posDiff = -1 then some ((empties, siblings), some Error.ErrNodeAlreadyExists) else
    if posDiff ≠ (mt.NumLevels : Int) - 1 - level then
      match calcHashFromLeafAndLevel H posDiff.toNat pathChild (HashBytes H nodeBytes) with
      | none => none
      | some sibling =>
        -- uint(NumLevels-2-posDiff): a negative value wraps to a huge bit number
        if (mt.NumLevels : Int) - 2 - posDiff < 0 then none else
        match setbitmap empties ((mt.NumLevels : Int) - 2 - posDiff).toNat with
        | none => none
        | some empties1 => some ((empties1, sibling :: siblings), none)
    else some ((empties, siblings), none)
  else some ((empties, siblings), none)

/-- The loop of GenerateProof: k iterations remain, starting at the given level. -/
def proofLoop (H : RawHash) (mt : MerkleTree) (hi : Hash) (path : List Bool) :
    Nat → Nat → Hash → List Nat → List Hash → Option ((List Nat × List Hash) × Option Error)
  | 0, _, _, empties, siblings => some ((empties, siblings), none)
  | k + 1, level, nodeHash, empties, siblings =>
    match mt.Get nodeHash with
    | none => none
    | some (nodeType, indexLength, nodeBytes, err) =>
    match err with
    | some e => some ((empties, siblings), some e)
    | none =>
    if nodeType = finalNodeType then
      proofFinal H mt hi path level empties siblings indexLength nodeBytes
    else
      let node := parseNodeBytes nodeBytes
      match path[mt.numLevels - level - 2]? with
      | none => none
      | some side =>
      let nodeHash1 := if side then node.ChildR else node.ChildL
      let sibling := if side then node.ChildL else node.ChildR
      if sibling ≠ EmptyNodeValue then
        match setbitmap empties level with
        | none => none
        | some empties1 => proofLoop H mt hi path k (level + 1) nodeHash1 empties1 (sibling :: siblings)
      else proofLoop H mt hi path k (level + 1) nodeHash1 empties siblings

/-- GenerateProof: the proof bytes bitmap ‖ siblings (deepest first) and the returned error;
on an error the returned proof is nil. -/
def MerkleTree.GenerateProof (H : RawHash) (mt : MerkleTree) (hi : Hash) :
    Option (List Nat × Option Error) :=
  match getPath mt.numLevels hi with
  | none => none
  | some path =>
    match proofLoop H mt hi path (mt.numLevels - 1) 0 mt.root (List.replicate 32 0) [] with
    | none => none
    | some (_, some e) => some ([], some e)
    | some ((empties, siblings), none) => some (empties ++ siblings.flatten, none)

/-- The sibling-parsing loop of CheckProof (lines 313-317) for a proof with no spare
capacity (parseSiblingsCap with spare = [], parseSiblingsCap_nil), over the bytes after the
bitmap: 32-byte blocks; slicing past the end is a runtime failure. The first argument bounds
the number of blocks. -/
def parseSiblings : Nat → List Nat → Option (List Hash)
  | 0, _ => some []
  | k + 1, rest =>
    if rest = [] then some []
    else if rest.length < 32 then none
    else match parseSiblings k (rest.drop 32) with
      | none => none
      | some tl => some (rest.take 32 :: tl)

/-- The verification loop of CheckProof: k iterations remain, level = k-1. -/
def checkLoop (H : RawHash) (numLevels : Nat) (empties : List Nat) (siblings : List Hash)
    (path : List Bool) : Nat → Hash → Nat → Option Hash
  | 0, nodeHash, _ => some nodeHash
  | level + 1, nodeHash, siblingUsedPos =>
    match testbitmap empties level with
    | none => none
    | some bit =>
    match (if bit then siblings[siblingUsedPos]? else some EmptyNodeValue),
        path[numLevels - level - 2]? with
    | some sibling, some side =>
      let node : treeNode :=
        if side then { ChildL := sibling, ChildR := nodeHash }
        else { ChildL := nodeHash, ChildR := sibling }
      let nodeHash1 :=
        if nodeHash = EmptyNodeValue ∧ sibling = EmptyNodeValue then EmptyNodeValue else node.Ht H
      checkLoop H numLevels empties siblings path level nodeHash1
        (if bit then siblingUsedPos + 1 else siblingUsedPos)
    | _, _ => none

/-- CheckProof on a proof with no spare capacity (CheckProofCap with spare = [],
CheckProofCap_nil); on a proof of a length 32 + 32k it is CheckProof for every capacity
(CheckProofCap_whole). none is a runtime failure (slice or index out of range). -/
def CheckProof (H : RawHash) (root : Hash) (proof : List Nat) (hi ht : Hash) (numLevels : Nat) :
    Option Bool :=
  match sliceTo proof 32 with
  | none => none
  | some empties =>
  match parseSiblings proof.length (proof.drop 32) with
  | none => none
  | some siblings =>
  match getPath numLevels hi with
  | none => none
  | some path =>
  match checkLoop H numLevels empties siblings path (numLevels - 1) ht 0 with
  | none => none
  | some nodeHash => some (decide (nodeHash = root))

/-- The sibling-parsing loop of CheckProof (lines 313-317): rest holds the bytes of the
proof from offset i to its end, spare the bytes of the backing array after the end. The loop
runs while i < len(proof); proof[i:i+32] is checked against the capacity, so a last block
shorter than 32 bytes is filled from the spare bytes, and it is a runtime failure only when
the capacity is too small. The first argument bounds the number of blocks. -/
def parseSiblingsCap : Nat → List Nat → List Nat → Option (List Hash)
  | 0, _, _ => some []
  | k + 1, rest, spare =>
    if rest = [] then some []
    else if rest.length + spare.length < 32 then none
    else match parseSiblingsCap k (rest.drop 32) spare with
      | none => none
      | some tl => some ((rest ++ spare).take 32 :: tl)

/-- CheckProof on a proof slice whose backing array goes on with the bytes spare after the
end of the proof: proof[:32] and proof[i:i+32] are checked against the capacity. none is a
runtime failure (slice or index out of range). -/
def CheckProofCap (H : RawHash) (root : Hash) (proof spare : List Nat) (hi ht : Hash)
    (numLevels : Nat) : Option Bool :=
  match sliceCap proof spare 32 with
  | none => none
  | some empties =>
  match parseSiblingsCap proof.length (proof.drop 32) spare with
  | none => none
  | some siblings =>
  match getPath numLevels hi with
  | none => none
  | some path =>
  match checkLoop H numLevels empties siblings path (numLevels - 1) ht 0 with
  | none => none
  | some nodeHash => some (decide (nodeHash = root))

/-! ## Running the tree -/

/-- A store with no bindings on which no operation fails. -/
def emptyDB : DB := { data := [], badPut := [], badGet := [] }

/-- The index hash of a leaf, HashBytes(v.Bytes()[:v.IndexLength()]) for IndexLength within
the bytes. -/
def Value.Hi (H : RawHash) (v : Value) : Hash := HashBytes H (v.Bytes.take v.IndexLength)

/-- A sequence of Add calls: the final tree and the error returned by each call. -/
def runAdds (H : RawHash) : MerkleTree → List Value → Option (MerkleTree × List (Option Error))
  | mt, [] => some (mt, [])
  | mt, v :: vs =>
    match mt.Add H v with
    | none => none
    | some (mt1, e) =>
      match runAdds H mt1 vs with
      | none => none
      | some (mt2, es) => some (mt2, e :: es)

/-- New on an empty store followed by a sequence of Add calls. -/
def build (H : RawHash) (numLevels : Nat) (vs : List Value) :
    Option (MerkleTree × List (Option Error)) :=
  match New H emptyDB numLevels with
  | some (some mt, none) => runAdds H mt vs
  | _ => none

/-- The tree that build returns (the empty tree when build fails). -/
def treeOf (H : RawHash) (numLevels : Nat) (vs : List Value) : MerkleTree :=
  match build H numLevels vs with
  | some (mt, _) => mt
  | none => { storage := emptyDB, root := EmptyNodeValue, numLevels := numLevels }

/-- The tree that New returns on a store (the empty tree on it when New returns none). -/
def treeOn (H : RawHash) (storage : DB) (numLevels : Nat) : MerkleTree :=
  match New H storage numLevels with
  | some (some mt, _) => mt
  | _ => { storage := storage, root := EmptyNodeValue, numLevels := numLevels }

/-- The tree after Add (the tree itself when Add fails). -/
def afterAdd (H : RawHash) (mt : MerkleTree) (v : Value) : MerkleTree :=
  match mt.Add H v with
  | some (mt1, _) => mt1
  | none => mt

/-- A leaf of one byte whose index is the whole leaf. -/
def leafA : Value := { Bytes := [1], IndexLength := 1 }

/-- A second leaf of one byte; with two levels it lies at the other position than leafA. -/
def leafB : Value := { Bytes := [3], IndexLength := 1 }

/-- A third leaf of one byte; with two levels it lies at the position of leafA. -/
def leafC : Value := { Bytes := [0], IndexLength := 1 }

/-- A leaf with the index hash of leafA and other bytes. -/
def leafA2 : Value := { Bytes := [1, 9], IndexLength := 1 }

/-- The leaf whose bytes are the 32 zero bytes of EmptyNodeValue. -/
def zeroLeaf : Value := { Bytes := List.replicate 32 0, IndexLength := 1 }

/-- The bytes of the leaves of TestVector4: 31 zero bytes and a byte 1. -/
def vector4Bytes : List Nat := List.replicate 31 0 ++ [1]

/-- The first leaf of TestVector4. -/
def vector4A : Value := { Bytes := vector4Bytes, IndexLength := 1 }

/-- The second leaf of TestVector4: the same bytes with index length 2. -/
def vector4B : Value := { Bytes := vector4Bytes, IndexLength := 2 }

/-- The bytes of TestVector4 with index length 5. -/
def vector4E : Value := { Bytes := vector4Bytes, IndexLength := 5 }

/-- The bytes of TestVector4 with index length 6. -/
def vector4F : Value := { Bytes := vector4Bytes, IndexLength := 6 }

/-- The bytes of TestVector4 with index length 7. -/
def vector4G : Value := { Bytes := vector4Bytes, IndexLength := 7 }

/-- The bytes of TestVector4 with index length 8. -/
def vector4H : Value := { Bytes := vector4Bytes, IndexLength := 8 }

/-- A leaf of 64 bytes that reads as the body of the Normal node over the digests of
leafA and leafC. -/
def pairLeaf (H : RawHash) : Value :=
  { Bytes := HashBytes H leafA.Bytes ++ HashBytes H leafC.Bytes, IndexLength := 5 }

/-- A leaf of one byte for a tree of three levels. -/
def leafD : Value := { Bytes := [5], IndexLength := 1 }

/-- A leaf of 64 bytes that reads as the body of a Normal node: Empty on the left and, on
the right, the digest of leafD parked one level below the root of a tree of three levels. Its
content hash is the root of the tree that holds leafD alone. -/
def nodeLeaf (H : RawHash) : Value :=
  { Bytes := EmptyNodeValue ++
      (treeNode.Ht H { ChildL := HashBytes H leafD.Bytes, ChildR := EmptyNodeValue }),
    IndexLength := 0 }

/-- An index hash: 31 zero bytes and the byte b. -/
def indexOf (b : Nat) : Hash := List.replicate 31 0 ++ [b]

/-- A store on which every write under the key fails. -/
def failingDB (key : List Nat) : DB := { data := [], badPut := [key], badGet := [] }

/-- The check of the content-addressing rule on one binding: a key other than the root key
is the hash of the body of its record. -/
def contentAddressed (H : RawHash) (kv : List Nat × List Nat) : Bool :=
  decide (kv.1 = rootNodeValue H) || decide (HashBytes H (kv.2.drop 5) = kv.1)

/-! ## The canonical tree of a set of leaves

The notions below state what the engine computes; they are used in the theorems only. -/

/-- The path of a leaf: getPath of its index hash (the empty path on a failure). -/
def Value.path (H : RawHash) (L : Nat) (v : Value) : List Bool :=
  (getPath L (v.Hi H)).getD []

/-- The leaves of ls whose path bit at index j is b. -/
def sideOf (H : RawHash) (L : Nat) (j : Nat) (b : Bool) (ls : List Value) : List Value :=
  ls.filter fun l => (l.path H L).getD j false = b

/-- The digest of the subtree of height j that holds the leaves ls: Empty for no leaf, the
content hash of the leaf at height 0, else the hash of the two child digests, the leaves
with path bit j-1 false on the left. -/
def canon (H : RawHash) (L : Nat) : Nat → List Value → Hash
  | 0, [] => EmptyNodeValue
  | 0, l :: _ => HashBytes H l.Bytes
  | j + 1, ls =>
    if ls = [] then EmptyNodeValue
    else treeNode.Ht H { ChildL := canon H L j (sideOf H L j false ls),
                         ChildR := canon H L j (sideOf H L j true ls) }

/-- The byte strings that are hashed for a set U of leaves in a tree of L levels: the string
"root", the leaf bytes, and the 64-byte bodies of the nodes over leaves of U. -/
def Hashed (H : RawHash) (L : Nat) (U : List Value) (x : List Nat) : Prop :=
  x = rootString ∨ (∃ v ∈ U, x = v.Bytes) ∨
    ∃ j a b, j + 1 ≤ L - 1 ∧ a ⊆ U ∧ b ⊆ U ∧ x = canon H L j a ++ canon H L j b

/-- The conditions on a set U of leaves and on the hash under which the tree is canonical:
depth within the bitmap, index lengths within the bytes, different leaves at different
positions and with different bytes, no leaf that reads as a node body or as the string
"root", and no collision and no all-zero digest among the hashed strings. -/
structure Hygiene (H : RawHash) (L : Nat) (U : List Value) : Prop where
  levels : L ≤ 257
  wf : ∀ v ∈ U, v.IndexLength ≤ v.Bytes.length ∧ v.IndexLength < 2 ^ 32
  nodup : U.Nodup
  paths : ∀ a ∈ U, ∀ b ∈ U, a.path H L = b.path H L → a = b
  bytes : ∀ a ∈ U, ∀ b ∈ U, a.Bytes = b.Bytes → a = b
  shape : ∀ v ∈ U, v.Bytes.length ≠ 64 ∧ v.Bytes ≠ rootString
  inj : ∀ x y, Hashed H L U x → Hashed H L U y → HashBytes H x = HashBytes H y → x = y
  nz : ∀ x, Hashed H L U x → HashBytes H x ≠ EmptyNodeValue

/-- The stored value of a record: tag, index length, body. -/
def record (tag il : Nat) (body : List Nat) : List Nat := [tag] ++ Uint32ToBytes il ++ body

/-- The leaves of a list agree on every path index from j on. -/
def AgreeFrom (H : RawHash) (L : Nat) (j : Nat) (ls : List Value) : Prop :=
  ∀ a ∈ ls, ∀ b ∈ ls, (a.path H L).drop j = (b.path H L).drop j

/-- A binding of the store is canonical for the leaves U: the root record, the Final record
of a leaf at some height, the record of a leaf under its content hash, or the Normal record
of a subtree with at least two leaves. -/
def CanonRec (H : RawHash) (L : Nat) (U : List Value) (key value : List Nat) : Prop :=
  key = rootNodeValue H ∨
  (∃ l ∈ U, ∃ j, 1 ≤ j ∧ j ≤ L - 1 ∧ key = canon H L j [l] ∧
    value = record finalNodeType l.IndexLength l.Bytes) ∨
  (∃ l ∈ U, key = HashBytes H l.Bytes ∧
    (value = record finalNodeType l.IndexLength l.Bytes ∨
     value = record valueNodeType l.IndexLength l.Bytes)) ∨
  (∃ j a, j + 1 ≤ L - 1 ∧ a ⊆ U ∧ AgreeFrom H L (j + 1) a ∧ (∃ x ∈ a, ∃ y ∈ a, x ≠ y) ∧
    key = canon H L (j + 1) a ∧
    value = record normalNodeType 0
      (canon H L j (sideOf H L j false a) ++ canon H L j (sideOf H L j true a)))

/-- The records of the subtree of height j over the leaves ls are in the store: nothing for
no leaf, the key of a single leaf, else the key of the node and the records of both children. -/
def Present (H : RawHash) (L : Nat) (data : List (List Nat × List Nat)) : Nat → List Value → Prop
  | 0, ls => ls = [] ∨ canon H L 0 ls ∈ data.map Prod.fst
  | j + 1, ls => ls = [] ∨ (canon H L (j + 1) ls ∈ data.map Prod.fst ∧
      ((∃ l, ls = [l]) ∨
        (Present H L data j (sideOf H L j false ls) ∧ Present H L data j (sideOf H L j true ls))))

/-- The leaves of S below the node of height m on the path p. -/
def below (H : RawHash) (L : Nat) (S : List Value) (p : List Bool) (m : Nat) : List Value :=
  S.filter fun l => (l.path H L).drop m = p.drop m

/-- The leaves of S below the sibling of height m of the path p. -/
def beside (H : RawHash) (L : Nat) (S : List Value) (p : List Bool) (m : Nat) : List Value :=
  sideOf H L m (!p.getD m false) (below H L S p (m + 1))

/-- The sibling digests of the path p from the root down to height k, in descent order. -/
def sibsFrom (H : RawHash) (L : Nat) (S : List Value) (p : List Bool) (k : Nat) : List Hash :=
  ((List.range (L - 1 - k)).map fun t => canon H L (k + t) (beside H L S p (k + t))).reverse

/-- The list has two different members. -/
def Multi (ls : List Value) : Prop := ∃ x ∈ ls, ∃ y ∈ ls, x ≠ y

/-- The tree mt1 is mt with further canonical bindings in its store. -/
def StoreExt (H : RawHash) (L : Nat) (U : List Value) (mt mt1 : MerkleTree) : Prop :=
  mt1.numLevels = mt.numLevels ∧ mt1.storage.badPut = mt.storage.badPut ∧
  mt1.storage.badGet = mt.storage.badGet ∧
  ∃ new, mt1.storage.data = new ++ mt.storage.data ∧ ∀ kv ∈ new, CanonRec H L U kv.1 kv.2

/-- The outcome of adding the new leaf v to a tree mt that holds S: Add returns nil and the
tree then holds v and S in canonical form. -/
def AddPost (H : RawHash) (L : Nat) (U S : List Value) (v : Value) (mt : MerkleTree)
    (r : Option (MerkleTree × Option Error)) : Prop :=
  ∃ mt1, r = some (mt1, none) ∧ StoreExt H L U mt mt1 ∧
    mt1.root = canon H L (L - 1) (v :: S) ∧
    mt1.storage.lookup (rootNodeValue H) = some (record rootNodeType 0 mt1.root) ∧
    Present H L mt1.storage.data (L - 1) (v :: S)

/-- The bytes at the position of the path p in a tree that holds S: the leaf with that
path, Empty when there is none. -/
def valueAt (H : RawHash) (L : Nat) (S : List Value) (p : List Bool) : List Nat :=
  match below H L S p 0 with
  | [] => EmptyNodeValue
  | u :: _ => u.Bytes

/-- The value of bit c of a bitmap (false on a failure of testbitmap). -/
def bitSet (bitmap : List Nat) (c : Nat) : Bool := (testbitmap bitmap c).getD false

/-- The sibling of height m of the path p as it appears in a proof: nothing when it is Empty. -/
def sibOpt (H : RawHash) (L : Nat) (S : List Value) (p : List Bool) (m : Nat) : Option Hash :=
  if beside H L S p m = [] then none else some (canon H L m (beside H L S p m))

/-- The non-Empty siblings of the path p below height m, deepest first. -/
def sibsUpTo (H : RawHash) (L : Nat) (S : List Value) (p : List Bool) (m : Nat) : List Hash :=
  (List.range m).filterMap (sibOpt H L S p)

/-- The bitmap marks, among the levels below lv, exactly those with a non-Empty sibling. -/
def BitsFor (H : RawHash) (L : Nat) (S : List Value) (p : List Bool) (bitmap : List Nat)
    (lv : Nat) : Prop :=
  bitmap.length = 32 ∧
    ∀ c, c < 256 → bitSet bitmap c = (decide (c < lv) && decide (beside H L S p (L - 2 - c) ≠ []))

/-- The trees have the same depth and the same failing keys. -/
def SameStore (mt mt1 : MerkleTree) : Prop :=
  mt1.numLevels = mt.numLevels ∧ mt1.storage.badPut = mt.storage.badPut ∧
    mt1.storage.badGet = mt.storage.badGet

/-- The way the engine addresses a binding: the root key; a Normal or a Value record under
the hash of its body; a Final record under the digest that calcHashFromLeafAndLevel folds,
up to some level, from the hash of its body along the path of its index. -/
def WellKeyed (H : RawHash) (L : Nat) (kv : List Nat × List Nat) : Prop :=
  kv.1 = rootNodeValue H ∨
  (∃ body, kv.2 = record normalNodeType 0 body ∧ kv.1 = HashBytes H body) ∨
  (∃ il body, kv.2 = record valueNodeType il body ∧ kv.1 = HashBytes H body) ∨
  (∃ il body level path, kv.2 = record finalNodeType il body ∧
    getPath L (HashBytes H (body.take il)) = some path ∧
    calcHashFromLeafAndLevel H level path (HashBytes H body) = some kv.1)

/-- Every binding of the store of mt is addressed in the way of the engine. -/
def Keyed (H : RawHash) (mt : MerkleTree) : Prop :=
  ∀ kv ∈ mt.storage.data, WellKeyed H mt.numLevels kv

/-- The root of mt1 is a digest and, when the store of mt0 accepts a write under the root
key, the store of mt1 holds the root record of mt1. -/
def RootDone (H : RawHash) (mt0 mt1 : MerkleTree) : Prop :=
  mt1.root.length = 32 ∧
    (rootNodeValue H ∉ mt0.storage.badPut →
      mt1.storage.lookup (rootNodeValue H) = some (record rootNodeType 0 mt1.root))

/-- What every run of Add on mt keeps: depth and failing keys, the addressing of the
bindings, and the root record after a nil return. -/
def AddFrame (H : RawHash) (mt : MerkleTree) (r : Option (MerkleTree × Option Error)) : Prop :=
  ∀ mt1 e, r = some (mt1, e) →
    SameStore mt mt1 ∧ (Keyed H mt → Keyed H mt1) ∧ (e = none → RootDone H mt mt1)

/-- The strings that are hashed for the leaves U in a tree of two levels: the string "root",
the leaf bytes, and the bodies of the root node over Empty and the leaf digests. -/
def hashedStrings (H : RawHash) (U : List Value) : List (List Nat) :=
  rootString :: (U.map fun l => l.Bytes) ++
    (EmptyNodeValue :: U.map fun l => HashBytes H l.Bytes).flatMap fun a =>
      (EmptyNodeValue :: U.map fun l => HashBytes H l.Bytes).map fun b => a ++ b

/-- The number of bits set in a bitmap. -/
def popcount (bitmap : List Nat) : Nat :=
  (List.range (8 * bitmap.length)).countP fun c => bitSet bitmap c

/-- The upward fold in the words of the specification: from the digest cur, combine with
the siblings in turn, the first one at path index k; the current digest is the right child
when the path bit is true. -/
def foldSiblings (H : RawHash) (path : List Bool) : Nat → List Hash → Hash → Hash
  | _, [], cur => cur
  | k, s :: ss, cur =>
    foldSiblings H path (k + 1) ss
      (if path.getD k false then treeNode.Ht H { ChildL := s, ChildR := cur }
       else treeNode.Ht H { ChildL := cur, ChildR := s })

/-- The siblings recorded by a descent of Add that passes k levels from nodeHash without
an error, without meeting a Final node and without meeting an Empty child; none when the
descent does not pass. -/
def descentSiblings (mt : MerkleTree) (path : List Bool) :
    Nat → Hash → List Hash → Option (List Hash)
  | 0, _, siblings => some siblings
  | i + 1, nodeHash, siblings =>
    match mt.Get nodeHash with
    | some (nodeType, _, nodeBytes, none) =>
      if nodeType = finalNodeType then none else
      match path[i]? with
      | none => none
      | some side =>
        let node := parseNodeBytes nodeBytes
        let nodeHash1 := if side then node.ChildR else node.ChildL
        let sibling := if side then node.ChildL else node.ChildR
        if nodeHash1 = EmptyNodeValue then none
        else descentSiblings mt path i nodeHash1 (siblings ++ [sibling])
    | _ => none

/-- The digest is the key of a Final node: Get returns the tag of a Final node. -/
def isFinalNode (mt : MerkleTree) (d : Hash) : Bool :=
  match mt.Get d with
  | some (tag, _, _, none) => decide (tag = finalNodeType)
  | _ => false

/-- The placement rule on the nodes reachable from the node d of height k: a node that is
not Empty and not Final has not two Empty children, a child that is a Final node has a
sibling that is not Empty, and the rule holds below both children. -/
def placedFrom (mt : MerkleTree) : Nat → Hash → Bool
  | 0, _ => true
  | k + 1, d =>
    if d = EmptyNodeValue then true else
    match mt.Get d with
    | some (tag, _, body, none) =>
      if tag = finalNodeType then true
      else
        !(decide ((parseNodeBytes body).ChildL = EmptyNodeValue) &&
            decide ((parseNodeBytes body).ChildR = EmptyNodeValue)) &&
        (!(isFinalNode mt (parseNodeBytes body).ChildL) ||
            decide ((parseNodeBytes body).ChildR ≠ EmptyNodeValue)) &&
        (!(isFinalNode mt (parseNodeBytes body).ChildR) ||
            decide ((parseNodeBytes body).ChildL ≠ EmptyNodeValue)) &&
        placedFrom mt k (parseNodeBytes body).ChildL &&
        placedFrom mt k (parseNodeBytes body).ChildR
    | _ => true

/-- The placement rule on the whole tree. -/
def placed (mt : MerkleTree) : Bool := placedFrom mt (mt.numLevels - 1) mt.root

/-- The store of mt1 is the store of mt with further bindings in front. -/
def Grows (mt mt1 : MerkleTree) : Prop :=
  ∃ new, mt1.storage.data = new ++ mt.storage.data

/-- The tree mt holds exactly the leaves S (all among U) in canonical form. -/
structure Holds (H : RawHash) (L : Nat) (U S : List Value) (mt : MerkleTree) : Prop where
  numLevels : mt.numLevels = L
  goodPut : mt.storage.badPut = []
  goodGet : mt.storage.badGet = []
  sub : S ⊆ U
  nodup : S.Nodup
  root : mt.root = canon H L (L - 1) S
  rootRec : mt.storage.lookup (rootNodeValue H) = some (record rootNodeType 0 mt.root)
  canonical : ∀ kv ∈ mt.storage.data, CanonRec H L U kv.1 kv.2
  present : Present H L mt.storage.data (L - 1) S

/-- A binding that is a Value record is stored under the hash of the bytes of v. -/
def ValueOf (H : RawHash) (v : Value) (kv : List Nat × List Nat) : Prop :=
  ∀ il body, kv.2 = record valueNodeType il body → kv.1 = HashBytes H v.Bytes

/-- The store of mt1 is the store of mt with further bindings in front, each with the
property P. -/
def GrowsWith (P : List Nat × List Nat → Prop) (mt mt1 : MerkleTree) : Prop :=
  ∃ new, mt1.storage.data = new ++ mt.storage.data ∧ ∀ kv ∈ new, P kv

/-- What every run of Add of v on mt does to the store: it adds bindings in front, and
the Value records among them are stored under the hash of the bytes of v. -/
def AddWrites (H : RawHash) (v : Value) (mt : MerkleTree)
    (r : Option (MerkleTree × Option Error)) : Prop :=
  ∀ mt1 e, r = some (mt1, e) → GrowsWith (ValueOf H v) mt mt1

/-- The leaf of TestIden3MerkletreeSpecification: the bytes of "this is a test leaf" with
index length 15. -/
def testLeaf : Value :=
  { Bytes := [116, 104, 105, 115, 32, 105, 115, 32, 97, 32, 116, 101, 115, 116, 32, 108, 101, 97, 102],
    IndexLength := 15 }

/-- The root 0xb4fdf8a6...da589f27 that TestIden3MerkletreeSpecification expects after Add of
testLeaf to an empty tree of 140 levels. -/
def testLeafRoot : Hash :=
  [180, 253, 248, 166, 83, 25, 143, 14, 23, 156, 203, 58, 247, 228, 252, 9,
   215, 98, 71, 244, 121, 214, 207, 201, 92, 217, 45, 111, 218, 88, 159, 39]

/-- The proof with bit c of its bitmap flipped: byte 31 - c/8 is changed under the mask
1 << (c mod 8). -/
def flipBit (proof : List Nat) (c : Nat) : List Nat :=
  proof.set (31 - c / 8) (proof.getD (31 - c / 8) 0 ^^^ 1 <<< (c % 8))

/-- The number of bits set in a bitmap among the bit numbers below n. -/
def setBelow (bitmap : List Nat) (n : Nat) : Nat :=
  (List.range n).countP fun c => bitSet bitmap c

/-- Go's conversion uint(x) of an int on a 64-bit platform. -/
def uintOf (x : Int) : Nat := (x % 2 ^ 64).toNat

/-- The bit number that the Final-node branch of GenerateProof (lines 175-199) passes to
setbitmap, when the run gets to line 193. -/
def proofFinalBits (H : RawHash) (mt : MerkleTree) (hi : Hash) (path : List Bool) (level : Nat)
    (indexLength : Nat) (nodeBytes : List Nat) : List Nat :=
  match mt.GetValueInPos H hi with
  | some (realValueInPos, none) =>
    if realValueInPos = EmptyNodeValue then
      match sliceTo nodeBytes indexLength with
      | none => []
      | some index =>
      match getPath mt.numLevels (HashBytes H index) with
      | none => []
      | some pathChild =>
      match comparePaths pathChild path with
      | none => []
      | some posDiff =>
        if posDiff = -1 then [] else
        if posDiff ≠ (mt.NumLevels : Int) - 1 - level then
          match calcHashFromLeafAndLevel H posDiff.toNat pathChild (HashBytes H nodeBytes) with
          | none => []
          | some _ => [uintOf ((mt.NumLevels : Int) - 2 - posDiff)]
        else []
    else []
  | _ => []

/-- The bit numbers that the loop of GenerateProof passes to setbitmap (lines 193 and 211),
in the order of the calls: the run is followed as in proofLoop, k iterations remain, and it
ends after a bit number outside the 32 bytes of the bitmap. -/
def proofBits (H : RawHash) (mt : MerkleTree) (hi : Hash) (path : List Bool) :
    Nat → Nat → Hash → List Nat
  | 0, _, _ => []
  | k + 1, level, nodeHash =>
    match mt.Get nodeHash with
    | some (nodeType, indexLength, nodeBytes, none) =>
      if nodeType = finalNodeType then
        proofFinalBits H mt hi path level indexLength nodeBytes
      else
        let node := parseNodeBytes nodeBytes
        match path[mt.numLevels - level - 2]? with
        | none => []
        | some side =>
        let nodeHash1 := if side then node.ChildR else node.ChildL
        let sibling := if side then node.ChildL else node.ChildR
        if sibling ≠ EmptyNodeValue then
          level :: (if level / 8 < 32 then proofBits H mt hi path k (level + 1) nodeHash1 else [])
        else proofBits H mt hi path k (level + 1) nodeHash1
    | _ => []

/-- The split of Add at the first Final node of the descent (lines 91-116): the descent
index i at which the Final node is read, posDiff, the number of siblings handed to
replaceLeaf and the length of the path handed to it; none when the descent fails or ends
before it meets a Final node. k iterations remain, i = k-1. -/
def splitArgs (H : RawHash) (path : List Bool) :
    Nat → MerkleTree → Hash → List Hash → Option (Nat × Int × Nat × Nat)
  | 0, _, _, _ => none
  | i + 1, mt, nodeHash, siblings =>
    match mt.Get nodeHash with
    | some (nodeType, indexLength, nodeBytes, none) =>
      if nodeType = finalNodeType then
        match sliceTo nodeBytes indexLength with
        | none => none
        | some index =>
        match getPath mt.numLevels (HashBytes H index) with
        | none => none
        | some pathChild =>
        match comparePaths pathChild path with
        | none => none
        | some posDiff =>
          some (i, posDiff,
            (siblings ++ getEmptiesBetweenIAndPosHash i (posDiff + 1)).length,
            (path.drop (posDiff.toNat + 1)).length)
      else
        let node := parseNodeBytes nodeBytes
        match path[i]? with
        | none => none
        | some side =>
        let nodeHash1 := if side then node.ChildR else node.ChildL
        let sibling := if side then node.ChildL else node.ChildR
        if nodeHash1 = EmptyNodeValue then none
        else splitArgs H path i mt nodeHash1 (siblings ++ [sibling])
    | _ => none

/-- A store that holds the root record of an empty tree and on which every further write
under the key HashBytes("root") fails. -/
def rootLockedDB (H : RawHash) : DB :=
  { data := [(rootNodeValue H, record rootNodeType 0 EmptyNodeValue)],
    badPut := [rootNodeValue H], badGet := [] }

section

/-! ## The hash primitive on the vectors of the test files -/

/-- The digest of "test" in merkletreeSpecification_test.go. -/
theorem keccak256_test_vector :
    HashBytes keccak256 [116, 101, 115, 116] =
      [0x9c, 0x22, 0xff, 0x5f, 0x21, 0xf0, 0xb8, 0x1b, 0x11, 0x3e, 0x63, 0xf7, 0xdb, 0x6d, 0xa9, 0x4f,
       0xed, 0xef, 0x11, 0xb2, 0x11, 0x9b, 0x40, 0x88, 0xb8, 0x96, 0x64, 0xfb, 0x9a, 0x3c, 0xb6, 0x58] := by
  decide!

/-- The node of two Empty children in node_test.go. -/
theorem treeNode_Ht_test_vector :
    treeNode.Ht keccak256 { ChildL := EmptyNodeValue, ChildR := EmptyNodeValue } =
      [0xad, 0x32, 0x28, 0xb6, 0x76, 0xf7, 0xd3, 0xcd, 0x42, 0x84, 0xa5, 0x44, 0x3f, 0x17, 0xf1, 0x96,
       0x2b, 0x36, 0xe4, 0x91, 0xb3, 0x0a, 0x40, 0xb2, 0x40, 0x58, 0x49, 0xe5, 0x97, 0xba, 0x5f, 0xb5] := by
  decide!

/-- TestVector4 of merkletree_test.go: root and proof of the second leaf. -/
theorem TestVector4_vector :
    (build keccak256 4 [⟨List.replicate 31 0 ++ [1], 1⟩, ⟨List.replicate 31 0 ++ [1], 2⟩]).map
        (fun r => (r.1.Root, r.2,
          r.1.GenerateProof keccak256 (Value.Hi keccak256 ⟨List.replicate 31 0 ++ [1], 2⟩))) =
      some ([0xc1, 0xb9, 0x5f, 0xfb, 0xb9, 0x99, 0xa6, 0xdd, 0x7a, 0x47, 0x2a, 0x61, 0x0a, 0x98, 0x89,
          0x1f, 0xfa, 0xe9, 0x5c, 0xc9, 0x73, 0xd1, 0xd1, 0xe2, 0x1a, 0xcf, 0xdd, 0x68, 0xdb, 0x83, 0x0b,
          0x51], [none, none],
        some (List.replicate 31 0 ++ [2] ++
          [0x3c, 0xf0, 0x25, 0xe4, 0xb4, 0xfc, 0x3e, 0xbe, 0x57, 0x37, 0x4b, 0xf0, 0xe0, 0xc7, 0x8c,
           0xeb, 0x00, 0x09, 0xbd, 0xc4, 0x46, 0x6a, 0x45, 0x17, 0x4d, 0x80, 0xe8, 0xf5, 0x08, 0xd1,
           0xa4, 0xe3], none)) := by
  decide!

end

section

/-! ## Digests and the codec -/

theorem EmptyNodeValue_length : EmptyNodeValue.length = 32 := by
  simp [EmptyNodeValue]

theorem copyHash_length (s : List Nat) : (copyHash s).length = 32 := by
  simp only [copyHash, List.length_append, List.length_take, List.length_replicate]
  omega

theorem copyHash_of_length {s : List Nat} (h : s.length = 32) : copyHash s = s := by
  simp [copyHash, h, List.take_of_length_le]

theorem HashBytes_length (H : RawHash) (b : List Nat) : (HashBytes H b).length = 32 :=
  copyHash_length _

theorem Ht_length (H : RawHash) (n : treeNode) : (n.Ht H).length = 32 :=
  copyHash_length _

theorem canon_length (H : RawHash) (L : Nat) (j : Nat) (ls : List Value) :
    (canon H L j ls).length = 32 := by
  cases j with
  | zero =>
    cases ls with
    | nil => simp [canon, EmptyNodeValue_length]
    | cons l t => simp [canon, HashBytes_length]
  | succ j =>
    simp only [canon]
    split
    · exact EmptyNodeValue_length
    · exact Ht_length _ _

theorem parseNodeBytes_append {a b : List Nat} (ha : a.length = 32) (hb : b.length = 32) :
    parseNodeBytes (a ++ b) = { ChildL := a, ChildR := b } := by
  simp [parseNodeBytes, List.take_append_of_le_length, List.drop_append_of_le_length, ha,
    copyHash_of_length hb, copyHash_of_length ha, List.take_of_length_le, List.drop_of_length_le]

theorem parseNodeBytes_empty :
    parseNodeBytes EmptyNodeValue = { ChildL := EmptyNodeValue, ChildR := EmptyNodeValue } := by
  decide

theorem BytesToUint32_Uint32ToBytes (il : Nat) (h : il < 2 ^ 32) (body : List Nat) :
    BytesToUint32 (Uint32ToBytes il ++ body) = some il := by
  simp only [Uint32ToBytes, BytesToUint32, List.cons_append, List.nil_append, Option.some.injEq]
  omega

theorem sliceTo_of_le {s : List Nat} {n : Nat} (h : n ≤ s.length) : sliceTo s n = some (s.take n) := by
  simp [sliceTo, h]

/-! ## The store adapter on a store without failures -/

theorem Insert_good (mt : MerkleTree) (key : Hash) (tag il : Nat) (body : List Nat)
    (h : mt.storage.badPut = []) :
    mt.Insert key tag il body =
      ({ mt with storage := { mt.storage with data := (key, record tag il body) :: mt.storage.data } },
        none) := by
  simp [MerkleTree.Insert, DB.Put, h, record]

theorem Get_record (mt : MerkleTree) (key : Hash) (tag il : Nat) (body : List Nat)
    (hk : key ≠ EmptyNodeValue) (hg : mt.storage.badGet = []) (hil : il < 2 ^ 32)
    (h : mt.storage.lookup key = some (record tag il body)) :
    mt.Get key = some (tag, il, body, none) := by
  have h5 : (record tag il body).drop 5 = body := by simp [record, Uint32ToBytes]
  have h1 : record tag il body = tag :: (Uint32ToBytes il ++ body) := by simp [record]
  have h2 := BytesToUint32_Uint32ToBytes il hil body
  simp only [MerkleTree.Get, hk, if_false, DB.Get, hg, List.not_mem_nil, h]
  rw [h1] at h5 ⊢
  simp only [h2, h5]

theorem Get_empty (mt : MerkleTree) : mt.Get EmptyNodeValue = some (0, 0, EmptyNodeValue, none) := by
  simp [MerkleTree.Get]

theorem lookup_cons (db : DB) (k v : List Nat) (key : List Nat) :
    ({ db with data := (k, v) :: db.data } : DB).lookup key =
      if k = key then some v else db.lookup key := by
  simp only [DB.lookup, List.find?_cons]
  by_cases h : k = key <;> simp [h]

theorem lookup_mem {db : DB} {key v : List Nat} (h : db.lookup key = some v) :
    (key, v) ∈ db.data := by
  simp only [DB.lookup, Option.map_eq_some'] at h
  obtain ⟨kv, hf, hv⟩ := h
  have := List.mem_of_find?_eq_some hf
  have hk := List.find?_some hf
  simp only [decide_eq_true_eq] at hk
  rcases kv with ⟨a, b⟩
  simp only at hk hv
  subst hk hv
  exact this

theorem lookup_isSome_of_key {db : DB} {key : List Nat} (h : key ∈ db.data.map Prod.fst) :
    ∃ v, db.lookup key = some v := by
  simp only [List.mem_map] at h
  obtain ⟨kv, hm, hk⟩ := h
  simp only [DB.lookup]
  cases hf : db.data.find? fun kv => decide (kv.1 = key) with
  | some r => exact ⟨r.2, rfl⟩
  | none =>
    have := List.find?_eq_none.mp hf kv hm
    simp [hk] at this

end

section

/-! ## Paths -/

theorem getPathFrom_some (hi : Hash) (k : Nat) (h : k ≤ 8 * hi.length) :
    ∃ p, getPathFrom hi k = some p ∧ p.length = k := by
  induction k with
  | zero => exact ⟨[], rfl, rfl⟩
  | succ k ih =>
    obtain ⟨p, hp, hl⟩ := ih (by omega)
    have hb : k / 8 < hi.length := by omega
    simp only [getPathFrom, testbitmap, hb, if_true, hp]
    exact ⟨_, rfl, by simp [hl]⟩

theorem getPath_some (L : Nat) (hi : Hash) (hL : L ≤ 257) (h : hi.length = 32) :
    ∃ p, getPath L hi = some p ∧ p.length = L - 1 :=
  getPathFrom_some hi (L - 1) (by omega)

theorem getPath_path (H : RawHash) (L : Nat) (v : Value) (hL : L ≤ 257) :
    getPath L (v.Hi H) = some (v.path H L) := by
  obtain ⟨p, hp, _⟩ := getPath_some L (v.Hi H) hL (HashBytes_length _ _)
  simp [Value.path, hp]

theorem path_length (H : RawHash) (L : Nat) (v : Value) (hL : L ≤ 257) :
    (v.path H L).length = L - 1 := by
  obtain ⟨p, hp, hl⟩ := getPath_some L (v.Hi H) hL (HashBytes_length _ _)
  simp [Value.path, hp, hl]

theorem drop_eq_getD_cons {p : List Bool} {k : Nat} (h : k < p.length) :
    p.drop k = p.getD k false :: p.drop (k + 1) := by
  rw [List.getD_eq_getElem _ _ h]
  exact List.drop_eq_getElem_cons h

theorem comparePathsFrom_spec (p q : List Bool) (hpq : p.length = q.length) :
    ∀ k, k ≤ p.length → p.drop k = q.drop k →
      (p = q → comparePathsFrom p q k = some (-1)) ∧
      (p ≠ q → ∃ d, d < k ∧ comparePathsFrom p q k = some (d : Int) ∧
        p.getD d false ≠ q.getD d false ∧ p.drop (d + 1) = q.drop (d + 1)) := by
  intro k
  induction k with
  | zero =>
    intro _ h
    simp only [List.drop_zero] at h
    exact ⟨fun _ => rfl, fun hne => absurd h hne⟩
  | succ k ih =>
    intro hk hd
    have hkp : k < p.length := by omega
    have hkq : k < q.length := by omega
    have e1 : p[k]? = some (p.getD k false) := by
      rw [List.getD_eq_getElem _ _ hkp]; exact List.getElem?_eq_getElem hkp
    have e2 : q[k]? = some (q.getD k false) := by
      rw [List.getD_eq_getElem _ _ hkq]; exact List.getElem?_eq_getElem hkq
    by_cases hx : p.getD k false = q.getD k false
    · have hd' : p.drop k = q.drop k := by
        rw [drop_eq_getD_cons hkp, drop_eq_getD_cons hkq, hx, hd]
      obtain ⟨i1, i2⟩ := ih (by omega) hd'
      have hstep : comparePathsFrom p q (k + 1) = comparePathsFrom p q k := by
        rw [comparePathsFrom, e1, e2]; exact if_neg (not_not.mpr hx)
      refine ⟨fun h => by rw [hstep]; exact i1 h, fun h => ?_⟩
      obtain ⟨d, hdk, hc, hne, hdd⟩ := i2 h
      exact ⟨d, by omega, by rw [hstep]; exact hc, hne, hdd⟩
    · have hstep : comparePathsFrom p q (k + 1) = some (k : Int) := by
        rw [comparePathsFrom, e1, e2]; exact if_pos hx
      refine ⟨fun h => ?_, fun _ => ⟨k, by omega, hstep, hx, hd⟩⟩
      exact absurd (by rw [h]) hx

theorem comparePaths_self (p : List Bool) : comparePaths p p = some (-1) :=
  ((comparePathsFrom_spec p p rfl p.length (le_refl _) rfl).1 rfl)

theorem comparePaths_ne {p q : List Bool} (hpq : p.length = q.length) (hne : p ≠ q) :
    ∃ d, d < p.length ∧ comparePaths p q = some (d : Int) ∧
      p.getD d false ≠ q.getD d false ∧ p.drop (d + 1) = q.drop (d + 1) := by
  have h := (comparePathsFrom_spec p q hpq p.length (le_refl _)
    (by rw [List.drop_length, hpq, List.drop_length])).2 hne
  exact h

/-! ## The canonical digest of a single leaf -/

theorem sideOf_single (H : RawHash) (L j : Nat) (b : Bool) (l : Value) :
    sideOf H L j b [l] = if (l.path H L).getD j false = b then [l] else [] := by
  simp only [sideOf, List.filter_cons, List.filter_nil, decide_eq_true_eq]

theorem canon_nil (H : RawHash) (L j : Nat) : canon H L j [] = EmptyNodeValue := by
  cases j <;> simp [canon]

theorem canon_succ_single (H : RawHash) (L j : Nat) (l : Value) :
    canon H L (j + 1) [l] =
      if (l.path H L).getD j false then
        treeNode.Ht H { ChildL := EmptyNodeValue, ChildR := canon H L j [l] }
      else treeNode.Ht H { ChildL := canon H L j [l], ChildR := EmptyNodeValue } := by
  simp only [canon, List.cons_ne_nil, if_false, sideOf_single]
  cases hb : (l.path H L).getD j false <;> simp [canon_nil]

theorem calcHashLoop_succ (H : RawHash) (path : List Bool) (k : Nat) :
    ∀ (i : Nat) (cur : Hash), calcHashLoop H path (k + 1) i cur =
      (calcHashLoop H path k i cur).bind fun c =>
        match path[i + k]? with
        | none => none
        | some true => some (treeNode.Ht H { ChildL := EmptyNodeValue, ChildR := c })
        | some false => some (treeNode.Ht H { ChildL := c, ChildR := EmptyNodeValue }) := by
  induction k with
  | zero =>
    intro i cur
    cases hp : path[i]? with
    | none => simp [calcHashLoop, hp]
    | some b => cases b <;> simp [calcHashLoop, hp]
  | succ k ih =>
    intro i cur
    rw [calcHashLoop]
    cases hp : path[i]? with
    | none => simp [calcHashLoop, hp]
    | some b =>
      have e : i + (k + 1) = i + 1 + k := by omega
      cases b
      · simp only [ih (i + 1), e]
        conv_rhs => rw [calcHashLoop]
        simp only [hp]
      · simp only [ih (i + 1), e]
        conv_rhs => rw [calcHashLoop]
        simp only [hp]

theorem calcHash_canon (H : RawHash) (L : Nat) (l : Value) (j : Nat)
    (hj : j ≤ (l.path H L).length) :
    calcHashFromLeafAndLevel H j (l.path H L) (HashBytes H l.Bytes) = some (canon H L j [l]) := by
  induction j with
  | zero => simp [calcHashFromLeafAndLevel, calcHashLoop, canon]
  | succ j ih =>
    have hlt : j < (l.path H L).length := by omega
    have ih' := ih (by omega)
    simp only [calcHashFromLeafAndLevel] at ih' ⊢
    rw [calcHashLoop_succ, ih', canon_succ_single, Nat.zero_add]
    have e1 : (l.path H L)[j]? = some ((l.path H L).getD j false) := by
      rw [List.getD_eq_getElem _ _ hlt]; exact List.getElem?_eq_getElem hlt
    simp only [Option.some_bind, e1]
    cases (l.path H L).getD j false <;> rfl

end

section

variable {H : RawHash} {L : Nat} {U : List Value}

/-! ## The canonical digest: emptiness, sides, injectivity -/

theorem sideOf_subset (j : Nat) (b : Bool) (ls : List Value) : sideOf H L j b ls ⊆ ls :=
  fun _ hx => (List.mem_filter.mp hx).1

theorem mem_sideOf {j : Nat} {b : Bool} {ls : List Value} {l : Value} :
    l ∈ sideOf H L j b ls ↔ l ∈ ls ∧ (l.path H L).getD j false = b := by
  simp [sideOf, List.mem_filter]

theorem mem_side_cases {j : Nat} {ls : List Value} {l : Value} (h : l ∈ ls) :
    l ∈ sideOf H L j false ls ∨ l ∈ sideOf H L j true ls := by
  cases hb : (l.path H L).getD j false
  · exact Or.inl (mem_sideOf.mpr ⟨h, hb⟩)
  · exact Or.inr (mem_sideOf.mpr ⟨h, hb⟩)

theorem Hashed_leaf {v : Value} (h : v ∈ U) : Hashed H L U v.Bytes :=
  Or.inr (Or.inl ⟨v, h, rfl⟩)

theorem Hashed_node {j : Nat} {a b : List Value} (hj : j + 1 ≤ L - 1) (ha : a ⊆ U) (hb : b ⊆ U) :
    Hashed H L U (canon H L j a ++ canon H L j b) :=
  Or.inr (Or.inr ⟨j, a, b, hj, ha, hb, rfl⟩)

theorem Hashed_root : Hashed H L U rootString := Or.inl rfl

theorem canon_succ_cons (j : Nat) {ls : List Value} (h : ls ≠ []) :
    canon H L (j + 1) ls = HashBytes H (canon H L j (sideOf H L j false ls) ++
      canon H L j (sideOf H L j true ls)) := by
  simp [canon, h, treeNode.Ht, treeNode.Bytes]

theorem canon_zero_cons (l : Value) (t : List Value) : canon H L 0 (l :: t) = HashBytes H l.Bytes :=
  rfl

theorem canon_ne_empty (hy : Hygiene H L U) (j : Nat) (hj : j ≤ L - 1) {ls : List Value}
    (hs : ls ⊆ U) (hne : ls ≠ []) : canon H L j ls ≠ EmptyNodeValue := by
  cases j with
  | zero =>
    cases ls with
    | nil => exact absurd rfl hne
    | cons l t => exact hy.nz _ (Hashed_leaf (hs (List.mem_cons_self _ _)))
  | succ j =>
    rw [canon_succ_cons j hne]
    exact hy.nz _ (Hashed_node hj ((sideOf_subset _ _ _).trans hs)
      ((sideOf_subset _ _ _).trans hs))

theorem canon_eq_empty_iff (hy : Hygiene H L U) (j : Nat) (hj : j ≤ L - 1) {ls : List Value}
    (hs : ls ⊆ U) : canon H L j ls = EmptyNodeValue ↔ ls = [] := by
  constructor
  · intro h
    by_contra hne
    exact canon_ne_empty hy j hj hs hne h
  · intro h
    rw [h, canon_nil]

theorem append_inj32 {a b c d : List Nat} (ha : a.length = 32) (hc : c.length = 32)
    (h : a ++ b = c ++ d) : a = c ∧ b = d :=
  List.append_inj h (by rw [ha, hc])

theorem AgreeFrom_side {j : Nat} {b : Bool} {ls : List Value} (hy : Hygiene H L U)
    (h : AgreeFrom H L (j + 1) ls) : AgreeFrom H L j (sideOf H L j b ls) := by
  intro x hx y hy'
  obtain ⟨hx1, hx2⟩ := mem_sideOf.mp hx
  obtain ⟨hy1, hy2⟩ := mem_sideOf.mp hy'
  have hd := h x hx1 y hy1
  have lx := path_length H L x hy.levels
  have ly := path_length H L y hy.levels
  by_cases hj : j < L - 1
  · have ex := drop_eq_getD_cons (p := x.path H L) (k := j) (by omega)
    have ey := drop_eq_getD_cons (p := y.path H L) (k := j) (by omega)
    rw [ex, ey, hx2, hy2, hd]
  · rw [List.drop_of_length_le (by omega), List.drop_of_length_le (by omega)]

theorem AgreeFrom_single (j : Nat) (l : Value) : AgreeFrom H L j [l] := by
  intro a ha b hb
  simp only [List.mem_singleton] at ha hb
  rw [ha, hb]

theorem AgreeFrom_top (hy : Hygiene H L U) (ls : List Value) : AgreeFrom H L (L - 1) ls := by
  intro a _ b _
  rw [List.drop_of_length_le (by rw [path_length H L a hy.levels]),
    List.drop_of_length_le (by rw [path_length H L b hy.levels])]

theorem eq_of_AgreeFrom_zero (hy : Hygiene H L U) {ls : List Value} (hs : ls ⊆ U)
    (h : AgreeFrom H L 0 ls) {a b : Value} (ha : a ∈ ls) (hb : b ∈ ls) : a = b := by
  have := h a ha b hb
  simp only [List.drop_zero] at this
  exact hy.paths a (hs ha) b (hs hb) this

theorem leaf_ne_node (hy : Hygiene H L U) {l : Value} (hl : l ∈ U) {j : Nat} {a b : List Value}
    (hj : j + 1 ≤ L - 1) (ha : a ⊆ U) (hb : b ⊆ U) :
    HashBytes H l.Bytes ≠ HashBytes H (canon H L j a ++ canon H L j b) := by
  intro h
  have := hy.inj _ _ (Hashed_leaf hl) (Hashed_node hj ha hb) h
  have hl64 := (hy.shape l hl).1
  apply hl64
  rw [this, List.length_append, canon_length, canon_length]

theorem canon_inj (hy : Hygiene H L U) :
    ∀ (j j' : Nat) (a b : List Value), j ≤ L - 1 → j' ≤ L - 1 → a ⊆ U → b ⊆ U →
      AgreeFrom H L j a → AgreeFrom H L j' b →
      a ≠ [] → canon H L j a = canon H L j' b → j = j' ∧ ∀ l, l ∈ a ↔ l ∈ b := by
  intro j
  induction j with
  | zero =>
    intro j' a b hj hj' ha hb hga hgb hne he
    cases a with
    | nil => exact absurd rfl hne
    | cons l t =>
      have hlU : l ∈ U := ha (List.mem_cons_self _ _)
      cases b with
      | nil =>
        rw [canon_nil] at he
        exact absurd he (canon_ne_empty hy 0 hj ha hne)
      | cons l' t' =>
        have hl'U : l' ∈ U := hb (List.mem_cons_self _ _)
        cases j' with
        | zero =>
          rw [canon_zero_cons, canon_zero_cons] at he
          have hbs := hy.inj _ _ (Hashed_leaf hlU) (Hashed_leaf hl'U) he
          have hll : l = l' := hy.bytes l hlU l' hl'U hbs
          refine ⟨rfl, fun x => ?_⟩
          constructor
          · intro hx
            have := eq_of_AgreeFrom_zero hy ha hga hx (List.mem_cons_self _ _)
            rw [this, hll]; exact List.mem_cons_self _ _
          · intro hx
            have := eq_of_AgreeFrom_zero hy hb hgb hx (List.mem_cons_self _ _)
            rw [this, ← hll]; exact List.mem_cons_self _ _
        | succ j' =>
          rw [canon_zero_cons, canon_succ_cons j' (List.cons_ne_nil _ _)] at he
          exact absurd he (leaf_ne_node hy hlU hj' ((sideOf_subset _ _ _).trans hb)
            ((sideOf_subset _ _ _).trans hb))
  | succ j ih =>
    intro j' a b hj hj' ha hb hga hgb hne he
    have hbne : b ≠ [] := by
      intro hbn
      rw [hbn, canon_nil] at he
      exact canon_ne_empty hy _ hj ha hne he
    cases j' with
    | zero =>
      cases b with
      | nil => exact absurd rfl hbne
      | cons l' t' =>
        rw [canon_zero_cons, canon_succ_cons j hne] at he
        exact absurd he.symm (leaf_ne_node hy (hb (List.mem_cons_self _ _)) hj
          ((sideOf_subset _ _ _).trans ha) ((sideOf_subset _ _ _).trans ha))
    | succ j' =>
      rw [canon_succ_cons j hne, canon_succ_cons j' hbne] at he
      have hsa : ∀ s, sideOf H L j s a ⊆ U := fun s => (sideOf_subset _ _ _).trans ha
      have hsb : ∀ s, sideOf H L j' s b ⊆ U := fun s => (sideOf_subset _ _ _).trans hb
      have hbody := hy.inj _ _ (Hashed_node hj (hsa false) (hsa true))
        (Hashed_node hj' (hsb false) (hsb true)) he
      obtain ⟨e0, e1⟩ := append_inj32 (canon_length _ _ _ _) (canon_length _ _ _ _) hbody
      have side : ∀ s, canon H L j (sideOf H L j s a) = canon H L j' (sideOf H L j' s b) := by
        intro s; cases s
        · exact e0
        · exact e1
      have key : ∀ s, sideOf H L j s a ≠ [] →
          j = j' ∧ ∀ l, l ∈ sideOf H L j s a ↔ l ∈ sideOf H L j' s b := fun s hs =>
        ih j' _ _ (by omega) (by omega) (hsa s) (hsb s) (AgreeFrom_side hy hga)
          (AgreeFrom_side hy hgb) hs (side s)
      obtain ⟨l0, hl0⟩ := List.exists_mem_of_ne_nil a hne
      have hjj : j = j' := by
        rcases mem_side_cases (H := H) (L := L) (j := j) hl0 with h | h
        · exact (key false (List.ne_nil_of_mem h)).1
        · exact (key true (List.ne_nil_of_mem h)).1
      subst hjj
      have sides : ∀ s l, l ∈ sideOf H L j s a ↔ l ∈ sideOf H L j s b := by
        intro s l
        by_cases hs : sideOf H L j s a = []
        · have hbs : sideOf H L j s b = [] := by
            have := side s
            rw [hs, canon_nil] at this
            exact (canon_eq_empty_iff hy j (by omega) (hsb s)).mp this.symm
          rw [hs, hbs]
        · exact (key s hs).2 l
      refine ⟨rfl, fun l => ?_⟩
      constructor
      · intro hl
        rcases mem_side_cases (H := H) (L := L) (j := j) hl with h | h
        · exact (mem_sideOf.mp ((sides _ l).mp h)).1
        · exact (mem_sideOf.mp ((sides _ l).mp h)).1
      · intro hl
        rcases mem_side_cases (H := H) (L := L) (j := j) hl with h | h
        · exact (mem_sideOf.mp ((sides _ l).mpr h)).1
        · exact (mem_sideOf.mp ((sides _ l).mpr h)).1

/-- The canonical digest depends on the set of leaves only. -/
theorem canon_congr (hy : Hygiene H L U) :
    ∀ (j : Nat) (a b : List Value), a ⊆ U → AgreeFrom H L j a → (∀ l, l ∈ a ↔ l ∈ b) →
      canon H L j a = canon H L j b := by
  intro j
  induction j with
  | zero =>
    intro a b ha hga hab
    cases a with
    | nil =>
      cases b with
      | nil => rfl
      | cons l t => exact absurd ((hab l).mpr (List.mem_cons_self _ _)) (List.not_mem_nil _)
    | cons l t =>
      cases b with
      | nil => exact absurd ((hab l).mp (List.mem_cons_self _ _)) (List.not_mem_nil _)
      | cons l' t' =>
        have h1 : l' ∈ l :: t := (hab l').mpr (List.mem_cons_self _ _)
        have := eq_of_AgreeFrom_zero hy ha hga h1 (List.mem_cons_self _ _)
        rw [canon_zero_cons, canon_zero_cons, this]
  | succ j ih =>
    intro a b ha hga hab
    by_cases hne : a = []
    · have hb : b = [] := by
        cases b with
        | nil => rfl
        | cons l t => exact absurd ((hab l).mpr (List.mem_cons_self _ _)) (by rw [hne]; exact List.not_mem_nil _)
      rw [hne, hb]
    · have hbne : b ≠ [] := by
        obtain ⟨l0, hl0⟩ := List.exists_mem_of_ne_nil a hne
        exact List.ne_nil_of_mem ((hab l0).mp hl0)
      rw [canon_succ_cons j hne, canon_succ_cons j hbne]
      have hside : ∀ s, canon H L j (sideOf H L j s a) = canon H L j (sideOf H L j s b) := fun s =>
        ih _ _ ((sideOf_subset _ _ _).trans ha) (AgreeFrom_side hy hga) (fun l => by
          rw [mem_sideOf, mem_sideOf, hab l])
      rw [hside false, hside true]

end

section

variable {H : RawHash} {L : Nat} {U : List Value}

/-! ## What a canonical store returns -/

theorem node_ne_rootKey (hy : Hygiene H L U) {j : Nat} (hj : j + 1 ≤ L - 1) {a : List Value}
    (ha : a ⊆ U) (hne : a ≠ []) : canon H L (j + 1) a ≠ rootNodeValue H := by
  intro h
  rw [canon_succ_cons j hne] at h
  have := hy.inj _ _ (Hashed_node hj ((sideOf_subset _ _ _).trans ha)
    ((sideOf_subset _ _ _).trans ha)) Hashed_root h
  have hl := congrArg List.length this
  rw [List.length_append, canon_length, canon_length] at hl
  simp [rootString] at hl

theorem leaf_ne_rootKey (hy : Hygiene H L U) {l : Value} (hl : l ∈ U) :
    HashBytes H l.Bytes ≠ rootNodeValue H := by
  intro h
  exact (hy.shape l hl).2 (hy.inj _ _ (Hashed_leaf hl) Hashed_root h)

theorem Multi_not_single {ls : List Value} (h : Multi ls) (l : Value)
    (hl : ∀ x, x ∈ ls ↔ x ∈ [l]) : False := by
  obtain ⟨x, hx, y, hy', hne⟩ := h
  have h1 := (hl x).mp hx
  have h2 := (hl y).mp hy'
  simp only [List.mem_singleton] at h1 h2
  exact hne (h1.trans h2.symm)

theorem read_final (hy : Hygiene H L U) {data : List (List Nat × List Nat)}
    (hc : ∀ kv ∈ data, CanonRec H L U kv.1 kv.2) {l : Value} (hl : l ∈ U) {j : Nat} (hj : 1 ≤ j)
    (hjL : j ≤ L - 1) {val : List Nat} (hm : (canon H L j [l], val) ∈ data) :
    val = record finalNodeType l.IndexLength l.Bytes := by
  obtain ⟨j, rfl⟩ : ∃ i, j = i + 1 := ⟨j - 1, by omega⟩
  have hsub : [l] ⊆ U := by simpa using hl
  have hcr : CanonRec H L U _ val := hc _ hm
  rcases hcr with h | ⟨l', hl', j', hj', hj2, hk, hv⟩ | ⟨l', hl', hk, _⟩ |
    ⟨j', a, hj2, ha, hga, hmu, hk, _⟩
  · exact absurd h (node_ne_rootKey hy hjL hsub (List.cons_ne_nil _ _))
  · have := canon_inj hy _ _ _ _ hjL hj2 hsub (by simpa using hl') (AgreeFrom_single _ _)
      (AgreeFrom_single _ _) (List.cons_ne_nil _ _) hk
    have hll : l = l' := by simpa using (this.2 l).mp (List.mem_cons_self _ _)
    rw [hv, hll]
  · have hk' : canon H L (j + 1) [l] = canon H L 0 [l'] := hk
    have := canon_inj hy _ _ _ _ hjL (Nat.zero_le _) hsub (by simpa using hl')
      (AgreeFrom_single _ _) (AgreeFrom_single _ _) (List.cons_ne_nil _ _) hk'
    exact absurd this.1 (by omega)
  · have := canon_inj hy _ _ _ _ hjL hj2 hsub ha (AgreeFrom_single _ _) hga
      (List.cons_ne_nil _ _) hk
    exact (Multi_not_single hmu l (fun x => (this.2 x).symm)).elim

theorem read_normal (hy : Hygiene H L U) {data : List (List Nat × List Nat)}
    (hc : ∀ kv ∈ data, CanonRec H L U kv.1 kv.2) {j : Nat} (hjL : j + 1 ≤ L - 1)
    {a : List Value} (ha : a ⊆ U)
    (hga : AgreeFrom H L (j + 1) a) (hmu : Multi a)
    {val : List Nat} (hm : (canon H L (j + 1) a, val) ∈ data) :
    val = record normalNodeType 0
      (canon H L j (sideOf H L j false a) ++ canon H L j (sideOf H L j true a)) := by
  have hne : a ≠ [] := by
    obtain ⟨x, hx, _⟩ := hmu
    exact List.ne_nil_of_mem hx
  have hcr : CanonRec H L U _ val := hc _ hm
  rcases hcr with h | ⟨l', hl', j', hj', hj2, hk, hv⟩ | ⟨l', hl', hk, _⟩ |
    ⟨j', a', hj2, ha', hga', hmu', hk, hv⟩
  · exact absurd h (node_ne_rootKey hy hjL ha hne)
  · have := canon_inj hy _ _ _ _ hjL hj2 ha (by simpa using hl') hga (AgreeFrom_single _ _) hne hk
    exact (Multi_not_single hmu l' this.2).elim
  · have hk' : canon H L (j + 1) a = canon H L 0 [l'] := hk
    have := canon_inj hy _ _ _ _ hjL (Nat.zero_le _) ha (by simpa using hl') hga
      (AgreeFrom_single _ _) hne hk'
    exact absurd this.1 (by omega)
  · have hne' : a' ≠ [] := by
      obtain ⟨x, hx, _⟩ := hmu'
      exact List.ne_nil_of_mem hx
    have hjj := (canon_inj hy _ _ _ _ hjL hj2 ha ha' hga hga' hne hk).1
    have hjj' : j = j' := by omega
    subst hjj'
    rw [canon_succ_cons j hne, canon_succ_cons j hne'] at hk
    have := hy.inj _ _ (Hashed_node hjL ((sideOf_subset _ _ _).trans ha)
      ((sideOf_subset _ _ _).trans ha)) (Hashed_node hjL ((sideOf_subset _ _ _).trans ha')
      ((sideOf_subset _ _ _).trans ha')) hk
    rw [hv, this]

theorem read_leaf (hy : Hygiene H L U) {data : List (List Nat × List Nat)}
    (hc : ∀ kv ∈ data, CanonRec H L U kv.1 kv.2) {l : Value} (hl : l ∈ U)
    {val : List Nat} (hm : (HashBytes H l.Bytes, val) ∈ data) :
    val = record finalNodeType l.IndexLength l.Bytes ∨
      val = record valueNodeType l.IndexLength l.Bytes := by
  have hsub : [l] ⊆ U := by simpa using hl
  have h0 : HashBytes H l.Bytes = canon H L 0 [l] := rfl
  have hcr : CanonRec H L U _ val := hc _ hm
  rcases hcr with h | ⟨l', hl', j', hj', hj2, hk, hv⟩ | ⟨l', hl', hk, hv⟩ |
    ⟨j', a, hj2, ha, hga, hmu, hk, _⟩
  · exact absurd h (leaf_ne_rootKey hy hl)
  · have hk' : canon H L 0 [l] = canon H L j' [l'] := hk
    have := canon_inj hy _ _ _ _ (Nat.zero_le _) hj2 hsub (by simpa using hl')
      (AgreeFrom_single _ _) (AgreeFrom_single _ _) (List.cons_ne_nil _ _) hk'
    exact absurd this.1 (by omega)
  · have hk' : HashBytes H l.Bytes = HashBytes H l'.Bytes := hk
    have := hy.bytes l hl l' hl' (hy.inj _ _ (Hashed_leaf hl) (Hashed_leaf hl') hk')
    rw [this]; exact hv
  · have hk' : canon H L 0 [l] = canon H L (j' + 1) a := hk
    have := canon_inj hy _ _ _ _ (Nat.zero_le _) hj2 hsub ha (AgreeFrom_single _ _) hga
      (List.cons_ne_nil _ _) hk'
    exact absurd this.1 (by omega)

/-! ## The leaves below and beside a path -/

theorem below_subset (S : List Value) (p : List Bool) (m : Nat) : below H L S p m ⊆ S :=
  fun _ hx => (List.mem_filter.mp hx).1

theorem mem_below {S : List Value} {p : List Bool} {m : Nat} {l : Value} :
    l ∈ below H L S p m ↔ l ∈ S ∧ (l.path H L).drop m = p.drop m := by
  simp [below, List.mem_filter]

theorem beside_subset (S : List Value) (p : List Bool) (m : Nat) : beside H L S p m ⊆ S :=
  (sideOf_subset _ _ _).trans (below_subset _ _ _)

theorem below_top (hy : Hygiene H L U) {S : List Value} {p : List Bool} (hp : p.length = L - 1) :
    below H L S p (L - 1) = S := by
  unfold below
  rw [List.filter_eq_self]
  intro l _
  rw [List.drop_of_length_le (by rw [path_length H L l hy.levels]),
    List.drop_of_length_le (by rw [hp])]
  simp

theorem below_step (hy : Hygiene H L U) {S : List Value} {p : List Bool} (hp : p.length = L - 1)
    {m : Nat} (hm : m < L - 1) :
    below H L S p m = sideOf H L m (p.getD m false) (below H L S p (m + 1)) := by
  unfold below sideOf
  rw [List.filter_filter]
  apply List.filter_congr
  intro l _
  have e1 := drop_eq_getD_cons (p := l.path H L) (k := m) (by rw [path_length H L l hy.levels]; exact hm)
  have e2 := drop_eq_getD_cons (p := p) (k := m) (by rw [hp]; exact hm)
  rw [e1, e2]
  by_cases h1 : (l.path H L).getD m false = p.getD m false <;>
    by_cases h2 : (l.path H L).drop (m + 1) = p.drop (m + 1) <;> simp [h1, h2]

theorem AgreeFrom_below (S : List Value) (p : List Bool) (m : Nat) :
    AgreeFrom H L m (below H L S p m) := by
  intro a ha b hb
  rw [(mem_below.mp ha).2, (mem_below.mp hb).2]

theorem AgreeFrom_cons_below {S : List Value} {v : Value} (m : Nat) :
    AgreeFrom H L m (v :: below H L S (v.path H L) m) := by
  intro a ha b hb
  have key : ∀ x, x ∈ v :: below H L S (v.path H L) m →
      (x.path H L).drop m = (v.path H L).drop m := by
    intro x hx
    rcases List.mem_cons.mp hx with h | h
    · rw [h]
    · exact (mem_below.mp h).2
  rw [key a ha, key b hb]

theorem side_same_cons (hy : Hygiene H L U) {S : List Value} {v : Value} {m : Nat}
    (hm : m < L - 1) :
    sideOf H L m ((v.path H L).getD m false) (v :: below H L S (v.path H L) (m + 1)) =
      v :: below H L S (v.path H L) m := by
  rw [below_step hy (path_length H L v hy.levels) hm]
  simp [sideOf, List.filter_cons]

theorem side_other_cons {S : List Value} {v : Value} {m : Nat} :
    sideOf H L m (!(v.path H L).getD m false) (v :: below H L S (v.path H L) (m + 1)) =
      beside H L S (v.path H L) m := by
  simp [sideOf, beside, List.filter_cons]

theorem ordered_children (j : Nat) (b : Bool) {ls : List Value} (hne : ls ≠ []) :
    canon H L (j + 1) ls =
      treeNode.Ht H (if b then { ChildL := canon H L j (sideOf H L j (!b) ls),
                                 ChildR := canon H L j (sideOf H L j b ls) }
                     else { ChildL := canon H L j (sideOf H L j b ls),
                            ChildR := canon H L j (sideOf H L j (!b) ls) }) := by
  cases b <;> simp [canon, hne]

/-- The node of the new tree at height m+1 on the path of v, from its two children. -/
theorem canon_path_step (hy : Hygiene H L U) {S : List Value} {v : Value} {m : Nat}
    (hm : m < L - 1) :
    canon H L (m + 1) (v :: below H L S (v.path H L) (m + 1)) =
      treeNode.Ht H (if (v.path H L).getD m false then
          { ChildL := canon H L m (beside H L S (v.path H L) m),
            ChildR := canon H L m (v :: below H L S (v.path H L) m) }
        else
          { ChildL := canon H L m (v :: below H L S (v.path H L) m),
            ChildR := canon H L m (beside H L S (v.path H L) m) }) := by
  rw [ordered_children m ((v.path H L).getD m false) (List.cons_ne_nil _ _),
    side_same_cons hy hm, side_other_cons]

/-- The node of the old tree at height m+1 on a path, from its two children. -/
theorem canon_below_step (hy : Hygiene H L U) {S : List Value} {p : List Bool}
    (hp : p.length = L - 1) {m : Nat} (hm : m < L - 1) (hne : below H L S p (m + 1) ≠ []) :
    canon H L (m + 1) (below H L S p (m + 1)) =
      treeNode.Ht H (if p.getD m false then
          { ChildL := canon H L m (beside H L S p m), ChildR := canon H L m (below H L S p m) }
        else
          { ChildL := canon H L m (below H L S p m), ChildR := canon H L m (beside H L S p m) }) := by
  rw [ordered_children m (p.getD m false) hne, ← below_step hy hp hm]
  rfl

/-! ## The recorded siblings -/

theorem sibsFrom_length (S : List Value) (p : List Bool) (k : Nat) :
    (sibsFrom H L S p k).length = L - 1 - k := by
  simp [sibsFrom]

theorem sibsFrom_top (S : List Value) (p : List Bool) : sibsFrom H L S p (L - 1) = [] := by
  simp [sibsFrom]

theorem sibsFrom_step (S : List Value) (p : List Bool) {k : Nat} (hk : k < L - 1) :
    sibsFrom H L S p k = sibsFrom H L S p (k + 1) ++ [canon H L k (beside H L S p k)] := by
  unfold sibsFrom
  have e : L - 1 - k = (L - 1 - (k + 1)) + 1 := by omega
  rw [e, List.range_succ_eq_map, List.map_cons, List.reverse_cons, List.map_map]
  congr 2
  apply List.map_congr_left
  intro t _
  simp only [Function.comp, Nat.add_zero]
  have : k + (t + 1) = k + 1 + t := by omega
  rw [this]

theorem sibsFrom_get (S : List Value) (p : List Bool) (e t : Nat) (ht : e + t < L - 1) :
    (sibsFrom H L S p e)[(sibsFrom H L S p e).length - 1 - t]? =
      some (canon H L (e + t) (beside H L S p (e + t))) := by
  rw [sibsFrom_length]
  unfold sibsFrom
  rw [List.getElem?_reverse (by simp; omega)]
  simp only [List.length_map, List.length_range]
  have : L - 1 - e - 1 - (L - 1 - e - 1 - t) = t := by omega
  rw [this, List.getElem?_map, List.getElem?_range (by omega)]
  rfl

end

section

variable {H : RawHash} {L : Nat} {U : List Value}

/-! ## Growing the store -/

theorem StoreExt.refl (mt : MerkleTree) : StoreExt H L U mt mt :=
  ⟨rfl, rfl, rfl, [], rfl, fun _ h => absurd h (List.not_mem_nil _)⟩

theorem StoreExt.trans {a b c : MerkleTree} (h1 : StoreExt H L U a b) (h2 : StoreExt H L U b c) :
    StoreExt H L U a c := by
  obtain ⟨n1, p1, g1, new1, d1, c1⟩ := h1
  obtain ⟨n2, p2, g2, new2, d2, c2⟩ := h2
  refine ⟨n2.trans n1, p2.trans p1, g2.trans g1, new2 ++ new1, ?_, ?_⟩
  · rw [d2, d1, List.append_assoc]
  · intro kv hkv
    rcases List.mem_append.mp hkv with h | h
    · exact c2 kv h
    · exact c1 kv h

theorem StoreExt.keys {a b : MerkleTree} (h : StoreExt H L U a b) {k : List Nat}
    (hk : k ∈ a.storage.data.map Prod.fst) : k ∈ b.storage.data.map Prod.fst := by
  obtain ⟨_, _, _, new, d, _⟩ := h
  rw [d, List.map_append]
  exact List.mem_append_right _ hk

theorem StoreExt.canonical {a b : MerkleTree} (h : StoreExt H L U a b)
    (hc : ∀ kv ∈ a.storage.data, CanonRec H L U kv.1 kv.2) :
    ∀ kv ∈ b.storage.data, CanonRec H L U kv.1 kv.2 := by
  obtain ⟨_, _, _, new, d, c⟩ := h
  intro kv hkv
  rw [d] at hkv
  rcases List.mem_append.mp hkv with h | h
  · exact c kv h
  · exact hc kv h

theorem Insert_ext (mt : MerkleTree) (key : Hash) (tag il : Nat) (body : List Nat)
    (hp : mt.storage.badPut = []) (hc : CanonRec H L U key (record tag il body)) :
    StoreExt H L U mt (mt.Insert key tag il body).1 ∧
      (mt.Insert key tag il body).1.root = mt.root ∧
      key ∈ (mt.Insert key tag il body).1.storage.data.map Prod.fst ∧
      (mt.Insert key tag il body).1.storage.lookup key = some (record tag il body) := by
  rw [Insert_good mt key tag il body hp]
  refine ⟨⟨rfl, rfl, rfl, [(key, record tag il body)], rfl, ?_⟩, rfl, ?_, ?_⟩
  · intro kv hkv
    simp only [List.mem_singleton] at hkv
    rw [hkv]; exact hc
  · simp
  · simp [DB.lookup]

theorem Present_mono {data data1 : List (List Nat × List Nat)}
    (hsub : ∀ k, k ∈ data.map Prod.fst → k ∈ data1.map Prod.fst) :
    ∀ (j : Nat) (ls : List Value), Present H L data j ls → Present H L data1 j ls := by
  intro j
  induction j with
  | zero =>
    intro ls h
    rcases h with h | h
    · exact Or.inl h
    · exact Or.inr (hsub _ h)
  | succ j ih =>
    intro ls h
    rcases h with h | ⟨hk, h⟩
    · exact Or.inl h
    · refine Or.inr ⟨hsub _ hk, ?_⟩
      rcases h with h | ⟨h0, h1⟩
      · exact Or.inl h
      · exact Or.inr ⟨ih _ h0, ih _ h1⟩

theorem Present_key {data : List (List Nat × List Nat)} {j : Nat} {ls : List Value}
    (h : Present H L data j ls) (hne : ls ≠ []) : canon H L j ls ∈ data.map Prod.fst := by
  cases j with
  | zero =>
    rcases h with h | h
    · exact absurd h hne
    · exact h
  | succ j =>
    rcases h with h | ⟨hk, _⟩
    · exact absurd h hne
    · exact hk

theorem Present_children {data : List (List Nat × List Nat)} {j : Nat} {ls : List Value}
    (h : Present H L data (j + 1) ls) (hmu : Multi ls) (s : Bool) :
    Present H L data j (sideOf H L j s ls) := by
  obtain ⟨x, hx, y, hy', hne⟩ := hmu
  rcases h with h | ⟨_, h⟩
  · rw [h] at hx; exact absurd hx (List.not_mem_nil _)
  · rcases h with ⟨l, hl⟩ | ⟨h0, h1⟩
    · rw [hl] at hx hy'
      simp only [List.mem_singleton] at hx hy'
      exact absurd (hx.trans hy'.symm) hne
    · cases s
      · exact h0
      · exact h1

theorem Present_single {data : List (List Nat × List Nat)} (j : Nat) (l : Value)
    (h : canon H L j [l] ∈ data.map Prod.fst) : Present H L data j [l] := by
  cases j with
  | zero => exact Or.inr h
  | succ j => exact Or.inr ⟨h, Or.inl ⟨l, rfl⟩⟩

theorem Present_nil (data : List (List Nat × List Nat)) (j : Nat) : Present H L data j [] := by
  cases j <;> exact Or.inl rfl

/-- Going down the path through nodes with two leaves or more, both children are present. -/
theorem Present_descend (hy : Hygiene H L U) {data : List (List Nat × List Nat)} {S : List Value}
    {p : List Bool} (hp : p.length = L - 1) (h : Present H L data (L - 1) S) (k : Nat)
    (hmu : ∀ m, k < m → m ≤ L - 1 → Multi (below H L S p m)) :
    ∀ t m, m + t = L - 1 → k ≤ m →
      Present H L data m (below H L S p m) ∧
        (m < L - 1 → Present H L data m (beside H L S p m)) := by
  intro t
  induction t with
  | zero =>
    intro m hm _
    have : m = L - 1 := by omega
    subst this
    rw [below_top hy hp]
    exact ⟨h, fun hlt => absurd hlt (lt_irrefl _)⟩
  | succ t ih =>
    intro m hm hkm
    have hlt : m < L - 1 := by omega
    obtain ⟨hb, _⟩ := ih (m + 1) (by omega) (by omega)
    have hmul := hmu (m + 1) (by omega) (by omega)
    have h1 := Present_children hb hmul (p.getD m false)
    have h2 := Present_children hb hmul (!p.getD m false)
    rw [← below_step hy hp hlt] at h1
    exact ⟨h1, fun _ => h2⟩

/-- The new tree is present along the path of the new leaf. -/
theorem Present_new (hy : Hygiene H L U) {data : List (List Nat × List Nat)} {S : List Value}
    {v : Value} (e : Nat) (hbe : below H L S (v.path H L) e = [])
    (hkeys : ∀ m, e ≤ m → m ≤ L - 1 →
      canon H L m (v :: below H L S (v.path H L) m) ∈ data.map Prod.fst)
    (hsib : ∀ m, e ≤ m → m < L - 1 → Present H L data m (beside H L S (v.path H L) m)) :
    ∀ m, e ≤ m → m ≤ L - 1 → Present H L data m (v :: below H L S (v.path H L) m) := by
  intro m hem
  induction m, hem using Nat.le_induction with
  | base =>
    intro he
    have hk := hkeys e (le_refl _) he
    rw [hbe] at hk ⊢
    exact Present_single e v hk
  | succ m hem ih =>
    intro he
    have hm : m < L - 1 := by omega
    refine Or.inr ⟨hkeys (m + 1) (by omega) he, Or.inr ?_⟩
    have hs1 := side_same_cons (S := S) (v := v) hy hm
    have hs2 := side_other_cons (H := H) (L := L) (S := S) (v := v) (m := m)
    cases hb : (v.path H L).getD m false
    · rw [hb] at hs1 hs2
      simp only [Bool.not_false] at hs2
      rw [hs1, hs2]
      exact ⟨ih (by omega), hsib m hem hm⟩
    · rw [hb] at hs1 hs2
      simp only [Bool.not_true] at hs2
      rw [hs1, hs2]
      exact ⟨hsib m hem hm, ih (by omega)⟩

/-- Setting the root and writing the root record (the end of every successful Add). -/
theorem finish_spec (mt : MerkleTree) (r : Hash) (hp : mt.storage.badPut = []) :
    let mt2 : MerkleTree := { mt with root := r }
    let mt3 := (mt2.Insert (rootNodeValue H) rootNodeType 0 mt2.root).1
    StoreExt H L U mt mt3 ∧ mt3.root = r ∧
      mt3.storage.lookup (rootNodeValue H) = some (record rootNodeType 0 r) := by
  intro mt2 mt3
  have hc : CanonRec H L U (rootNodeValue H) (record rootNodeType 0 r) := Or.inl rfl
  have h := Insert_ext (H := H) (L := L) (U := U) mt2 (rootNodeValue H) rootNodeType 0 r hp hc
  obtain ⟨h1, h2, _, h4⟩ := h
  exact ⟨h1, h2, h4⟩

end

section

variable {H : RawHash} {L : Nat} {U : List Value}

theorem Multi_cons_of_ne_nil {S ls : List Value} {v : Value} (hvS : v ∉ S) (hsub : ls ⊆ S)
    (hne : ls ≠ []) : Multi (v :: ls) := by
  obtain ⟨y, hy'⟩ := List.exists_mem_of_ne_nil ls hne
  refine ⟨v, List.mem_cons_self _ _, y, List.mem_cons_of_mem _ hy', ?_⟩
  intro h
  exact hvS (h ▸ hsub hy')

theorem cons_below_subset {S : List Value} {v : Value} (hv : v ∈ U) (hS : S ⊆ U) (m : Nat) :
    v :: below H L S (v.path H L) m ⊆ U := by
  intro x hx
  rcases List.mem_cons.mp hx with h | h
  · rw [h]; exact hv
  · exact hS (below_subset _ _ _ h)

theorem getElem?_path {p : List Bool} {i : Nat} (h : i < p.length) :
    p[i]? = some (p.getD i false) := by
  rw [List.getD_eq_getElem _ _ h]; exact List.getElem?_eq_getElem h

/-- The Normal record written for the node of height m+1 on the path of the new leaf. -/
theorem normal_canonical (hy : Hygiene H L U) {S : List Value} {v : Value} (hv : v ∈ U)
    (hS : S ⊆ U) (hvS : v ∉ S) {m : Nat} (hm : m < L - 1)
    (hne : below H L S (v.path H L) (m + 1) ≠ []) (node : treeNode)
    (hnode : node = if (v.path H L).getD m false then
          { ChildL := canon H L m (beside H L S (v.path H L) m),
            ChildR := canon H L m (v :: below H L S (v.path H L) m) }
        else
          { ChildL := canon H L m (v :: below H L S (v.path H L) m),
            ChildR := canon H L m (beside H L S (v.path H L) m) }) :
    node.Ht H = canon H L (m + 1) (v :: below H L S (v.path H L) (m + 1)) ∧
      CanonRec H L U (node.Ht H) (record normalNodeType 0 node.Bytes) := by
  have hht : node.Ht H = canon H L (m + 1) (v :: below H L S (v.path H L) (m + 1)) := by
    rw [canon_path_step hy hm, hnode]
  refine ⟨hht, Or.inr (Or.inr (Or.inr ⟨m, v :: below H L S (v.path H L) (m + 1), hm,
    cons_below_subset hv hS _, AgreeFrom_cons_below _,
    Multi_cons_of_ne_nil hvS (below_subset _ _ _) hne, hht, ?_⟩))⟩
  have hs1 := side_same_cons (S := S) (v := v) hy hm
  have hs2 := side_other_cons (H := H) (L := L) (S := S) (v := v) (m := m)
  rw [hnode]
  cases hb : (v.path H L).getD m false
  · rw [hb] at hs1 hs2
    simp only [Bool.not_false] at hs2
    simp only [hs1, hs2, treeNode.Bytes, Bool.false_eq_true, if_false]
  · rw [hb] at hs1 hs2
    simp only [Bool.not_true] at hs2
    simp only [hs1, hs2, treeNode.Bytes, if_true]

/-- The upward loop of replaceLeaf from height e: it writes the Normal nodes of the new
tree on the path of the new leaf and ends with the new root. -/
theorem replaceLeafLoop_spec (hy : Hygiene H L U) {S : List Value} {v : Value} (hv : v ∈ U)
    (hS : S ⊆ U) (hvS : v ∉ S) (e : Nat)
    (hmu : ∀ m, e ≤ m → m < L - 1 → below H L S (v.path H L) (m + 1) ≠ []) :
    ∀ (cnt i : Nat) (mt : MerkleTree), e + i + cnt = L - 1 → mt.storage.badPut = [] →
      ∃ mt1, replaceLeafLoop H (sibsFrom H L S (v.path H L) e) ((v.path H L).drop e) cnt i mt
          (canon H L (e + i) (v :: below H L S (v.path H L) (e + i))) =
            some (mt1, canon H L (L - 1) (v :: S)) ∧
        StoreExt H L U mt mt1 ∧ mt1.root = mt.root ∧
        ∀ m, e + i < m → m ≤ L - 1 →
          canon H L m (v :: below H L S (v.path H L) m) ∈ mt1.storage.data.map Prod.fst := by
  intro cnt
  induction cnt with
  | zero =>
    intro i mt hi _
    have hei : e + i = L - 1 := by omega
    refine ⟨mt, ?_, StoreExt.refl mt, rfl, fun m h1 h2 => absurd h2 (by omega)⟩
    rw [replaceLeafLoop, hei, below_top hy (path_length H L v hy.levels)]
  | succ cnt ih =>
    intro i mt hi hp
    have hlt : e + i < L - 1 := by omega
    have hpl := path_length H L v hy.levels
    have e1 : ((v.path H L).drop e)[i]? = some ((v.path H L).getD (e + i) false) := by
      rw [List.getElem?_drop, getElem?_path (by rw [hpl]; exact hlt)]
    have e2 := sibsFrom_get (H := H) (L := L) S (v.path H L) e i hlt
    obtain ⟨hht, hcr⟩ := normal_canonical hy hv hS hvS hlt (hmu (e + i) (by omega) hlt) _ rfl
    have hins := Insert_ext (H := H) (L := L) (U := U) mt _ normalNodeType 0 _ hp hcr
    obtain ⟨hx1, hx2, hx3, _⟩ := hins
    have hp1 := hx1.2.1.trans hp
    obtain ⟨mt1, hr, hext, hroot, hkeys⟩ := ih (i + 1) _ (by omega) hp1
    refine ⟨mt1, ?_, hx1.trans hext, hroot.trans hx2, ?_⟩
    · rw [replaceLeafLoop, e1, e2]
      simp only [← Nat.add_assoc] at hr
      rw [← hht] at hr
      cases hb : (v.path H L).getD (e + i) false
      · rw [hb] at hr
        simp only [Bool.false_eq_true, if_false] at hr
        exact hr
      · rw [hb] at hr
        simp only [if_true] at hr
        exact hr
    · intro m h1 h2
      by_cases hm : m = e + i + 1
      · rw [hm, ← hht]
        exact hext.keys hx3
      · exact hkeys m (by omega) h2

end

section

variable {H : RawHash} {L : Nat} {U : List Value}

/-! ## Helpers on lists of leaves below a path -/

theorem drop_eq_of_le {p q : List Bool} {m n : Nat} (h : p.drop m = q.drop m) (hmn : m ≤ n) :
    p.drop n = q.drop n := by
  have e : n = m + (n - m) := by omega
  rw [e, ← List.drop_drop, ← List.drop_drop, h]

theorem getD_eq_of_drop {p q : List Bool} {m n : Nat} (h : p.drop m = q.drop m) (hmn : m ≤ n) :
    p.getD n false = q.getD n false := by
  have e : n = m + (n - m) := by omega
  have h1 : p.getD n false = (p.drop m).getD (n - m) false := by
    simp only [List.getD_eq_getElem?_getD, List.getElem?_drop]
    rw [← e]
  have h2 : q.getD n false = (q.drop m).getD (n - m) false := by
    simp only [List.getD_eq_getElem?_getD, List.getElem?_drop]
    rw [← e]
  rw [h1, h2, h]

theorem below_below (S : List Value) (p : List Bool) {m n : Nat} (hmn : m ≤ n) :
    below H L S p m = (below H L S p n).filter fun l => (l.path H L).drop m = p.drop m := by
  unfold below
  rw [List.filter_filter]
  apply List.filter_congr
  intro l _
  by_cases h : (l.path H L).drop m = p.drop m
  · simp [h, drop_eq_of_le h hmn]
  · simp [h]

theorem below_mono (S : List Value) (p : List Bool) {m n : Nat} (hmn : m ≤ n) :
    below H L S p m ⊆ below H L S p n := by
  rw [below_below S p hmn]
  exact fun _ hx => (List.mem_filter.mp hx).1

theorem below_zero_nil (hy : Hygiene H L U) {S : List Value} {v : Value} (hv : v ∈ U)
    (hS : S ⊆ U) (hvS : v ∉ S) : below H L S (v.path H L) 0 = [] := by
  unfold below
  rw [List.filter_eq_nil_iff]
  intro l hl
  simp only [List.drop_zero, decide_eq_true_eq]
  intro h
  exact hvS (hy.paths l (hS hl) v hv h ▸ hl)

theorem below_nodup {S : List Value} (hnd : S.Nodup) (p : List Bool) (m : Nat) :
    (below H L S p m).Nodup :=
  hnd.filter _

theorem single_of_not_multi {ls : List Value} (hnd : ls.Nodup) (hne : ls ≠ [])
    (h : ¬ Multi ls) : ∃ u, ls = [u] := by
  cases ls with
  | nil => exact absurd rfl hne
  | cons u t =>
    cases t with
    | nil => exact ⟨u, rfl⟩
    | cons w t' =>
      exfalso
      apply h
      refine ⟨u, List.mem_cons_self _ _, w, List.mem_cons_of_mem _ (List.mem_cons_self _ _), ?_⟩
      intro huw
      have := (List.nodup_cons.mp hnd).1
      exact this (huw ▸ List.mem_cons_self _ _)

theorem bool_ne_iff_eq_not {a b : Bool} : a ≠ b ↔ a = !b := by
  cases a <;> cases b <;> simp

/-- The situation at a Final node: the leaf u is alone below height k+1 and differs from the
path p first (from the top) at index d. -/
theorem final_layout (S : List Value) (p : List Bool) {k d : Nat} {u : Value}
    (hb : below H L S p (k + 1) = [u]) (hdk : d ≤ k)
    (hdiff : (u.path H L).getD d false ≠ p.getD d false)
    (hsame : (u.path H L).drop (d + 1) = p.drop (d + 1))
    (hlen : (u.path H L).length = p.length) (hd : d < p.length) :
    below H L S p d = [] ∧ beside H L S p d = [u] ∧
      (∀ m, d < m → m ≤ k + 1 → below H L S p m = [u]) ∧
      (∀ m, d < m → m ≤ k → beside H L S p m = []) := by
  have hbm : ∀ m, d < m → m ≤ k + 1 → below H L S p m = [u] := by
    intro m h1 h2
    rw [below_below S p h2, hb]
    simp [List.filter_cons, drop_eq_of_le hsame (by omega : d + 1 ≤ m)]
  have hb0 : below H L S p d = [] := by
    rw [below_below S p (by omega : d ≤ k + 1), hb]
    have : (u.path H L).drop d ≠ p.drop d := by
      rw [drop_eq_getD_cons (by omega), drop_eq_getD_cons hd]
      intro h
      exact hdiff (List.cons.inj h).1
    simp [List.filter_cons, this]
  refine ⟨hb0, ?_, hbm, ?_⟩
  · unfold beside
    rw [hbm (d + 1) (by omega) (by omega), sideOf_single, if_pos]
    rw [bool_ne_iff_eq_not.mp hdiff]
  · intro m h1 h2
    unfold beside
    rw [hbm (m + 1) (by omega) (by omega), sideOf_single]
    have := getD_eq_of_drop hsame (by omega : d + 1 ≤ m)
    rw [this]
    cases p.getD m false <;> simp

/-- The recorded siblings followed by the Empty siblings between a Final node and the
split point. -/
theorem sibsFrom_empties (S : List Value) (p : List Bool) {k d : Nat} (hk : k < L - 1)
    (hbs : ∀ m, d < m → m ≤ k → beside H L S p m = []) :
    ∀ t, t ≤ k - d → sibsFrom H L S p (k + 1 - t) =
      sibsFrom H L S p (k + 1) ++ List.replicate t EmptyNodeValue := by
  intro t
  induction t with
  | zero => intro _; simp
  | succ t ih =>
    intro ht
    have e : k + 1 - (t + 1) + 1 = k + 1 - t := by omega
    rw [sibsFrom_step S p (by omega : k + 1 - (t + 1) < L - 1), e, ih (by omega),
      hbs (k + 1 - (t + 1)) (by omega) (by omega), canon_nil, List.append_assoc,
      ← List.replicate_succ']

end

section

variable {H : RawHash} {L : Nat} {U : List Value}

/-- The Final record of a leaf at any height is canonical. -/
theorem final_canonical {l : Value} (hl : l ∈ U) (d : Nat) (hd : d ≤ L - 1) :
    CanonRec H L U (canon H L d [l]) (record finalNodeType l.IndexLength l.Bytes) := by
  cases d with
  | zero => exact Or.inr (Or.inr (Or.inl ⟨l, hl, rfl, Or.inl rfl⟩))
  | succ d => exact Or.inr (Or.inl ⟨l, hl, d + 1, by omega, hd, rfl, rfl⟩)

theorem value_canonical {l : Value} (hl : l ∈ U) :
    CanonRec H L U (HashBytes H l.Bytes) (record valueNodeType l.IndexLength l.Bytes) :=
  Or.inr (Or.inr (Or.inl ⟨l, hl, rfl, Or.inr rfl⟩))

/-- The whole of replaceLeaf from height e on the path of the new leaf. -/
theorem replaceLeaf_spec (hy : Hygiene H L U) {S : List Value} {v : Value} (hv : v ∈ U)
    (hS : S ⊆ U) (hvS : v ∉ S) (e : Nat) (he : e ≤ L - 1)
    (hmu : ∀ m, e ≤ m → m < L - 1 → below H L S (v.path H L) (m + 1) ≠ [])
    (mt : MerkleTree) (hp : mt.storage.badPut = []) (tag il : Nat) (body : List Nat)
    (hcr : CanonRec H L U (canon H L e (v :: below H L S (v.path H L) e)) (record tag il body)) :
    ∃ mt1, mt.replaceLeaf H (sibsFrom H L S (v.path H L) e) ((v.path H L).drop e)
          (canon H L e (v :: below H L S (v.path H L) e)) tag il body =
            some (mt1, canon H L (L - 1) (v :: S)) ∧
      StoreExt H L U mt mt1 ∧ mt1.root = mt.root ∧
      ∀ m, e ≤ m → m ≤ L - 1 →
        canon H L m (v :: below H L S (v.path H L) m) ∈ mt1.storage.data.map Prod.fst := by
  obtain ⟨hx1, hx2, hx3, _⟩ := Insert_ext (H := H) (L := L) (U := U) mt _ tag il body hp hcr
  have hp1 := hx1.2.1.trans hp
  obtain ⟨mt1, hr, hext, hroot, hkeys⟩ :=
    replaceLeafLoop_spec hy hv hS hvS e hmu (L - 1 - e) 0 _ (by omega) hp1
  refine ⟨mt1, ?_, hx1.trans hext, hroot.trans hx2, ?_⟩
  · rw [MerkleTree.replaceLeaf, sibsFrom_length]
    exact hr
  · intro m h1 h2
    by_cases hm : m = e
    · rw [hm]; exact hext.keys hx3
    · exact hkeys m (by omega) h2

/-- The end of a successful Add: the new root and root record, and the new tree present. -/
theorem AddPost_finish (hy : Hygiene H L U) {S : List Value} {v : Value}
    {mt mt1 : MerkleTree} (hext : StoreExt H L U mt mt1) (hp : mt.storage.badPut = [])
    (e : Nat) (he : e ≤ L - 1) (hbe : below H L S (v.path H L) e = [])
    (hkeys : ∀ m, e ≤ m → m ≤ L - 1 →
      canon H L m (v :: below H L S (v.path H L) m) ∈ mt1.storage.data.map Prod.fst)
    (hsib : ∀ m, e ≤ m → m < L - 1 →
      Present H L mt1.storage.data m (beside H L S (v.path H L) m)) :
    AddPost H L U S v mt
      (some ((({ mt1 with root := canon H L (L - 1) (v :: S) } : MerkleTree).Insert
        (rootNodeValue H) rootNodeType 0 (canon H L (L - 1) (v :: S))).1, none)) := by
  have hp1 := hext.2.1.trans hp
  obtain ⟨f1, f2, f3⟩ := finish_spec (H := H) (L := L) (U := U) mt1 (canon H L (L - 1) (v :: S)) hp1
  refine ⟨_, rfl, hext.trans f1, f2, ?_, ?_⟩
  · rw [f2]; exact f3
  · have hk' : ∀ m, e ≤ m → m ≤ L - 1 → canon H L m (v :: below H L S (v.path H L) m) ∈
        (({ mt1 with root := canon H L (L - 1) (v :: S) } : MerkleTree).Insert
          (rootNodeValue H) rootNodeType 0 (canon H L (L - 1) (v :: S))).1.storage.data.map
            Prod.fst := fun m h1 h2 => f1.keys (hkeys m h1 h2)
    have hs' := fun m h1 h2 => Present_mono (H := H) (L := L) (fun k hk => f1.keys hk) m _
      (hsib m h1 h2)
    have := Present_new hy e hbe hk' hs' (L - 1) he (le_refl _)
    rw [below_top hy (path_length H L v hy.levels)] at this
    exact this

end

section

variable {H : RawHash} {L : Nat} {U : List Value}

/-- The first leaf of a tree (lines 135-142): it is parked at the root. -/
theorem addLoop_first (hy : Hygiene H L U) {v : Value} (hv : v ∈ U) {k : Nat}
    (hk : k + 1 = L - 1) (mt : MerkleTree) (hL : mt.numLevels = L)
    (hp : mt.storage.badPut = []) :
    AddPost H L U [] v mt
      (addLoop H v (v.path H L) (k + 1) mt EmptyNodeValue []) := by
  have hpl := path_length H L v hy.levels
  have e1 : (v.path H L)[k]? = some ((v.path H L).getD k false) :=
    getElem?_path (by rw [hpl]; omega)
  have hcalc := calcHash_canon H L v (k + 1) (by rw [hpl]; omega)
  have hbel : ∀ m, below H L [] (v.path H L) m = [] := fun m => rfl
  obtain ⟨hx1, hx2, hx3, _⟩ := Insert_ext (H := H) (L := L) (U := U) mt _ finalNodeType
    v.IndexLength v.Bytes hp (final_canonical hv (k + 1) (by omega))
  have hpost := AddPost_finish (S := []) (v := v) hy hx1 hp (L - 1) (le_refl _) (hbel _)
    (fun m h1 h2 => by
      have : m = k + 1 := by omega
      rw [this, hbel]; exact hx3)
    (fun m h1 h2 => absurd h2 (by omega))
  have hcond : k + 2 = mt.numLevels := by omega
  rw [addLoop, Get_empty]
  simp only [parseNodeBytes_empty, e1, finalNodeType, ite_self, hcond, and_self, if_true, hcalc,
    List.nil_append]
  rw [← hk] at hpost
  exact hpost

/-- The split at a Final node (lines 91-121), the incumbent u being at another position. -/
theorem addLoop_final (hy : Hygiene H L U) {S : List Value} {v : Value} (hv : v ∈ U)
    (hS : S ⊆ U) (hvS : v ∉ S) {k : Nat} (hk : k < L - 1) (mt : MerkleTree)
    (hL : mt.numLevels = L) (hp : mt.storage.badPut = []) (hg : mt.storage.badGet = [])
    (hc : ∀ kv ∈ mt.storage.data, CanonRec H L U kv.1 kv.2)
    (hpres : Present H L mt.storage.data (L - 1) S)
    (hmulti : ∀ m, k + 1 < m → m ≤ L - 1 → Multi (below H L S (v.path H L) m))
    {u : Value} (hb : below H L S (v.path H L) (k + 1) = [u]) :
    AddPost H L U S v mt
      (addLoop H v (v.path H L) (k + 1) mt (canon H L (k + 1) [u])
        (sibsFrom H L S (v.path H L) (k + 1))) := by
  have hpl := path_length H L v hy.levels
  have huS : u ∈ S := below_subset _ _ _ (hb ▸ List.mem_cons_self u [])
  have huU : u ∈ U := hS huS
  have hul := path_length H L u hy.levels
  have hdesc := Present_descend hy hpl hpres (k + 1) hmulti
  -- the record of the Final node
  have hkey : canon H L (k + 1) [u] ∈ mt.storage.data.map Prod.fst := by
    have := (hdesc (L - 1 - (k + 1)) (k + 1) (by omega) (le_refl _)).1
    rw [hb] at this
    exact Present_key this (List.cons_ne_nil _ _)
  obtain ⟨val, hval⟩ := lookup_isSome_of_key hkey
  have hrec := read_final hy hc huU (by omega : 1 ≤ k + 1) (by omega) (lookup_mem hval)
  rw [hrec] at hval
  have hget := Get_record mt _ finalNodeType u.IndexLength u.Bytes
    (canon_ne_empty hy _ (by omega) (by simpa using huU) (List.cons_ne_nil _ _)) hg
    (hy.wf u huU).2 hval
  -- the split point
  have hne : u.path H L ≠ v.path H L := fun h => hvS (hy.paths u huU v hv h ▸ huS)
  obtain ⟨d, hd, hcmp, hdiff, hsame⟩ := comparePaths_ne (hul.trans hpl.symm) hne
  have hdk : d ≤ k := by
    by_contra hcon
    exact hdiff (getD_eq_of_drop (mem_below.mp (hb ▸ List.mem_cons_self u [])).2 (by omega))
  obtain ⟨hb0, hbs, hbm, hbsm⟩ := final_layout S (v.path H L) hb hdk hdiff hsame
    (hul.trans hpl.symm) (by rw [hpl]; omega)
  have hslice := sliceTo_of_le (hy.wf u huU).1
  have hpathu : getPath mt.numLevels (HashBytes H (u.Bytes.take u.IndexLength)) =
      some (u.path H L) := by rw [hL]; exact getPath_path H L u hy.levels
  have hc1 := calcHash_canon H L u d (by omega)
  have hc2 := calcHash_canon H L v d (by omega)
  have e1 : (v.path H L)[d]? = some ((v.path H L).getD d false) := getElem?_path (by omega)
  -- the two Final nodes
  obtain ⟨hx1, _, hx3, _⟩ := Insert_ext (H := H) (L := L) (U := U) mt _ finalNodeType
    u.IndexLength u.Bytes hp (final_canonical huU d (by omega))
  have hp1 := hx1.2.1.trans hp
  obtain ⟨hy1, _, hy3, _⟩ := Insert_ext (H := H) (L := L) (U := U) _ _ finalNodeType
    v.IndexLength v.Bytes hp1 (final_canonical hv d (by omega))
  have hp2 := hy1.2.1.trans hp1
  -- their parent and the way up
  have hd1 : d < L - 1 := by omega
  have hbd1 : below H L S (v.path H L) (d + 1) ≠ [] := by
    rw [hbm (d + 1) (by omega) (by omega)]; exact List.cons_ne_nil _ _
  have hnode : (if (v.path H L).getD d false then
        ({ ChildL := canon H L d [u], ChildR := canon H L d [v] } : treeNode)
      else { ChildL := canon H L d [v], ChildR := canon H L d [u] }) =
      if (v.path H L).getD d false then
          { ChildL := canon H L d (beside H L S (v.path H L) d),
            ChildR := canon H L d (v :: below H L S (v.path H L) d) }
        else
          { ChildL := canon H L d (v :: below H L S (v.path H L) d),
            ChildR := canon H L d (beside H L S (v.path H L) d) } := by
    rw [hbs, hb0]
  obtain ⟨hht, hcr⟩ := normal_canonical hy hv hS hvS hd1 hbd1 _ hnode
  have hmu : ∀ m, d + 1 ≤ m → m < L - 1 → below H L S (v.path H L) (m + 1) ≠ [] := by
    intro m h1 _
    exact List.ne_nil_of_mem (below_mono S _ (by omega : d + 1 ≤ m + 1)
      (hbm (d + 1) (by omega) (by omega) ▸ List.mem_cons_self u []))
  obtain ⟨mt3, hrl, hext3, _, hkeys3⟩ := replaceLeaf_spec hy hv hS hvS (d + 1) (by omega) hmu
    ((mt.Insert (canon H L d [u]) finalNodeType u.IndexLength u.Bytes).1.Insert
      (canon H L d [v]) finalNodeType v.IndexLength v.Bytes).1
    hp2 normalNodeType 0 _ (hht ▸ hcr)
  rw [← hht] at hrl
  have hsibs : sibsFrom H L S (v.path H L) (k + 1) ++
      getEmptiesBetweenIAndPosHash (k : Int) ((d : Int) + 1) =
        sibsFrom H L S (v.path H L) (d + 1) := by
    have := sibsFrom_empties (H := H) (L := L) S (v.path H L) hk hbsm (k - d) (le_refl _)
    have e : k + 1 - (k - d) = d + 1 := by omega
    rw [e] at this
    rw [this, getEmptiesBetweenIAndPosHash]
    congr 2
    omega
  have hext : StoreExt H L U mt mt3 := (hx1.trans hy1).trans hext3
  have hpost := AddPost_finish (S := S) (v := v) hy hext hp d (by omega) hb0
    (fun m h1 h2 => by
      by_cases hm : m = d
      · rw [hm, hb0]; exact hext3.keys hy3
      · exact hkeys3 m (by omega) h2)
    (fun m h1 h2 => by
      by_cases hm : m = d
      · rw [hm, hbs]
        exact Present_single d u ((hy1.trans hext3).keys hx3)
      · by_cases hmk : m ≤ k
        · rw [hbsm m (by omega) hmk]; exact Present_nil _ _
        · exact Present_mono (fun key hkk => hext.keys hkk) m _
            ((hdesc (L - 1 - m) m (by omega) (by omega)).2 h2))
  rw [addLoop, hget]
  simp only [if_true, addFinal, hslice, hpathu, hcmp, hc1, hc2, e1, Int.toNat_ofNat]
  rw [if_neg (by omega), hsibs]
  rw [hrl]
  exact hpost

theorem side_canon_pick (j : Nat) (b : Bool) (ls : List Value) :
    (if b then canon H L j (sideOf H L j true ls) else canon H L j (sideOf H L j false ls)) =
      canon H L j (sideOf H L j b ls) := by
  cases b <;> simp

theorem side_canon_other (j : Nat) (b : Bool) (ls : List Value) :
    (if b then canon H L j (sideOf H L j false ls) else canon H L j (sideOf H L j true ls)) =
      canon H L j (sideOf H L j (!b) ls) := by
  cases b <;> simp

/-- The descent of Add from height k on a tree that holds S, for a leaf at a free position:
the tree then holds the new leaf as well. -/
theorem addLoop_spec (hy : Hygiene H L U) {S : List Value} {v : Value} (hv : v ∈ U)
    (hS : S ⊆ U) (hnd : S.Nodup) (hvS : v ∉ S) :
    ∀ k, k ≤ L - 1 → ∀ mt : MerkleTree, mt.numLevels = L → mt.storage.badPut = [] →
      mt.storage.badGet = [] → (∀ kv ∈ mt.storage.data, CanonRec H L U kv.1 kv.2) →
      Present H L mt.storage.data (L - 1) S →
      (∀ m, k < m → m ≤ L - 1 → Multi (below H L S (v.path H L) m)) →
      (below H L S (v.path H L) k ≠ [] ∨ k = L - 1) →
      AddPost H L U S v mt
        (addLoop H v (v.path H L) k mt (canon H L k (below H L S (v.path H L) k))
          (sibsFrom H L S (v.path H L) k)) := by
  have hpl := path_length H L v hy.levels
  intro k
  induction k with
  | zero =>
    intro _ mt hL hp hg hc hpres _ hor
    have hb0 := below_zero_nil hy hv hS hvS
    have h0 : 0 = L - 1 := by
      rcases hor with h | h
      · exact absurd hb0 h
      · exact h
    have hcr : CanonRec H L U (canon H L 0 (v :: below H L S (v.path H L) 0))
        (record valueNodeType v.IndexLength v.Bytes) := by
      rw [hb0]; exact value_canonical hv
    obtain ⟨mt1, hrl, hext, _, hkeys⟩ := replaceLeaf_spec hy hv hS hvS 0 (by omega)
      (fun m _ h2 => absurd h2 (by omega)) mt hp valueNodeType v.IndexLength v.Bytes hcr
    have hrl' : mt.replaceLeaf H (sibsFrom H L S (v.path H L) 0) (v.path H L)
        (HashBytes H v.Bytes) valueNodeType v.IndexLength v.Bytes =
          some (mt1, canon H L (L - 1) (v :: S)) := hrl
    have hpost := AddPost_finish (S := S) (v := v) hy hext hp 0 (by omega) hb0 hkeys
      (fun m _ h2 => absurd h2 (by omega))
    rw [addLoop, hrl']
    exact hpost
  | succ k ih =>
    intro hk mt hL hp hg hc hpres hmulti hor
    have hk' : k < L - 1 := by omega
    by_cases hB : below H L S (v.path H L) (k + 1) = []
    · have hk1 : k + 1 = L - 1 := by
        rcases hor with h | h
        · exact absurd hB h
        · exact h
      have hSnil : S = [] := by
        have := below_top (S := S) hy hpl
        rw [← hk1, hB] at this
        exact this.symm
      subst hSnil
      have hsn : sibsFrom H L [] (v.path H L) (k + 1) = [] := by
        rw [hk1]; exact sibsFrom_top _ _
      rw [hB, canon_nil, hsn]
      exact addLoop_first hy hv hk1 mt hL hp
    · by_cases hM : Multi (below H L S (v.path H L) (k + 1))
      · -- a Normal node
        have hdesc := Present_descend hy hpl hpres (k + 1) hmulti
        have hkey : canon H L (k + 1) (below H L S (v.path H L) (k + 1)) ∈
            mt.storage.data.map Prod.fst :=
          Present_key (hdesc (L - 1 - (k + 1)) (k + 1) (by omega) (le_refl _)).1 hB
        obtain ⟨val, hval⟩ := lookup_isSome_of_key hkey
        have hbU : below H L S (v.path H L) (k + 1) ⊆ U := (below_subset _ _ _).trans hS
        have hrec := read_normal hy hc (by omega) hbU (AgreeFrom_below _ _ _) hM (lookup_mem hval)
        rw [hrec] at hval
        have hget := Get_record mt _ normalNodeType 0 _ (canon_ne_empty hy _ hk hbU hB) hg
          (by norm_num) hval
        have e1 : (v.path H L)[k]? = some ((v.path H L).getD k false) :=
          getElem?_path (by rw [hpl]; exact hk')
        have hmulti' : ∀ m, k < m → m ≤ L - 1 → Multi (below H L S (v.path H L) m) := by
          intro m h1 h2
          by_cases hm : m = k + 1
          · rw [hm]; exact hM
          · exact hmulti m (by omega) h2
        have hstep := below_step (S := S) hy hpl hk'
        have hsib := sibsFrom_step (H := H) (L := L) S (v.path H L) hk'
        rw [addLoop, hget]
        simp only [normalNodeType, finalNodeType,
          parseNodeBytes_append (canon_length _ _ _ _) (canon_length _ _ _ _), e1,
          side_canon_pick, side_canon_other]
        rw [if_neg (by decide : ¬ (1 = 2)), ← hstep]
        have hbes : sideOf H L k (!(v.path H L).getD k false) (below H L S (v.path H L) (k + 1)) =
            beside H L S (v.path H L) k := rfl
        rw [hbes, ← hsib]
        by_cases hbk : below H L S (v.path H L) k = []
        · -- the child is Empty: the new leaf is parked here
          have hbne : beside H L S (v.path H L) k ≠ [] := by
            obtain ⟨x, hx⟩ := List.exists_mem_of_ne_nil _ hB
            have hxs : x ∈ beside H L S (v.path H L) k := by
              by_contra hcon
              have : x ∈ below H L S (v.path H L) k := by
                rw [hstep, mem_sideOf]
                refine ⟨hx, ?_⟩
                by_contra hne
                exact hcon (mem_sideOf.mpr ⟨hx, bool_ne_iff_eq_not.mp hne⟩)
              rw [hbk] at this
              exact absurd this (List.not_mem_nil _)
            exact List.ne_nil_of_mem hxs
          have hsne := canon_ne_empty hy k (by omega) ((beside_subset _ _ _).trans hS) hbne
          have hcalc := calcHash_canon H L v k (by omega)
          have hcr : CanonRec H L U (canon H L k (v :: below H L S (v.path H L) k))
              (record finalNodeType v.IndexLength v.Bytes) := by
            rw [hbk]; exact final_canonical hv k (by omega)
          have hmu : ∀ m, k ≤ m → m < L - 1 → below H L S (v.path H L) (m + 1) ≠ [] := by
            intro m h1 _
            obtain ⟨x, hx⟩ := List.exists_mem_of_ne_nil _ hB
            exact List.ne_nil_of_mem (below_mono S _ (by omega : k + 1 ≤ m + 1) hx)
          obtain ⟨mt1, hrl, hext, _, hkeys⟩ := replaceLeaf_spec hy hv hS hvS k (by omega) hmu mt
            hp finalNodeType v.IndexLength v.Bytes hcr
          rw [hbk] at hrl
          simp only [finalNodeType] at hrl
          have hdesc' := Present_descend hy hpl hpres k hmulti'
          have hpost := AddPost_finish (S := S) (v := v) hy hext hp k (by omega) hbk hkeys
            (fun m h1 h2 => Present_mono (fun key hkk => hext.keys hkk) m _
              ((hdesc' (L - 1 - m) m (by omega) h1).2 h2))
          rw [hbk, canon_nil]
          simp only [if_true, hsne, and_false, if_false, hcalc, hrl]
          exact hpost
        · -- the descent goes on
          have hcne := canon_ne_empty hy k (by omega) ((below_subset _ _ _).trans hS) hbk
          rw [if_neg hcne]
          exact ih (by omega) mt hL hp hg hc hpres hmulti' (Or.inl hbk)
      · -- a Final node
        obtain ⟨u, hu⟩ := single_of_not_multi (below_nodup hnd _ _) hB hM
        rw [hu]
        exact addLoop_final hy hv hS hvS hk' mt hL hp hg hc hpres hmulti hu

end

section

variable {H : RawHash} {L : Nat} {U : List Value}

/-! ## Add, sequences of Add, and New on canonical trees -/

theorem Holds_of_AddPost {S : List Value} {v : Value} {mt0 mt : MerkleTree}
    {r : Option (MerkleTree × Option Error)} (hv : v ∈ U) (hvS : v ∉ S)
    (h0 : Holds H L U S mt0) (hext0 : StoreExt H L U mt0 mt) (h : AddPost H L U S v mt r) :
    ∃ mt1, r = some (mt1, none) ∧ Holds H L U (v :: S) mt1 := by
  obtain ⟨mt1, hr, hext, hroot, hrec, hpres⟩ := h
  have he := hext0.trans hext
  refine ⟨mt1, hr, ⟨he.1.trans h0.numLevels, he.2.1.trans h0.goodPut, he.2.2.1.trans h0.goodGet,
    ?_, List.nodup_cons.mpr ⟨hvS, h0.nodup⟩, hroot, hrec, he.canonical h0.canonical, hpres⟩⟩
  intro x hx
  rcases List.mem_cons.mp hx with hxv | hxS
  · rw [hxv]; exact hv
  · exact h0.sub hxS

/-- Add of a leaf at a free position on a canonical tree: nil, and the tree holds the leaf. -/
theorem Add_spec (hy : Hygiene H L U) {S : List Value} {v : Value} (hv : v ∈ U) (hvS : v ∉ S)
    {mt : MerkleTree} (h : Holds H L U S mt) :
    ∃ mt1, mt.Add H v = some (mt1, none) ∧ Holds H L U (v :: S) mt1 := by
  obtain ⟨hx1, hx2, _, _⟩ := Insert_ext (H := H) (L := L) (U := U) mt _ valueNodeType
    v.IndexLength v.Bytes h.goodPut (value_canonical hv)
  have hL1 := hx1.1.trans h.numLevels
  have hpl := path_length H L v hy.levels
  have hslice := sliceTo_of_le (hy.wf v hv).1
  have hpath : getPath L (HashBytes H (v.Bytes.take v.IndexLength)) = some (v.path H L) :=
    getPath_path H L v hy.levels
  have hloop := addLoop_spec hy hv h.sub h.nodup hvS (L - 1) (le_refl _) _ hL1
    (hx1.2.1.trans h.goodPut) (hx1.2.2.1.trans h.goodGet) (hx1.canonical h.canonical)
    (Present_mono (fun k hk => hx1.keys hk) _ _ h.present)
    (fun m h1 h2 => absurd h2 (by omega)) (Or.inr rfl)
  rw [below_top hy hpl, sibsFrom_top, ← h.root, ← hx2] at hloop
  have := Holds_of_AddPost hv hvS h hx1 hloop
  simp only [MerkleTree.Add, hslice, hL1, hpath]
  exact this

theorem runAdds_spec (hy : Hygiene H L U) :
    ∀ (vs S : List Value) (mt : MerkleTree), Holds H L U S mt → vs ⊆ U → vs.Nodup →
      (∀ v ∈ vs, v ∉ S) →
      ∃ mt1, runAdds H mt vs = some (mt1, vs.map fun _ => none) ∧
        Holds H L U (vs.reverse ++ S) mt1 := by
  intro vs
  induction vs with
  | nil =>
    intro S mt h _ _ _
    exact ⟨mt, rfl, by simpa using h⟩
  | cons v vs ih =>
    intro S mt h hsub hnd hnot
    have hv : v ∈ U := hsub (List.mem_cons_self _ _)
    obtain ⟨mt1, hadd, h1⟩ := Add_spec hy hv (hnot v (List.mem_cons_self _ _)) h
    have hnd' := List.nodup_cons.mp hnd
    obtain ⟨mt2, hrun, h2⟩ := ih (v :: S) mt1 h1
      (fun x hx => hsub (List.mem_cons_of_mem _ hx)) hnd'.2 (by
        intro x hx hxS
        rcases List.mem_cons.mp hxS with hxv | hxS'
        · exact hnd'.1 (hxv ▸ hx)
        · exact hnot x (List.mem_cons_of_mem _ hx) hxS')
    refine ⟨mt2, ?_, ?_⟩
    · simp only [runAdds, hadd, hrun, List.map_cons]
    · rw [List.reverse_cons, List.append_assoc]
      exact h2

theorem New_spec (hy : Hygiene H L U) :
    ∃ mt, New H emptyDB L = some (some mt, none) ∧ Holds H L U [] mt := by
  have hroot : rootNodeValue H ≠ EmptyNodeValue := hy.nz _ Hashed_root
  refine ⟨{ storage := { data := [(rootNodeValue H, record rootNodeType 0 EmptyNodeValue)],
                          badPut := [], badGet := [] },
            root := EmptyNodeValue, numLevels := L }, ?_, ?_⟩
  · simp [New, MerkleTree.Get, hroot, DB.Get, emptyDB, DB.lookup, MerkleTree.Insert, DB.Put,
      record, copyHash_of_length EmptyNodeValue_length]
  · refine ⟨rfl, rfl, rfl, List.nil_subset _, List.nodup_nil, (canon_nil _ _ _).symm, ?_, ?_,
      Present_nil _ _⟩
    · simp [DB.lookup]
    · intro kv hkv
      simp only [List.mem_singleton] at hkv
      rw [hkv]
      exact Or.inl rfl

/-- New on an empty store followed by Add of every leaf of a hygienic list: every Add
returns nil and the tree holds the leaves in canonical form. -/
theorem build_spec (hy : Hygiene H L U) :
    ∃ mt, build H L U = some (mt, U.map fun _ => none) ∧ Holds H L U U.reverse mt := by
  obtain ⟨mt0, hnew, h0⟩ := New_spec hy
  obtain ⟨mt, hrun, h⟩ := runAdds_spec hy U [] mt0 h0 (List.Subset.refl _) hy.nodup
    (fun _ _ => List.not_mem_nil _)
  refine ⟨mt, ?_, by simpa using h⟩
  simp only [build, hnew, hrun]

theorem Hashed_congr {U V : List Value} (h : ∀ l, l ∈ U ↔ l ∈ V) (x : List Nat) :
    Hashed H L U x → Hashed H L V x := by
  rintro (hx | ⟨v, hv, hx⟩ | ⟨j, a, b, hj, ha, hb, hx⟩)
  · exact Or.inl hx
  · exact Or.inr (Or.inl ⟨v, (h v).mp hv, hx⟩)
  · exact Or.inr (Or.inr ⟨j, a, b, hj, fun l hl => (h l).mp (ha hl),
      fun l hl => (h l).mp (hb hl), hx⟩)

theorem Hygiene_perm {U V : List Value} (hy : Hygiene H L U) (hp : U.Perm V) : Hygiene H L V := by
  have hm : ∀ l, l ∈ U ↔ l ∈ V := fun l => hp.mem_iff
  have hm' : ∀ l, l ∈ V ↔ l ∈ U := fun l => (hm l).symm
  exact {
    levels := hy.levels
    wf := fun v hv => hy.wf v ((hm v).mpr hv)
    nodup := hp.nodup_iff.mp hy.nodup
    paths := fun a ha b hb => hy.paths a ((hm a).mpr ha) b ((hm b).mpr hb)
    bytes := fun a ha b hb => hy.bytes a ((hm a).mpr ha) b ((hm b).mpr hb)
    shape := fun v hv => hy.shape v ((hm v).mpr hv)
    inj := fun x y hx hy' => hy.inj x y (Hashed_congr hm' x hx) (Hashed_congr hm' y hy')
    nz := fun x hx => hy.nz x (Hashed_congr hm' x hx) }

end

section

variable {H : RawHash} {L : Nat} {U : List Value}

/-! ## GetValueInPos on a canonical tree -/

theorem getValueLoop_empty (mt : MerkleTree) (p : List Bool) :
    ∀ k, k ≤ p.length → getValueLoop H mt p k EmptyNodeValue = some (EmptyNodeValue, none) := by
  intro k
  induction k with
  | zero => intro _; simp [getValueLoop, Get_empty]
  | succ k ih =>
    intro hk
    have e1 : p[k]? = some (p.getD k false) := getElem?_path (by omega)
    rw [getValueLoop, Get_empty]
    simp only [finalNodeType, parseNodeBytes_empty, e1, ite_self]
    rw [if_neg (by decide : ¬ (0 = 2))]
    exact ih (by omega)

theorem below_nil_of_le (S : List Value) (p : List Bool) {m n : Nat} (hmn : m ≤ n)
    (h : below H L S p n = []) : below H L S p m = [] := by
  rw [below_below S p hmn, h]; rfl

theorem valueAt_nil {S : List Value} {p : List Bool} {k : Nat}
    (h : below H L S p k = []) : valueAt H L S p = EmptyNodeValue := by
  simp [valueAt, below_nil_of_le S p (Nat.zero_le k) h]

/-- The descent of GetValueInPos from height k on a tree that holds S. -/
theorem getValueLoop_spec (hy : Hygiene H L U) {S : List Value} {mt : MerkleTree}
    (h : Holds H L U S mt) {p : List Bool} (hp : p.length = L - 1) :
    ∀ k, k ≤ L - 1 →
      (∀ m, k < m → m ≤ L - 1 → Multi (below H L S p m)) →
      getValueLoop H mt p k (canon H L k (below H L S p k)) = some (valueAt H L S p, none) := by
  intro k
  induction k with
  | zero =>
    intro _ hmulti
    have hdesc := Present_descend hy hp h.present 0 hmulti
    by_cases hB : below H L S p 0 = []
    · rw [hB, canon_nil, valueAt_nil hB]
      exact getValueLoop_empty mt p 0 (Nat.zero_le _)
    · obtain ⟨u, t, hut⟩ : ∃ u t, below H L S p 0 = u :: t := by
        cases hb : below H L S p 0 with
        | nil => exact absurd hb hB
        | cons u t => exact ⟨u, t, rfl⟩
      have huS : u ∈ S := below_subset _ _ _ (hut ▸ List.mem_cons_self _ _)
      have huU := h.sub huS
      have hkey := Present_key (hdesc (L - 1) 0 (by omega) (le_refl _)).1 hB
      obtain ⟨val, hval⟩ := lookup_isSome_of_key hkey
      rw [hut, canon_zero_cons] at hval
      have hne : HashBytes H u.Bytes ≠ EmptyNodeValue := hy.nz _ (Hashed_leaf huU)
      have hv : valueAt H L S p = u.Bytes := by simp [valueAt, hut]
      rw [hut, canon_zero_cons, hv, getValueLoop]
      rcases read_leaf hy h.canonical huU (lookup_mem hval) with hr | hr
      · rw [hr] at hval
        rw [Get_record mt _ _ _ _ hne h.goodGet (hy.wf u huU).2 hval]
      · rw [hr] at hval
        rw [Get_record mt _ _ _ _ hne h.goodGet (hy.wf u huU).2 hval]
  | succ k ih =>
    intro hk hmulti
    have hk' : k < L - 1 := by omega
    have hdesc := Present_descend hy hp h.present (k + 1) hmulti
    have e1 : p[k]? = some (p.getD k false) := getElem?_path (by omega)
    by_cases hB : below H L S p (k + 1) = []
    · rw [hB, canon_nil, valueAt_nil hB]
      exact getValueLoop_empty mt p (k + 1) (by omega)
    · have hbU : below H L S p (k + 1) ⊆ U := (below_subset _ _ _).trans h.sub
      have hkey := Present_key (hdesc (L - 1 - (k + 1)) (k + 1) (by omega) (le_refl _)).1 hB
      obtain ⟨val, hval⟩ := lookup_isSome_of_key hkey
      have hcne := canon_ne_empty hy (k + 1) hk hbU hB
      by_cases hM : Multi (below H L S p (k + 1))
      · have hrec := read_normal hy h.canonical (by omega) hbU (AgreeFrom_below _ _ _) hM
          (lookup_mem hval)
        rw [hrec] at hval
        have hget := Get_record mt _ normalNodeType 0 _ hcne h.goodGet (by norm_num) hval
        have hmulti' : ∀ m, k < m → m ≤ L - 1 → Multi (below H L S p m) := by
          intro m h1 h2
          by_cases hm : m = k + 1
          · rw [hm]; exact hM
          · exact hmulti m (by omega) h2
        rw [getValueLoop, hget]
        simp only [normalNodeType, finalNodeType,
          parseNodeBytes_append (canon_length _ _ _ _) (canon_length _ _ _ _), e1,
          side_canon_pick]
        rw [if_neg (by decide : ¬ (1 = 2)), ← below_step hy hp hk']
        exact ih (by omega) hmulti'
      · obtain ⟨u, hu⟩ := single_of_not_multi (below_nodup h.nodup _ _) hB hM
        have huS : u ∈ S := below_subset _ _ _ (hu ▸ List.mem_cons_self u [])
        have huU := h.sub huS
        rw [hu] at hval hcne ⊢
        have hrec := read_final hy h.canonical huU (by omega : 1 ≤ k + 1) hk (lookup_mem hval)
        rw [hrec] at hval
        have hget := Get_record mt _ finalNodeType u.IndexLength u.Bytes hcne h.goodGet
          (hy.wf u huU).2 hval
        have hslice := sliceTo_of_le (hy.wf u huU).1
        have hpathu : getPath mt.numLevels (HashBytes H (u.Bytes.take u.IndexLength)) =
            some (u.path H L) := by rw [h.numLevels]; exact getPath_path H L u hy.levels
        have hul := path_length H L u hy.levels
        have hb0 : below H L S p 0 = if u.path H L = p then [u] else [] := by
          rw [below_below S p (Nat.zero_le (k + 1)), hu]
          simp [List.filter_cons]
        rw [getValueLoop, hget]
        simp only [if_true, hslice, hpathu]
        by_cases hpu : u.path H L = p
        · have hv : valueAt H L S p = u.Bytes := by simp [valueAt, hb0, hpu]
          rw [hv, ← hpu, comparePaths_self]
          simp
        · have hv : valueAt H L S p = EmptyNodeValue := by simp [valueAt, hb0, hpu]
          obtain ⟨d, _, hcmp, _, _⟩ := comparePaths_ne (hp.trans hul.symm) (Ne.symm hpu)
          rw [hv, hcmp]
          simp only [ne_eq]
          rw [if_pos (by omega)]

/-- GetValueInPos on a tree that holds S returns the bytes at the position of hi. -/
theorem GetValueInPos_spec (hy : Hygiene H L U) {S : List Value} {mt : MerkleTree}
    (h : Holds H L U S mt) {hi : Hash} {p : List Bool} (hp : getPath L hi = some p)
    (hpl : p.length = L - 1) :
    mt.GetValueInPos H hi = some (valueAt H L S p, none) := by
  have := getValueLoop_spec hy h hpl (L - 1) (le_refl _) (fun m h1 h2 => absurd h2 (by omega))
  rw [below_top hy hpl, ← h.root] at this
  simp only [MerkleTree.GetValueInPos, h.numLevels, hp]
  exact this

end

section

/-! ## The empties bitmap and the sibling blocks of a proof -/

theorem testbitmap_eq (bm : List Nat) (c : Nat) (hl : bm.length = 32) (hc : c < 256) :
    testbitmap bm c = some (bitSet bm c) := by
  have : c / 8 < bm.length := by omega
  simp [bitSet, testbitmap, this]

theorem bitSet_zero (c : Nat) : bitSet (List.replicate 32 0) c = false := by
  simp only [bitSet, testbitmap, List.length_replicate]
  split
  · rw [List.getD_eq_getElem?_getD, List.getElem?_replicate]
    split <;> simp
  · rfl

theorem testBit_set_byte (x s t : Nat) (ht : t < 8) :
    ((x ||| 1 <<< s) % 256).testBit t = (decide (t = s) || x.testBit t) := by
  have h256 : (256 : Nat) = 2 ^ 8 := by norm_num
  rw [h256, Nat.testBit_mod_two_pow, Nat.testBit_or, Nat.one_shiftLeft, Nat.testBit_two_pow]
  simp only [ht, decide_True, Bool.true_and]
  rw [Bool.or_comm]
  congr 1
  simp only [decide_eq_decide]
  exact eq_comm

theorem setbitmap_spec (bm : List Nat) (b : Nat) (hl : bm.length = 32) (hb : b < 256) :
    ∃ bm1, setbitmap bm b = some bm1 ∧ bm1.length = 32 ∧
      ∀ c, c < 256 → bitSet bm1 c = (decide (c = b) || bitSet bm c) := by
  have hb8 : b / 8 < bm.length := by omega
  refine ⟨_, if_pos hb8, by simp [hl], ?_⟩
  intro c hc
  have hc8 : c / 8 < bm.length := by omega
  simp only [bitSet, testbitmap, List.length_set, hc8, if_true, Option.getD_some, hl]
  by_cases hcb : c / 8 = b / 8
  · have hidx : 32 - b / 8 - 1 < bm.length := by omega
    rw [hcb, List.getD_eq_getElem?_getD, List.getElem?_set_self hidx]
    simp only [Option.getD_some]
    rw [testBit_set_byte _ _ _ (Nat.mod_lt _ (by norm_num))]
    have hd : decide (c % 8 = b % 8) = decide (c = b) :=
      decide_eq_decide.mpr ⟨fun h => by omega, fun h => by rw [h]⟩
    rw [hd, if_pos (by omega), if_pos (by omega)]
    rfl
  · have hne : 32 - b / 8 - 1 ≠ 32 - c / 8 - 1 := by omega
    rw [List.getD_eq_getElem?_getD, List.getElem?_set_ne hne, ← List.getD_eq_getElem?_getD]
    have : c ≠ b := fun h => hcb (by rw [h])
    simp [this]

theorem parseSiblings_flatten (sibs : List Hash) (h : ∀ s ∈ sibs, s.length = 32) :
    ∀ fuel, sibs.flatten.length ≤ fuel → parseSiblings fuel sibs.flatten = some sibs := by
  induction sibs with
  | nil =>
    intro fuel _
    cases fuel <;> simp [parseSiblings]
  | cons s t ih =>
    intro fuel hf
    have hs : s.length = 32 := h s (List.mem_cons_self _ _)
    have hlen : (s :: t).flatten.length = 32 + t.flatten.length := by
      simp [List.flatten, hs]
    cases fuel with
    | zero => omega
    | succ fuel =>
      have hne : (s :: t).flatten ≠ [] := by
        intro h0
        rw [h0, List.length_nil] at hlen
        omega
      have hd : ((s :: t).flatten).drop 32 = t.flatten := by
        simp only [List.flatten_cons]
        rw [List.drop_append_of_le_length (by omega), List.drop_of_length_le (by omega)]
        rfl
      have htk : ((s :: t).flatten).take 32 = s := by
        simp only [List.flatten_cons]
        rw [List.take_append_of_le_length (by omega), List.take_of_length_le (by omega)]
      rw [parseSiblings, if_neg hne, if_neg (by omega), hd, htk,
        ih (fun x hx => h x (List.mem_cons_of_mem _ hx)) fuel (by omega)]

end

section

variable {H : RawHash} {L : Nat} {U : List Value}

/-! ## GenerateProof on a canonical tree -/

theorem sibsUpTo_succ (S : List Value) (p : List Bool) (j : Nat) :
    sibsUpTo H L S p (j + 1) = sibsUpTo H L S p j ++ (sibOpt H L S p j).toList := by
  rw [sibsUpTo, List.range_succ, List.filterMap_append]
  congr 1

theorem beside_nil_of_below_nil (S : List Value) (p : List Bool) {m k : Nat} (hmk : m < k)
    (h : below H L S p k = []) : beside H L S p m = [] := by
  apply List.eq_nil_of_subset_nil
  intro x hx
  have := below_mono (H := H) (L := L) S p (by omega : m + 1 ≤ k) (sideOf_subset _ _ _ hx)
  rwa [h] at this

theorem sibsUpTo_only (S : List Value) (p : List Bool) (d : Nat) :
    ∀ j, (∀ m, m < j → m ≠ d → beside H L S p m = []) →
      sibsUpTo H L S p j = if d < j then (sibOpt H L S p d).toList else [] := by
  intro j
  induction j with
  | zero => intro _; simp [sibsUpTo]
  | succ j ih =>
    intro h
    rw [sibsUpTo_succ, ih (fun m h1 h2 => h m (by omega) h2)]
    by_cases hjd : j = d
    · subst hjd
      simp
    · have hb := h j (by omega) hjd
      have hs : sibOpt H L S p j = none := by simp [sibOpt, hb]
      rw [hs]
      by_cases hlt : d < j
      · rw [if_pos hlt, if_pos (by omega)]; simp
      · rw [if_neg hlt, if_neg (by omega)]; simp

theorem sibsUpTo_nil (S : List Value) (p : List Bool) (j : Nat)
    (h : ∀ m, m < j → beside H L S p m = []) : sibsUpTo H L S p j = [] := by
  rw [sibsUpTo_only S p j j (fun m h1 _ => h m h1), if_neg (by omega)]

theorem sibsUpTo_append (S : List Value) (p : List Bool) {m n : Nat} (hmn : m ≤ n) :
    ∃ rest, sibsUpTo H L S p n = sibsUpTo H L S p m ++ rest := by
  induction n, hmn using Nat.le_induction with
  | base => exact ⟨[], by simp⟩
  | succ n _ ih =>
    obtain ⟨rest, hr⟩ := ih
    exact ⟨rest ++ (sibOpt H L S p n).toList, by rw [sibsUpTo_succ, hr, List.append_assoc]⟩

theorem sibsUpTo_length32 (S : List Value) (p : List Bool) (n : Nat) :
    ∀ s ∈ sibsUpTo H L S p n, s.length = 32 := by
  intro s hs
  simp only [sibsUpTo, List.mem_filterMap, sibOpt] at hs
  obtain ⟨m, _, hm⟩ := hs
  split at hm
  · exact absurd hm (by simp)
  · rw [← Option.some.inj hm]; exact canon_length _ _ _ _

theorem BitsFor_zero (S : List Value) (p : List Bool) :
    BitsFor H L S p (List.replicate 32 0) 0 :=
  ⟨by simp, fun c _ => by rw [bitSet_zero]; simp⟩

theorem BitsFor_rest {S : List Value} {p : List Bool} {bm : List Nat} {lv n : Nat}
    (hb : BitsFor H L S p bm lv) (hle : lv ≤ n)
    (he : ∀ c, lv ≤ c → c < n → beside H L S p (L - 2 - c) = []) :
    BitsFor H L S p bm n := by
  refine ⟨hb.1, fun c hc => ?_⟩
  rw [hb.2 c hc]
  by_cases h1 : c < lv
  · have h2 : c < n := by omega
    simp [h1, h2]
  · by_cases h2 : c < n
    · have := he c (by omega) h2
      simp [h1, h2, this]
    · simp [h1, h2]

theorem BitsFor_one {S : List Value} {p : List Bool} {bm bm1 : List Nat} {lv n b : Nat}
    (hb : BitsFor H L S p bm lv) (hle : lv ≤ b) (hbn : b < n) (hlen : bm1.length = 32)
    (hbits : ∀ c, c < 256 → bitSet bm1 c = (decide (c = b) || bitSet bm c))
    (hne : beside H L S p (L - 2 - b) ≠ [])
    (he : ∀ c, lv ≤ c → c < n → c ≠ b → beside H L S p (L - 2 - c) = []) :
    BitsFor H L S p bm1 n := by
  refine ⟨hlen, fun c hc => ?_⟩
  rw [hbits c hc, hb.2 c hc]
  by_cases h0 : c = b
  · subst h0
    simp [hbn, hne]
  · by_cases h1 : c < lv
    · have h2 : c < n := by omega
      simp [h0, h1, h2]
    · by_cases h2 : c < n
      · have := he c (by omega) h2 h0
        simp [h0, h1, h2, this]
      · simp [h0, h1, h2]

theorem proofLoop_empty (mt : MerkleTree) (hi : Hash) (p : List Bool)
    (hidx : mt.numLevels - 2 < p.length) :
    ∀ k level bm sibs,
      proofLoop H mt hi p k level EmptyNodeValue bm sibs = some ((bm, sibs), none) := by
  intro k
  induction k with
  | zero => intro level bm sibs; rfl
  | succ k ih =>
    intro level bm sibs
    have e1 : p[mt.numLevels - level - 2]? = some (p.getD (mt.numLevels - level - 2) false) :=
      getElem?_path (by omega)
    rw [proofLoop, Get_empty]
    simp only [finalNodeType, parseNodeBytes_empty, e1, ite_self]
    rw [if_neg (by decide : ¬ (0 = 2)), if_neg (not_not.mpr rfl)]
    exact ih _ _ _

/-- The descent of GenerateProof from height k on a tree that holds S, for a position whose
leaf, if there is one, does not consist of the bytes of Empty. -/
theorem proofLoop_spec (hy : Hygiene H L U) {S : List Value} {mt : MerkleTree}
    (h : Holds H L U S mt) {hi : Hash} {p : List Bool} (hp : getPath L hi = some p)
    (hpl : p.length = L - 1) (hz : valueAt H L S p = EmptyNodeValue → below H L S p 0 = []) :
    ∀ k, k ≤ L - 1 →
      (∀ m, k < m → m ≤ L - 1 → Multi (below H L S p m)) →
      ∀ bm acc, BitsFor H L S p bm (L - 1 - k) →
        sibsUpTo H L S p k ++ acc = sibsUpTo H L S p (L - 1) →
        ∃ bm1, proofLoop H mt hi p k (L - 1 - k) (canon H L k (below H L S p k)) bm acc =
            some ((bm1, sibsUpTo H L S p (L - 1)), none) ∧ BitsFor H L S p bm1 (L - 1) := by
  intro k
  induction k with
  | zero =>
    intro _ _ bm acc hb hacc
    refine ⟨bm, ?_, hb⟩
    rw [proofLoop, ← hacc]
    simp [sibsUpTo]
  | succ k ih =>
    intro hk hmulti bm acc hb hacc
    have hk' : k < L - 1 := by omega
    have hdesc := Present_descend hy hpl h.present (k + 1) hmulti
    have hix : mt.numLevels - (L - 1 - (k + 1)) - 2 = k := by rw [h.numLevels]; omega
    have e1 : p[k]? = some (p.getD k false) := getElem?_path (by omega)
    have hL : L ≤ 257 := hy.levels
    by_cases hB : below H L S p (k + 1) = []
    · have hbs : ∀ m, m < k + 1 → beside H L S p m = [] :=
        fun m hm => beside_nil_of_below_nil S p hm hB
      refine ⟨bm, ?_, BitsFor_rest hb (by omega) (fun c h1 h2 => hbs _ (by omega))⟩
      rw [hB, canon_nil, proofLoop_empty mt hi p (by rw [h.numLevels]; omega)]
      rw [sibsUpTo_nil S p (k + 1) hbs] at hacc
      rw [← hacc]; rfl
    · have hbU : below H L S p (k + 1) ⊆ U := (below_subset _ _ _).trans h.sub
      have hkey := Present_key (hdesc (L - 1 - (k + 1)) (k + 1) (by omega) (le_refl _)).1 hB
      obtain ⟨val, hval⟩ := lookup_isSome_of_key hkey
      have hcne := canon_ne_empty hy (k + 1) hk hbU hB
      by_cases hM : Multi (below H L S p (k + 1))
      · have hrec := read_normal hy h.canonical (by omega) hbU (AgreeFrom_below _ _ _) hM
          (lookup_mem hval)
        rw [hrec] at hval
        have hget := Get_record mt _ normalNodeType 0 _ hcne h.goodGet (by norm_num) hval
        have hmulti' : ∀ m, k < m → m ≤ L - 1 → Multi (below H L S p m) := by
          intro m h1 h2
          by_cases hm : m = k + 1
          · rw [hm]; exact hM
          · exact hmulti m (by omega) h2
        have hlv : L - 1 - (k + 1) + 1 = L - 1 - k := by omega
        have hlk : L - 2 - (L - 1 - (k + 1)) = k := by omega
        have hsib : canon H L k (sideOf H L k (!p.getD k false) (below H L S p (k + 1))) =
            canon H L k (beside H L S p k) := rfl
        rw [proofLoop, hget]
        simp only [normalNodeType, finalNodeType,
          parseNodeBytes_append (canon_length _ _ _ _) (canon_length _ _ _ _), hix, e1,
          side_canon_pick, side_canon_other]
        rw [if_neg (by decide : ¬ (1 = 2)), ← below_step hy hpl hk', hsib, hlv]
        by_cases hbe : beside H L S p k = []
        · have hce : canon H L k (beside H L S p k) = EmptyNodeValue := by rw [hbe, canon_nil]
          rw [if_neg (not_not.mpr hce)]
          refine ih (by omega) hmulti' bm acc ?_ ?_
          · rw [← hlv]
            exact BitsFor_rest hb (by omega) (fun c h1 h2 => by
              have : c = L - 1 - (k + 1) := by omega
              rw [this, hlk]; exact hbe)
          · rw [← hacc, sibsUpTo_succ]
            simp [sibOpt, hbe]
        · have hce : canon H L k (beside H L S p k) ≠ EmptyNodeValue :=
            canon_ne_empty hy k (by omega) ((beside_subset _ _ _).trans h.sub) hbe
          obtain ⟨bm1, hset, hlen1, hbits⟩ :=
            setbitmap_spec bm (L - 1 - (k + 1)) hb.1 (by omega)
          rw [if_pos hce, hset]
          refine ih (by omega) hmulti' bm1 _ ?_ ?_
          · rw [← hlv]
            exact BitsFor_one hb (le_refl _) (by omega) hlen1 hbits (by rw [hlk]; exact hbe)
              (fun c h1 h2 h3 => absurd (by omega : c = L - 1 - (k + 1)) h3)
          · rw [← hacc, sibsUpTo_succ]
            simp [sibOpt, hbe]
      · obtain ⟨u, hu⟩ := single_of_not_multi (below_nodup h.nodup _ _) hB hM
        have huS : u ∈ S := below_subset _ _ _ (hu ▸ List.mem_cons_self u [])
        have huU := h.sub huS
        rw [hu] at hval hcne ⊢
        have hrec := read_final hy h.canonical huU (by omega : 1 ≤ k + 1) hk (lookup_mem hval)
        rw [hrec] at hval
        have hget := Get_record mt _ finalNodeType u.IndexLength u.Bytes hcne h.goodGet
          (hy.wf u huU).2 hval
        have hslice := sliceTo_of_le (hy.wf u huU).1
        have hpathu : getPath mt.numLevels (HashBytes H (u.Bytes.take u.IndexLength)) =
            some (u.path H L) := by rw [h.numLevels]; exact getPath_path H L u hy.levels
        have hul := path_length H L u hy.levels
        have hb0 : below H L S p 0 = if u.path H L = p then [u] else [] := by
          rw [below_below S p (Nat.zero_le (k + 1)), hu]
          simp [List.filter_cons]
        have hgv := GetValueInPos_spec hy h hp hpl
        have hudrop : (u.path H L).drop (k + 1) = p.drop (k + 1) :=
          (mem_below.mp (hu ▸ List.mem_cons_self u [] : u ∈ below H L S p (k + 1))).2
        rw [proofLoop, hget]
        simp only [if_true, proofFinal, hgv]
        by_cases hpu : u.path H L = p
        · have hv : valueAt H L S p ≠ EmptyNodeValue := by
            intro hv
            have := hz hv
            rw [hb0, if_pos hpu] at this
            exact absurd this (by simp)
          have hbs : ∀ m, m < k + 1 → beside H L S p m = [] := by
            intro m hm
            apply List.eq_nil_of_subset_nil
            intro x hx
            have hx1 := mem_sideOf.mp hx
            have hx2 := below_mono (H := H) (L := L) S p (by omega : m + 1 ≤ k + 1) hx1.1
            rw [hu, List.mem_singleton] at hx2
            have hx3 := hx1.2
            rw [hx2, hpu] at hx3
            cases hq : p.getD m false <;> rw [hq] at hx3 <;> simp at hx3
          refine ⟨bm, ?_, BitsFor_rest hb (by omega) (fun c h1 h2 => hbs _ (by omega))⟩
          rw [if_neg hv]
          rw [sibsUpTo_nil S p (k + 1) hbs] at hacc
          rw [← hacc]; rfl
        · have hv : valueAt H L S p = EmptyNodeValue := by simp [valueAt, hb0, hpu]
          obtain ⟨d, hd, hcmp, hdiff, hsame⟩ := comparePaths_ne (hul.trans hpl.symm) hpu
          have hdk : d ≤ k := by
            by_contra hcon
            exact hdiff (getD_eq_of_drop hudrop (by omega))
          obtain ⟨hbd, hsd, hbm, hsm⟩ := final_layout S p hu hdk hdiff hsame
            (hul.trans hpl.symm) (by omega)
          have hcalc := calcHash_canon H L u d (by omega)
          have hbit : ((mt.NumLevels : Int) - 2 - (d : Int)).toNat = L - 2 - d := by
            simp only [MerkleTree.NumLevels, h.numLevels]; omega
          obtain ⟨bm1, hset, hlen1, hbits⟩ := setbitmap_spec bm (L - 2 - d) hb.1 (by omega)
          have hbs : ∀ m, m < k + 1 → m ≠ d → beside H L S p m = [] := by
            intro m hm hmd
            by_cases hlt : m < d
            · exact beside_nil_of_below_nil S p hlt hbd
            · exact hsm m (by omega) (by omega)
          refine ⟨bm1, ?_, BitsFor_one hb (by omega) (by omega) hlen1 hbits ?_ ?_⟩
          · rw [hv, if_pos rfl]
            simp only [hslice, hpathu, hcmp, Int.toNat_ofNat, hcalc, hbit, hset]
            rw [if_neg (by omega), if_pos (by
              simp only [MerkleTree.NumLevels, h.numLevels]; omega), if_neg (by
              simp only [MerkleTree.NumLevels, h.numLevels]; omega)]
            rw [sibsUpTo_only S p d (k + 1) hbs, if_pos (by omega)] at hacc
            rw [← hacc]
            simp [sibOpt, hsd]
          · have : L - 2 - (L - 2 - d) = d := by omega
            rw [this, hsd]; simp
          · intro c h1 h2 h3
            exact hbs _ (by omega) (by omega)

/-- GenerateProof on a tree that holds S: a bitmap and the non-Empty siblings of the path,
for a position whose leaf, if there is one, does not consist of the bytes of Empty. -/
theorem GenerateProof_spec (hy : Hygiene H L U) {S : List Value} {mt : MerkleTree}
    (h : Holds H L U S mt) {hi : Hash} {p : List Bool} (hp : getPath L hi = some p)
    (hpl : p.length = L - 1) (hz : valueAt H L S p = EmptyNodeValue → below H L S p 0 = []) :
    ∃ bm, BitsFor H L S p bm (L - 1) ∧
      mt.GenerateProof H hi = some (bm ++ (sibsUpTo H L S p (L - 1)).flatten, none) := by
  obtain ⟨bm1, hrun, hb⟩ := proofLoop_spec hy h hp hpl hz (L - 1) (le_refl _)
    (fun m h1 h2 => absurd h2 (by omega)) (List.replicate 32 0) []
    (by rw [Nat.sub_self]; exact BitsFor_zero S p) (by simp)
  rw [Nat.sub_self, below_top hy hpl, ← h.root] at hrun
  refine ⟨bm1, hb, ?_⟩
  simp only [MerkleTree.GenerateProof, h.numLevels, hp, hrun]

end

section

variable {H : RawHash} {L : Nat} {U : List Value}

/-! ## CheckProof on the proof of a canonical tree -/

theorem sibsUpTo_getElem (S : List Value) (p : List Bool) {m n : Nat} (hmn : m < n)
    (hne : beside H L S p m ≠ []) :
    (sibsUpTo H L S p n)[(sibsUpTo H L S p m).length]? =
      some (canon H L m (beside H L S p m)) := by
  obtain ⟨rest, hr⟩ := sibsUpTo_append (H := H) (L := L) S p (by omega : m + 1 ≤ n)
  have hs : sibOpt H L S p m = some (canon H L m (beside H L S p m)) := by simp [sibOpt, hne]
  rw [hr, sibsUpTo_succ, hs]
  simp only [Option.toList, List.append_assoc, List.singleton_append]
  rw [List.getElem?_append_right (le_refl _), Nat.sub_self]
  exact List.getElem?_cons_zero

/-- The ascent of CheckProof from height L-1-k along the path p, on the bitmap and the
siblings of a canonical tree: it arrives at the digest of the whole tree. -/
theorem checkLoop_spec (hy : Hygiene H L U) {S : List Value} (hS : S ⊆ U) {p : List Bool}
    (hpl : p.length = L - 1) {bm : List Nat} (hb : BitsFor H L S p bm (L - 1)) :
    ∀ k, k ≤ L - 1 →
      checkLoop H L bm (sibsUpTo H L S p (L - 1)) p k
        (canon H L (L - 1 - k) (below H L S p (L - 1 - k)))
        (sibsUpTo H L S p (L - 1 - k)).length = some (canon H L (L - 1) (below H L S p (L - 1))) := by
  intro k
  induction k with
  | zero => intro _; rfl
  | succ level ih =>
    intro hk
    have hL : L ≤ 257 := hy.levels
    have hm : L - 1 - (level + 1) < L - 1 := by omega
    have hix : L - level - 2 = L - 1 - (level + 1) := by omega
    have hc2 : L - 2 - level = L - 1 - (level + 1) := by omega
    have hnext : L - 1 - level = L - 1 - (level + 1) + 1 := by omega
    have e1 : p[L - 1 - (level + 1)]? = some (p.getD (L - 1 - (level + 1)) false) :=
      getElem?_path (by omega)
    have hbit : bitSet bm level = decide (beside H L S p (L - 1 - (level + 1)) ≠ []) := by
      rw [hb.2 level (by omega), hc2]
      simp [(by omega : level < L - 1)]
    rw [checkLoop, testbitmap_eq bm level hb.1 (by omega), hbit, hix]
    have ih1 := ih (by omega)
    rw [hnext] at ih1
    generalize L - 1 - (level + 1) = m at hm e1 ih1 ⊢
    by_cases hbe : beside H L S p m = []
    · have hd : decide (beside H L S p m ≠ []) = false := by simp [hbe]
      simp only [hd, e1, Bool.false_eq_true, if_false]
      rw [sibsUpTo_succ] at ih1
      have hs : sibOpt H L S p m = none := by simp [sibOpt, hbe]
      rw [hs] at ih1
      simp only [Option.toList, List.append_nil] at ih1
      by_cases hB : below H L S p (m + 1) = []
      · have hB0 : below H L S p m = [] := below_nil_of_le S p (by omega) hB
        rw [hB0, canon_nil]
        rw [hB, canon_nil] at ih1
        simp only [and_self, if_true]
        exact ih1
      · have hstep := canon_below_step hy hpl hm hB
        rw [hbe, canon_nil] at hstep
        have hB0 : below H L S p m ≠ [] := by
          intro h0
          apply hB
          apply List.eq_nil_of_subset_nil
          intro x hx
          rcases mem_side_cases (H := H) (L := L) (j := m) hx with h1 | h1 <;>
            cases hq : p.getD m false
          · have : x ∈ below H L S p m := by
              rw [below_step hy hpl hm, hq]; exact h1
            rwa [h0] at this
          · have : x ∈ beside H L S p m := by
              simp only [beside, hq]; exact h1
            rwa [hbe] at this
          · have : x ∈ beside H L S p m := by
              simp only [beside, hq]; exact h1
            rwa [hbe] at this
          · have : x ∈ below H L S p m := by
              rw [below_step hy hpl hm, hq]; exact h1
            rwa [h0] at this
        have hc0 := canon_ne_empty hy m (by omega) ((below_subset _ _ _).trans hS) hB0
        rw [if_neg (fun hand => hc0 hand.1)]
        rw [hstep] at ih1
        exact ih1
    · have hd : decide (beside H L S p m ≠ []) = true := by simp [hbe]
      simp only [hd, e1, if_true, sibsUpTo_getElem S p hm hbe]
      rw [sibsUpTo_succ] at ih1
      have hs : sibOpt H L S p m = some (canon H L m (beside H L S p m)) := by
        simp [sibOpt, hbe]
      rw [hs] at ih1
      simp only [Option.toList, List.length_append, List.length_singleton] at ih1
      have hB : below H L S p (m + 1) ≠ [] := by
        intro h0
        exact hbe (beside_nil_of_below_nil S p (Nat.lt_succ_self m) h0)
      have hstep := canon_below_step hy hpl hm hB
      have hc0 := canon_ne_empty hy m (by omega) ((beside_subset _ _ _).trans hS) hbe
      rw [if_neg (fun hand => hc0 hand.2)]
      rw [hstep] at ih1
      exact ih1

/-- CheckProof accepts the proof that GenerateProof builds on a canonical tree, for the
digest at the position: the content hash of the leaf there, Empty when there is none. -/
theorem CheckProof_spec (hy : Hygiene H L U) {S : List Value} (hS : S ⊆ U) {hi : Hash}
    {p : List Bool} (hp : getPath L hi = some p) (hpl : p.length = L - 1) {bm : List Nat}
    (hb : BitsFor H L S p bm (L - 1)) :
    CheckProof H (canon H L (L - 1) S) (bm ++ (sibsUpTo H L S p (L - 1)).flatten) hi
      (canon H L 0 (below H L S p 0)) L = some true := by
  have hrun := checkLoop_spec hy hS hpl hb (L - 1) (le_refl _)
  rw [Nat.sub_self, below_top hy hpl] at hrun
  have h0 : (sibsUpTo H L S p 0).length = 0 := by simp [sibsUpTo]
  rw [h0] at hrun
  have hsl : sliceTo (bm ++ (sibsUpTo H L S p (L - 1)).flatten) 32 = some bm := by
    rw [sliceTo_of_le (by rw [List.length_append, hb.1]; omega)]
    rw [List.take_append_of_le_length (by rw [hb.1]), List.take_of_length_le (by rw [hb.1])]
  have hdr : (bm ++ (sibsUpTo H L S p (L - 1)).flatten).drop 32 =
      (sibsUpTo H L S p (L - 1)).flatten := by
    rw [List.drop_append_of_le_length (by rw [hb.1]), List.drop_of_length_le (by rw [hb.1])]
    rfl
  have hps := parseSiblings_flatten _ (sibsUpTo_length32 (H := H) (L := L) S p (L - 1))
    (bm ++ (sibsUpTo H L S p (L - 1)).flatten).length (by rw [List.length_append]; omega)
  simp only [CheckProof, hsl, hdr, hps, hp, hrun, decide_True]

end

section

variable {H : RawHash}

/-! ## What every run of Add keeps, on any store -/

theorem SameStore_refl (mt : MerkleTree) : SameStore mt mt := ⟨rfl, rfl, rfl⟩

theorem SameStore_trans {a b c : MerkleTree} (h1 : SameStore a b) (h2 : SameStore b c) :
    SameStore a c :=
  ⟨h2.1.trans h1.1, h2.2.1.trans h1.2.1, h2.2.2.trans h1.2.2⟩

theorem Insert_frame (mt : MerkleTree) (key : Hash) (tag il : Nat) (body : List Nat) :
    SameStore mt (mt.Insert key tag il body).1 ∧ (mt.Insert key tag il body).1.root = mt.root ∧
      ∀ kv ∈ (mt.Insert key tag il body).1.storage.data,
        kv = (key, record tag il body) ∨ kv ∈ mt.storage.data := by
  by_cases hk : key ∈ mt.storage.badPut
  · have h1 : mt.Insert key tag il body = (mt, some Error.ErrStore) := by
      simp [MerkleTree.Insert, DB.Put, hk]
    rw [h1]
    exact ⟨SameStore_refl _, rfl, fun kv h => Or.inr h⟩
  · have h1 : mt.Insert key tag il body =
        ({ mt with storage :=
            { mt.storage with data := (key, record tag il body) :: mt.storage.data } }, none) := by
      simp [MerkleTree.Insert, DB.Put, hk, record]
    rw [h1]
    exact ⟨⟨rfl, rfl, rfl⟩, rfl, fun kv h => List.mem_cons.mp h⟩

theorem Insert_keyed (mt : MerkleTree) (key : Hash) (tag il : Nat) (body : List Nat)
    (hw : WellKeyed H mt.numLevels (key, record tag il body)) (h : Keyed H mt) :
    Keyed H (mt.Insert key tag il body).1 := by
  obtain ⟨hs, _, hd⟩ := Insert_frame mt key tag il body
  intro kv hkv
  rw [hs.1]
  rcases hd kv hkv with h1 | h1
  · rw [h1]; exact hw
  · exact h kv h1

theorem Insert_root_lookup (mt : MerkleTree) (key : Hash) (tag il : Nat) (body : List Nat)
    (hk : key ∉ mt.storage.badPut) :
    (mt.Insert key tag il body).1.storage.lookup key = some (record tag il body) := by
  simp [MerkleTree.Insert, DB.Put, hk, DB.lookup, record]

theorem calcHashLoop_length (path : List Bool) :
    ∀ k i cur h, cur.length = 32 → calcHashLoop H path k i cur = some h → h.length = 32 := by
  intro k
  induction k with
  | zero =>
    intro i cur h hc hr
    simp only [calcHashLoop, Option.some.injEq] at hr
    rw [← hr]; exact hc
  | succ k ih =>
    intro i cur h _ hr
    rw [calcHashLoop] at hr
    split at hr
    · exact absurd hr (by simp)
    · exact ih _ _ _ (Ht_length _ _) hr
    · exact ih _ _ _ (Ht_length _ _) hr

theorem normal_keyed (L : Nat) (n : treeNode) :
    WellKeyed H L (n.Ht H, record normalNodeType 0 n.Bytes) :=
  Or.inr (Or.inl ⟨n.Bytes, rfl, rfl⟩)

theorem replaceLeafLoop_frame (sibs : List Hash) (path : List Bool) :
    ∀ k i mt cur m1 r, cur.length = 32 →
      replaceLeafLoop H sibs path k i mt cur = some (m1, r) →
      SameStore mt m1 ∧ m1.root = mt.root ∧ (Keyed H mt → Keyed H m1) ∧ r.length = 32 := by
  intro k
  induction k with
  | zero =>
    intro i mt cur m1 r hc hr
    simp only [replaceLeafLoop, Option.some.injEq, Prod.mk.injEq] at hr
    rw [← hr.1, ← hr.2]
    exact ⟨SameStore_refl _, rfl, id, hc⟩
  | succ k ih =>
    intro i mt cur m1 r _ hr
    rw [replaceLeafLoop] at hr
    split at hr
    · obtain ⟨h1, h2, h3, h4⟩ := ih _ _ _ _ _ (Ht_length _ _) hr
      obtain ⟨f1, f2, _⟩ := Insert_frame mt (treeNode.Ht H _) normalNodeType 0 _
      exact ⟨SameStore_trans f1 h1, h2.trans f2,
        fun hk => h3 (Insert_keyed mt _ _ _ _ (normal_keyed _ _) hk), h4⟩
    · obtain ⟨h1, h2, h3, h4⟩ := ih _ _ _ _ _ (Ht_length _ _) hr
      obtain ⟨f1, f2, _⟩ := Insert_frame mt (treeNode.Ht H _) normalNodeType 0 _
      exact ⟨SameStore_trans f1 h1, h2.trans f2,
        fun hk => h3 (Insert_keyed mt _ _ _ _ (normal_keyed _ _) hk), h4⟩
    · exact absurd hr (by simp)

theorem replaceLeaf_frame (mt : MerkleTree) (sibs : List Hash) (path : List Bool)
    (leafHash : Hash) (tag il : Nat) (body : List Nat) (m1 : MerkleTree) (r : Hash)
    (hl : leafHash.length = 32) (hw : WellKeyed H mt.numLevels (leafHash, record tag il body))
    (hr : mt.replaceLeaf H sibs path leafHash tag il body = some (m1, r)) :
    SameStore mt m1 ∧ (Keyed H mt → Keyed H m1) ∧ r.length = 32 := by
  rw [MerkleTree.replaceLeaf] at hr
  obtain ⟨h1, _, h3, h4⟩ := replaceLeafLoop_frame sibs path _ _ _ _ _ _ hl hr
  obtain ⟨f1, _, _⟩ := Insert_frame mt leafHash tag il body
  exact ⟨SameStore_trans f1 h1, fun hk => h3 (Insert_keyed mt _ _ _ _ hw hk), h4⟩

theorem finish_frame (mt0 mtX : MerkleTree) (r : Hash) (hs : SameStore mt0 mtX)
    (hk : Keyed H mt0 → Keyed H mtX) (hr : r.length = 32) :
    AddFrame H mt0
      (some ((({ mtX with root := r } : MerkleTree).Insert (rootNodeValue H) rootNodeType 0 r).1,
        none)) := by
  intro mt1 e he
  simp only [Option.some.injEq, Prod.mk.injEq] at he
  obtain ⟨f1, f2, _⟩ :=
    Insert_frame ({ mtX with root := r } : MerkleTree) (rootNodeValue H) rootNodeType 0 r
  have hsx : SameStore mt0 ({ mtX with root := r } : MerkleTree) := hs
  rw [← he.1]
  refine ⟨SameStore_trans hsx f1, fun h0 => ?_, fun _ => ⟨?_, fun hput => ?_⟩⟩
  · exact Insert_keyed _ _ _ _ _ (Or.inl rfl) (hk h0)
  · rw [f2]; exact hr
  · rw [f2]
    exact Insert_root_lookup _ _ _ _ _ (by
      have : ({ mtX with root := r } : MerkleTree).storage.badPut = mt0.storage.badPut := hs.2.1
      rw [this]; exact hput)

theorem AddFrame_error (mt : MerkleTree) (e : Error) : AddFrame H mt (some (mt, some e)) := by
  intro mt1 e1 he
  simp only [Option.some.injEq, Prod.mk.injEq] at he
  rw [← he.1]
  exact ⟨SameStore_refl _, id, fun h => absurd (he.2.trans h) (by simp)⟩

theorem AddFrame_none (mt : MerkleTree) : AddFrame H mt none := by
  intro mt1 e he
  exact absurd he (by simp)

theorem final_keyed {L : Nat} {il level : Nat} {body : List Nat} {path : List Bool} {key : Hash}
    (hp : getPath L (HashBytes H (body.take il)) = some path)
    (hc : calcHashFromLeafAndLevel H level path (HashBytes H body) = some key) :
    WellKeyed H L (key, record finalNodeType il body) :=
  Or.inr (Or.inr (Or.inr ⟨il, body, level, path, rfl, hp, hc⟩))

theorem calcHash_length {level : Nat} {path : List Bool} {body : List Nat} {key : Hash}
    (hc : calcHashFromLeafAndLevel H level path (HashBytes H body) = some key) :
    key.length = 32 :=
  calcHashLoop_length path _ _ _ _ (HashBytes_length _ _) hc

theorem sliceTo_eq {s : List Nat} {n : Nat} {x : List Nat} (h : sliceTo s n = some x) :
    x = s.take n := by
  simp only [sliceTo] at h
  split at h
  · exact (Option.some.inj h).symm
  · exact absurd h (by simp)

theorem addFinal_frame (mt : MerkleTree) (v : Value) (path : List Bool) (i : Nat)
    (siblings : List Hash) (indexLength : Nat) (nodeBytes : List Nat)
    (hpath : getPath mt.numLevels (HashBytes H (v.Bytes.take v.IndexLength)) = some path) :
    AddFrame H mt (addFinal H mt v path i siblings indexLength nodeBytes) := by
  rw [addFinal]
  split
  · exact AddFrame_none mt
  · rename_i index hidx
    split
    · exact AddFrame_none mt
    · rename_i pathChild hpc
      split
      · exact AddFrame_none mt
      · rename_i posDiff _
        split
        · exact AddFrame_error mt _
        · split
          · rename_i f1 f2 side hc1 hc2 _
            rw [sliceTo_eq hidx] at hpc
            have hw1 : WellKeyed H mt.numLevels (f1, record finalNodeType indexLength nodeBytes) :=
              final_keyed hpc hc1
            obtain ⟨s1, _, _⟩ := Insert_frame mt f1 finalNodeType indexLength nodeBytes
            have hw2 : WellKeyed H (mt.Insert f1 finalNodeType indexLength nodeBytes).1.numLevels
                (f2, record finalNodeType v.IndexLength v.Bytes) := by
              rw [s1.1]; exact final_keyed hpath hc2
            obtain ⟨s2, _, _⟩ := Insert_frame (mt.Insert f1 finalNodeType indexLength nodeBytes).1
              f2 finalNodeType v.IndexLength v.Bytes
            have k2 : Keyed H mt → Keyed H ((mt.Insert f1 finalNodeType indexLength nodeBytes).1.Insert
                f2 finalNodeType v.IndexLength v.Bytes).1 :=
              fun hk => Insert_keyed _ _ _ _ _ hw2 (Insert_keyed _ _ _ _ _ hw1 hk)
            simp only []
            generalize (if side = true then ({ ChildL := f1, ChildR := f2 } : treeNode)
              else { ChildL := f2, ChildR := f1 }) = parentNode
            cases hrl : MerkleTree.replaceLeaf H
                ((mt.Insert f1 finalNodeType indexLength nodeBytes).1.Insert f2 finalNodeType
                  v.IndexLength v.Bytes).1
                (siblings ++ getEmptiesBetweenIAndPosHash i (posDiff + 1))
                (List.drop (posDiff.toNat + 1) path) (treeNode.Ht H parentNode) normalNodeType 0
                parentNode.Bytes with
            | none => exact AddFrame_none mt
            | some res =>
              obtain ⟨mt3, root⟩ := res
              obtain ⟨s3, k3, hlen⟩ := replaceLeaf_frame _ _ _ _ _ _ _ _ _ (Ht_length _ _)
                (normal_keyed _ _) hrl
              exact finish_frame mt mt3 root (SameStore_trans (SameStore_trans s1 s2) s3)
                (fun hk => k3 (k2 hk)) hlen
          · exact AddFrame_none mt

theorem addLoop_frame (v : Value) (path : List Bool) :
    ∀ k mt nodeHash siblings,
      getPath mt.numLevels (HashBytes H (v.Bytes.take v.IndexLength)) = some path →
      AddFrame H mt (addLoop H v path k mt nodeHash siblings) := by
  intro k
  induction k with
  | zero =>
    intro mt nodeHash siblings _
    rw [addLoop]
    split
    · exact AddFrame_none mt
    · rename_i mt1 root hrl
      obtain ⟨s1, k1, hlen⟩ := replaceLeaf_frame _ _ _ _ _ _ _ _ _ (HashBytes_length _ _)
        (Or.inr (Or.inr (Or.inl ⟨v.IndexLength, v.Bytes, rfl, rfl⟩))) hrl
      exact finish_frame mt mt1 root s1 k1 hlen
  | succ i ih =>
    intro mt nodeHash siblings hpath
    rw [addLoop]
    split
    · exact AddFrame_none mt
    · split
      · exact AddFrame_error mt _
      · split
        · exact addFinal_frame mt v path i siblings _ _ hpath
        · rename_i nodeBytes _ _ _
          simp only []
          cases hside : path[i]? with
          | none => exact AddFrame_none mt
          | some side =>
            simp only []
            generalize (if side = true then (parseNodeBytes nodeBytes).ChildR
              else (parseNodeBytes nodeBytes).ChildL) = nodeHash1
            generalize (if side = true then (parseNodeBytes nodeBytes).ChildL
              else (parseNodeBytes nodeBytes).ChildR) = sibling
            by_cases h1 : nodeHash1 = EmptyNodeValue
            · rw [if_pos h1]
              by_cases h2 : i + 2 = mt.numLevels ∧ sibling = EmptyNodeValue
              · rw [if_pos h2]
                cases hc : calcHashFromLeafAndLevel H (i + 1) path (HashBytes H v.Bytes) with
                | none => exact AddFrame_none mt
                | some fh =>
                  obtain ⟨s1, _, _⟩ := Insert_frame mt fh finalNodeType v.IndexLength v.Bytes
                  exact finish_frame mt _ fh s1
                    (fun hk => Insert_keyed _ _ _ _ _ (final_keyed hpath hc) hk)
                    (calcHash_length hc)
              · rw [if_neg h2]
                cases hc : calcHashFromLeafAndLevel H i path (HashBytes H v.Bytes) with
                | none => exact AddFrame_none mt
                | some fh =>
                  simp only []
                  cases hrl : MerkleTree.replaceLeaf H mt (siblings ++ [sibling]) (List.drop i path)
                      fh finalNodeType v.IndexLength v.Bytes with
                  | none => exact AddFrame_none mt
                  | some res =>
                    obtain ⟨mt1, root⟩ := res
                    obtain ⟨s1, k1, hlen⟩ := replaceLeaf_frame _ _ _ _ _ _ _ _ _
                      (calcHash_length hc) (final_keyed hpath hc) hrl
                    exact finish_frame mt mt1 root s1 k1 hlen
            · rw [if_neg h1]
              exact ih mt _ _ hpath

/-- Every run of Add keeps the depth, the failing keys and the addressing of the bindings,
and leaves the root record in the store after a nil return. -/
theorem Add_frame (mt : MerkleTree) (v : Value) : AddFrame H mt (mt.Add H v) := by
  rw [MerkleTree.Add]
  obtain ⟨s1, _, _⟩ := Insert_frame mt (HashBytes H v.Bytes) valueNodeType v.IndexLength v.Bytes
  have k1 : Keyed H mt → Keyed H (mt.Insert (HashBytes H v.Bytes) valueNodeType v.IndexLength
      v.Bytes).1 :=
    fun hk => Insert_keyed _ _ _ _ _ (Or.inr (Or.inr (Or.inl ⟨v.IndexLength, v.Bytes, rfl, rfl⟩))) hk
  split
  · exact AddFrame_none mt
  · rename_i index hidx
    split
    · exact AddFrame_none mt
    · rename_i path hpath
      rw [sliceTo_eq hidx] at hpath
      intro mt1 e he
      obtain ⟨s2, k2, r2⟩ := addLoop_frame v path _ _ _ _ hpath mt1 e he
      exact ⟨SameStore_trans s1 s2, fun hk => k2 (k1 hk), fun h => ⟨(r2 h).1, fun hput =>
        (r2 h).2 (by rw [s1.2.1]; exact hput)⟩⟩

theorem runAdds_frame : ∀ (vs : List Value) (mt mt1 : MerkleTree) (es : List (Option Error)),
    runAdds H mt vs = some (mt1, es) → SameStore mt mt1 ∧ (Keyed H mt → Keyed H mt1) := by
  intro vs
  induction vs with
  | nil =>
    intro mt mt1 es h
    simp only [runAdds, Option.some.injEq, Prod.mk.injEq] at h
    rw [← h.1]
    exact ⟨SameStore_refl _, id⟩
  | cons v vs ih =>
    intro mt mt1 es h
    rw [runAdds] at h
    split at h
    · exact absurd h (by simp)
    · rename_i m e hadd
      split at h
      · exact absurd h (by simp)
      · rename_i m2 es2 hrun
        simp only [Option.some.injEq, Prod.mk.injEq] at h
        obtain ⟨s1, k1, _⟩ := Add_frame mt v m e hadd
        obtain ⟨s2, k2⟩ := ih m m2 es2 hrun
        rw [← h.1]
        exact ⟨SameStore_trans s1 s2, fun hk => k2 (k1 hk)⟩

theorem New_keyed (L : Nat) (mt : MerkleTree) (e : Option Error)
    (h : New H emptyDB L = some (some mt, e)) : mt.numLevels = L ∧ Keyed H mt := by
  simp only [New, MerkleTree.Get, DB.Get, emptyDB, DB.lookup, MerkleTree.Insert, DB.Put] at h
  split at h
  · simp at h
  · rename_i a b rootHash err hget
    split at hget
    · simp only [Option.some.injEq, Prod.mk.injEq] at hget
      rw [← hget.2.2.2] at h
      simp only [Option.some.injEq, Prod.mk.injEq] at h
      rw [← h.1]
      exact ⟨rfl, fun kv hkv => absurd hkv (by simp)⟩
    · simp only [List.not_mem_nil, if_false, List.find?_nil, Option.map_none',
        Option.some.injEq, Prod.mk.injEq] at hget
      rw [← hget.2.2.2] at h
      simp only [List.not_mem_nil, if_false, Option.some.injEq, Prod.mk.injEq] at h
      rw [← h.1]
      refine ⟨rfl, fun kv hkv => ?_⟩
      simp only [List.mem_singleton] at hkv
      rw [hkv]
      exact Or.inl rfl

end

section

variable {H : RawHash} {L : Nat} {U : List Value}

/-! ## The conditions on the leaves, on a concrete input -/

theorem canon_zero_mem (a : List Value) (ha : a ⊆ U) :
    canon H L 0 a ∈ EmptyNodeValue :: U.map fun l => HashBytes H l.Bytes := by
  cases a with
  | nil => rw [canon_nil]; exact List.mem_cons_self _ _
  | cons l t =>
    rw [canon_zero_cons]
    exact List.mem_cons_of_mem _ (List.mem_map.mpr ⟨l, ha (List.mem_cons_self _ _), rfl⟩)

theorem Hashed_two_levels {x : List Nat} (h : Hashed H 2 U x) : x ∈ hashedStrings H U := by
  rcases h with h | ⟨v, hv, h⟩ | ⟨j, a, b, hj, ha, hb, h⟩
  · rw [h]; exact List.mem_cons_self _ _
  · rw [h]
    exact List.mem_cons_of_mem _ (List.mem_append_left _ (List.mem_map.mpr ⟨v, hv, rfl⟩))
  · have hj0 : j = 0 := by omega
    rw [h, hj0]
    refine List.mem_cons_of_mem _ (List.mem_append_right _ ?_)
    exact List.mem_flatMap.mpr ⟨_, canon_zero_mem a ha,
      List.mem_map.mpr ⟨_, canon_zero_mem b hb, rfl⟩⟩

/-- The conditions on the leaves hold in a tree of two levels when the digests of the hashed
strings are pairwise different and none is Empty. -/
theorem Hygiene_two_levels (H : RawHash) (U : List Value)
    (hwf : ∀ v ∈ U, v.IndexLength ≤ v.Bytes.length ∧ v.IndexLength < 2 ^ 32)
    (hnd : U.Nodup)
    (hpaths : ∀ a ∈ U, ∀ b ∈ U, a.path H 2 = b.path H 2 → a = b)
    (hbytes : ∀ a ∈ U, ∀ b ∈ U, a.Bytes = b.Bytes → a = b)
    (hshape : ∀ v ∈ U, v.Bytes.length ≠ 64 ∧ v.Bytes ≠ rootString)
    (hdig : ((hashedStrings H U).map (HashBytes H)).Nodup)
    (hnz : EmptyNodeValue ∉ (hashedStrings H U).map (HashBytes H)) : Hygiene H 2 U where
  levels := by norm_num
  wf := hwf
  nodup := hnd
  paths := hpaths
  bytes := hbytes
  shape := hshape
  inj := fun x y hx hy hxy =>
    List.inj_on_of_nodup_map hdig (Hashed_two_levels hx) (Hashed_two_levels hy) hxy
  nz := fun x hx h0 => hnz (List.mem_map.mpr ⟨x, Hashed_two_levels hx, h0⟩)

theorem Hashed_mono {U V : List Value} (h : V ⊆ U) {x : List Nat} (hx : Hashed H L V x) :
    Hashed H L U x := by
  rcases hx with h1 | ⟨v, hv, h1⟩ | ⟨j, a, b, hj, ha, hb, h1⟩
  · exact Or.inl h1
  · exact Or.inr (Or.inl ⟨v, h hv, h1⟩)
  · exact Or.inr (Or.inr ⟨j, a, b, hj, ha.trans h, hb.trans h, h1⟩)

theorem Hygiene_sub {U V : List Value} (hy : Hygiene H L U) (h : V ⊆ U) (hnd : V.Nodup) :
    Hygiene H L V where
  levels := hy.levels
  wf := fun v hv => hy.wf v (h hv)
  nodup := hnd
  paths := fun a ha b hb => hy.paths a (h ha) b (h hb)
  bytes := fun a ha b hb => hy.bytes a (h ha) b (h hb)
  shape := fun v hv => hy.shape v (h hv)
  inj := fun x y hx hy1 => hy.inj x y (Hashed_mono h hx) (Hashed_mono h hy1)
  nz := fun x hx => hy.nz x (Hashed_mono h hx)

set_option maxRecDepth 100000 in
theorem digests_leafA_leafB :
    ((hashedStrings keccak256 [leafA, leafB]).map (HashBytes keccak256)).Nodup ∧
      EmptyNodeValue ∉ (hashedStrings keccak256 [leafA, leafB]).map (HashBytes keccak256) := by
  decide!

set_option maxRecDepth 100000 in
theorem paths_leafA_leafB :
    ∀ a ∈ [leafA, leafB], ∀ b ∈ [leafA, leafB],
      a.path keccak256 2 = b.path keccak256 2 → a = b := by
  decide!

/-- The leaves leafA and leafB meet the conditions in a tree of two levels under Keccak-256. -/
theorem Hygiene_leafA_leafB : Hygiene keccak256 2 [leafA, leafB] :=
  Hygiene_two_levels keccak256 [leafA, leafB] (by decide) (by decide) paths_leafA_leafB
    (by decide) (by decide) digests_leafA_leafB.1 digests_leafA_leafB.2

theorem Hygiene_leafA : Hygiene keccak256 2 [leafA] :=
  Hygiene_sub Hygiene_leafA_leafB (by decide) (by decide)

end

section

/-! ## The properties of the specification -/

theorem below_zero_member {H : RawHash} {L : Nat} {U : List Value} (hy : Hygiene H L U)
    {S : List Value} (hS : S ⊆ U) (hnd : S.Nodup) {l : Value} (hl : l ∈ S) :
    below H L S (l.path H L) 0 = [l] := by
  have hmem : l ∈ below H L S (l.path H L) 0 := mem_below.mpr ⟨hl, rfl⟩
  have hall : ∀ x ∈ below H L S (l.path H L) 0, x = l := by
    intro x hx
    obtain ⟨hxS, hxp⟩ := mem_below.mp hx
    simp only [List.drop_zero] at hxp
    exact hy.paths x (hS hxS) l (hS hl) hxp
  have hnm : ¬ Multi (below H L S (l.path H L) 0) := by
    rintro ⟨x, hx, y, hy1, hxy⟩
    exact hxy ((hall x hx).trans (hall y hy1).symm)
  obtain ⟨u, hu⟩ := single_of_not_multi (below_nodup hnd _ _) (List.ne_nil_of_mem hmem) hnm
  rw [hu] at hmem ⊢
  rw [List.mem_singleton.mp hmem]

theorem below_zero_free {H : RawHash} {L : Nat} {U : List Value} (hy : Hygiene H L U)
    {S : List Value} (hS : S ⊆ U) {hi : Hash} {p : List Bool} (hp : getPath L hi = some p)
    (hfree : ∀ l ∈ U, getPath L (l.Hi H) ≠ getPath L hi) : below H L S p 0 = [] := by
  apply List.eq_nil_iff_forall_not_mem.mpr
  intro x hx
  obtain ⟨hxS, hxp⟩ := mem_below.mp hx
  simp only [List.drop_zero] at hxp
  apply hfree x (hS hxS)
  rw [getPath_path H L x hy.levels, hp, hxp]

theorem parseSiblings_none :
    ∀ (fuel : Nat) (rest : List Nat), rest.length ≤ 32 * fuel → rest.length % 32 ≠ 0 →
      parseSiblings fuel rest = none := by
  intro fuel
  induction fuel with
  | zero =>
    intro rest h1 h2
    have h0 : rest.length = 0 := by omega
    rw [h0] at h2
    exact absurd rfl h2
  | succ k ih =>
    intro rest h1 h2
    have hne : rest ≠ [] := by
      intro h
      rw [h] at h2
      exact h2 rfl
    rw [parseSiblings, if_neg hne]
    by_cases hlt : rest.length < 32
    · rw [if_pos hlt]
    · rw [if_neg hlt, ih (rest.drop 32) (by rw [List.length_drop]; omega)
        (by rw [List.length_drop]; omega)]

theorem Get_stored (mt : MerkleTree) (key : Hash) (tag il : Nat) (body : List Nat)
    (hk : key ≠ EmptyNodeValue) (hg : key ∉ mt.storage.badGet) (hil : il < 2 ^ 32)
    (h : mt.storage.lookup key = some (record tag il body)) :
    mt.Get key = some (tag, il, body, none) := by
  have h5 : (record tag il body).drop 5 = body := by simp [record, Uint32ToBytes]
  have h1 : record tag il body = tag :: (Uint32ToBytes il ++ body) := by simp [record]
  have h2 := BytesToUint32_Uint32ToBytes il hil body
  simp only [MerkleTree.Get, hk, if_false, DB.Get, hg, h]
  rw [h1] at h5 ⊢
  simp only [h2, h5]

set_option maxRecDepth 100000 in
theorem rootNodeValue_keccak256 : rootNodeValue keccak256 ≠ EmptyNodeValue := by
  decide!

/-! ### C1: order independence of Add -/

set_option maxRecDepth 100000 in
/-- Claim C1, counterexample: with two levels the leaves leafA and leafC lie at the same
position; the second Add is rejected in either order and the two trees have different
roots. -/
theorem Add_order_dependent_on_collision :
    ((build keccak256 2 [leafA, leafC]).map fun r => r.2) =
        some [none, some Error.ErrNodeAlreadyExists] ∧
      ((build keccak256 2 [leafC, leafA]).map fun r => r.2) =
        some [none, some Error.ErrNodeAlreadyExists] ∧
      ((build keccak256 2 [leafA, leafC]).map fun r => r.1.Root) ≠
        ((build keccak256 2 [leafC, leafA]).map fun r => r.1.Root) := by
  decide!

/-- Claim C1, amended: for leaves that meet the conditions of Hygiene (at most 257 levels,
index lengths within the bytes, different positions, different bytes, no leaf of 64 bytes or
equal to the string "root", no collision and no zero digest among the hashed strings), Add of
the leaves in any two orders on empty trees returns nil every time and gives the same
root. -/
theorem Add_order_independent (H : RawHash) (L : Nat) (U V : List Value)
    (hy : Hygiene H L U) (hperm : V.Perm U) :
    ∃ t1 t2, build H L U = some (t1, U.map fun _ => none) ∧
      build H L V = some (t2, V.map fun _ => none) ∧ t1.Root = t2.Root := by
  obtain ⟨t1, h1, hold1⟩ := build_spec hy
  obtain ⟨t2, h2, hold2⟩ := build_spec (Hygiene_perm hy hperm.symm)
  refine ⟨t1, t2, h1, h2, ?_⟩
  show t1.root = t2.root
  rw [hold1.root, hold2.root]
  exact canon_congr hy (L - 1) U.reverse V.reverse (fun x hx => List.mem_reverse.mp hx)
    (AgreeFrom_top hy _) (fun l => by
      rw [List.mem_reverse, List.mem_reverse]; exact hperm.mem_iff.symm)

theorem Add_order_independent_witness :
    Hygiene keccak256 2 [leafA, leafB] ∧ [leafB, leafA].Perm [leafA, leafB] ∧
      ∃ t1 t2, build keccak256 2 [leafA, leafB] = some (t1, [leafA, leafB].map fun _ => none) ∧
        build keccak256 2 [leafB, leafA] = some (t2, [leafB, leafA].map fun _ => none) ∧
        t1.Root = t2.Root :=
  ⟨Hygiene_leafA_leafB, List.Perm.swap leafA leafB [],
    Add_order_independent keccak256 2 [leafA, leafB] [leafB, leafA] Hygiene_leafA_leafB
      (List.Perm.swap leafA leafB [])⟩

/-! ### C2: proofs of membership -/

set_option maxRecDepth 100000 in
/-- Claim C2, counterexample: Add of the leaf of 32 zero bytes returns nil, and
GenerateProof for its index hash returns ErrNodeAlreadyExists and no proof. -/
theorem zero_leaf_has_no_proof :
    ((build keccak256 2 [zeroLeaf]).map fun r =>
        (r.2, r.1.GenerateProof keccak256 (zeroLeaf.Hi keccak256))) =
      some ([none], some ([], some Error.ErrNodeAlreadyExists)) := by
  decide!

/-- Claim C2, amended: for leaves that meet the conditions of Hygiene, added in order to an
empty tree, every Add returns nil and, for every leaf l of them whose bytes are not the 32
zero bytes, GenerateProof of its index hash returns a nil error and CheckProof accepts the
proof for the root, the index hash, HashBytes of the leaf bytes and the number of levels. -/
theorem member_proof_accepted (H : RawHash) (L : Nat) (U : List Value) (hy : Hygiene H L U)
    (l : Value) (hl : l ∈ U) (hz : l.Bytes ≠ EmptyNodeValue) :
    ∃ mt proof, build H L U = some (mt, U.map fun _ => none) ∧
      mt.GenerateProof H (l.Hi H) = some (proof, none) ∧
      CheckProof H mt.Root proof (l.Hi H) (HashBytes H l.Bytes) mt.NumLevels = some true := by
  obtain ⟨mt, hb, hold⟩ := build_spec hy
  have hp := getPath_path H L l hy.levels
  have hpl := path_length H L l hy.levels
  have hS : U.reverse ⊆ U := fun x hx => List.mem_reverse.mp hx
  have hb0 := below_zero_member hy hS hold.nodup (List.mem_reverse.mpr hl)
  have hzz : valueAt H L U.reverse (l.path H L) = EmptyNodeValue →
      below H L U.reverse (l.path H L) 0 = [] := by
    intro hv
    simp only [valueAt, hb0] at hv
    exact absurd hv hz
  obtain ⟨bm, hbits, hgen⟩ := GenerateProof_spec hy hold hp hpl hzz
  have hchk := CheckProof_spec hy hS hp hpl hbits
  rw [hb0, canon_zero_cons, ← hold.root] at hchk
  refine ⟨mt, _, hb, hgen, ?_⟩
  simp only [MerkleTree.Root, MerkleTree.NumLevels, hold.numLevels]
  exact hchk

theorem member_proof_accepted_witness :
    Hygiene keccak256 2 [leafA, leafB] ∧ leafA ∈ [leafA, leafB] ∧
      leafA.Bytes ≠ EmptyNodeValue ∧
      ∃ mt proof, build keccak256 2 [leafA, leafB] = some (mt, [leafA, leafB].map fun _ => none) ∧
        mt.GenerateProof keccak256 (leafA.Hi keccak256) = some (proof, none) ∧
        CheckProof keccak256 mt.Root proof (leafA.Hi keccak256) (HashBytes keccak256 leafA.Bytes)
          mt.NumLevels = some true :=
  ⟨Hygiene_leafA_leafB, by decide, by decide,
    member_proof_accepted keccak256 2 [leafA, leafB] Hygiene_leafA_leafB leafA (by decide)
      (by decide)⟩

/-! ### C3: proofs of non-membership -/

set_option maxRecDepth 100000 in
/-- Claim C3, failing input: in the tree of TestVector4 (four levels, the same bytes added
with index lengths 1 and 2, both Adds nil) the position of the index hash indexOf 6 holds no
leaf, GenerateProof returns a proof with a nil error, and CheckProof rejects it for Empty. -/
theorem absent_proof_rejected_in_vector4 :
    ((build keccak256 4 [vector4A, vector4B]).map fun r => r.2) = some [none, none] ∧
      getPath 4 (indexOf 6) ≠ getPath 4 (vector4A.Hi keccak256) ∧
      getPath 4 (indexOf 6) ≠ getPath 4 (vector4B.Hi keccak256) ∧
      ((treeOf keccak256 4 [vector4A, vector4B]).GenerateProof keccak256 (indexOf 6)).map
        (fun r => r.2) = some none ∧
      (((treeOf keccak256 4 [vector4A, vector4B]).GenerateProof keccak256 (indexOf 6)).bind
        fun r => CheckProof keccak256 (treeOf keccak256 4 [vector4A, vector4B]).Root r.1
          (indexOf 6) EmptyNodeValue 4) = some false := by
  decide!

/-- Proofs of non-membership on canonical trees: for leaves that meet the conditions of
Hygiene, added in order to an empty tree (the empty list included), and every 32-byte index
hash hi whose position is the position of none of the leaves, GenerateProof of hi returns a
nil error and CheckProof accepts the proof for the root, hi, EmptyNodeValue and the number of
levels. -/
theorem absent_proof_accepted (H : RawHash) (L : Nat) (U : List Value) (hy : Hygiene H L U)
    (hi : Hash) (hlen : hi.length = 32)
    (hfree : ∀ l ∈ U, getPath L (l.Hi H) ≠ getPath L hi) :
    ∃ mt proof, build H L U = some (mt, U.map fun _ => none) ∧
      mt.GenerateProof H hi = some (proof, none) ∧
      CheckProof H mt.Root proof hi EmptyNodeValue mt.NumLevels = some true := by
  obtain ⟨mt, hb, hold⟩ := build_spec hy
  obtain ⟨p, hp, hpl⟩ := getPath_some L hi hy.levels hlen
  have hS : U.reverse ⊆ U := fun x hx => List.mem_reverse.mp hx
  have hb0 := below_zero_free hy hS hp hfree
  obtain ⟨bm, hbits, hgen⟩ := GenerateProof_spec hy hold hp hpl (fun _ => hb0)
  have hchk := CheckProof_spec hy hS hp hpl hbits
  rw [hb0, canon_nil, ← hold.root] at hchk
  refine ⟨mt, _, hb, hgen, ?_⟩
  simp only [MerkleTree.Root, MerkleTree.NumLevels, hold.numLevels]
  exact hchk

set_option maxRecDepth 100000 in
theorem absent_proof_accepted_witness :
    Hygiene keccak256 2 [leafA] ∧ (leafB.Hi keccak256).length = 32 ∧
      (∀ l ∈ [leafA], getPath 2 (l.Hi keccak256) ≠ getPath 2 (leafB.Hi keccak256)) ∧
      ∃ mt proof, build keccak256 2 [leafA] = some (mt, [leafA].map fun _ => none) ∧
        mt.GenerateProof keccak256 (leafB.Hi keccak256) = some (proof, none) ∧
        CheckProof keccak256 mt.Root proof (leafB.Hi keccak256) EmptyNodeValue mt.NumLevels =
          some true :=
  ⟨Hygiene_leafA, HashBytes_length _ _, by decide!,
    absent_proof_accepted keccak256 2 [leafA] Hygiene_leafA (leafB.Hi keccak256)
      (HashBytes_length _ _) (by decide!)⟩

/-! ### C4: duplicate rejection -/

set_option maxRecDepth 100000 in
/-- Claim C4, evaluation of the code: in a tree of two levels that holds leafA and leafB,
Add of leafA2, whose index hash is that of leafA, returns nil and changes the root. -/
theorem duplicate_replaces_at_bottom :
    leafA2.Hi keccak256 = leafA.Hi keccak256 ∧
      ((build keccak256 2 [leafA, leafB, leafA2]).map fun r => r.2) = some [none, none, none] ∧
      ((build keccak256 2 [leafA, leafB, leafA2]).map fun r => r.1.Root) ≠
        ((build keccak256 2 [leafA, leafB]).map fun r => r.1.Root) := by
  decide!

/-! ### C5: lookup of inserted leaves -/

set_option maxRecDepth 100000 in
/-- Claim C5, failing input: in the tree of TestVector4 both Adds return nil, and
GetValueInPos for the index hash of the first leaf returns the bytes of Empty, not the bytes
of the leaf. -/
theorem lookup_loses_first_leaf_of_vector4 :
    ((build keccak256 4 [vector4A, vector4B]).map fun r =>
        (r.2, r.1.GetValueInPos keccak256 (vector4A.Hi keccak256))) =
      some ([none, none], some (EmptyNodeValue, none)) ∧ vector4A.Bytes ≠ EmptyNodeValue := by
  decide!

/-- Lookup on canonical trees: for leaves that meet the conditions of Hygiene, added in order
to an empty tree, every Add returns nil and afterwards GetValueInPos of the index hash of
every leaf l of them returns exactly the bytes of l with a nil error. -/
theorem lookup_returns_leaf (H : RawHash) (L : Nat) (U : List Value) (hy : Hygiene H L U)
    (l : Value) (hl : l ∈ U) :
    ∃ mt, build H L U = some (mt, U.map fun _ => none) ∧
      mt.GetValueInPos H (l.Hi H) = some (l.Bytes, none) := by
  obtain ⟨mt, hb, hold⟩ := build_spec hy
  have hS : U.reverse ⊆ U := fun x hx => List.mem_reverse.mp hx
  have hb0 := below_zero_member hy hS hold.nodup (List.mem_reverse.mpr hl)
  have hget := GetValueInPos_spec hy hold (getPath_path H L l hy.levels)
    (path_length H L l hy.levels)
  simp only [valueAt, hb0] at hget
  exact ⟨mt, hb, hget⟩

theorem lookup_returns_leaf_witness :
    Hygiene keccak256 2 [leafA, leafB] ∧ leafB ∈ [leafA, leafB] ∧
      ∃ mt, build keccak256 2 [leafA, leafB] = some (mt, [leafA, leafB].map fun _ => none) ∧
        mt.GetValueInPos keccak256 (leafB.Hi keccak256) = some (leafB.Bytes, none) :=
  ⟨Hygiene_leafA_leafB, by decide,
    lookup_returns_leaf keccak256 2 [leafA, leafB] Hygiene_leafA_leafB leafB (by decide)⟩

/-! ### C6: lookup of an unoccupied position -/

set_option maxRecDepth 100000 in
/-- Claim C6, counterexample: in a tree of three levels, after Add of leafD and of the
64-byte leaf nodeLeaf (both nil), the position of the index hash indexOf 3 holds no leaf and
GetValueInPos returns the error ErrNotFound. -/
theorem absent_lookup_fails_beside_node_leaf :
    ((build keccak256 3 [leafD, nodeLeaf keccak256]).map fun r =>
        (r.2, r.1.GetValueInPos keccak256 (indexOf 3))) =
      some ([none, none], some (EmptyNodeValue, some Error.ErrNotFound)) ∧
      getPath 3 (indexOf 3) ≠ getPath 3 (leafD.Hi keccak256) ∧
      getPath 3 (indexOf 3) ≠ getPath 3 ((nodeLeaf keccak256).Hi keccak256) := by
  decide!

/-- Claim C6, amended: for leaves that meet the conditions of Hygiene, added in order to an
empty tree, and every 32-byte index hash hi whose position is the position of none of the
leaves, GetValueInPos of hi returns the 32 zero bytes of EmptyNodeValue with a nil error. -/
theorem absent_lookup_empty (H : RawHash) (L : Nat) (U : List Value) (hy : Hygiene H L U)
    (hi : Hash) (hlen : hi.length = 32)
    (hfree : ∀ l ∈ U, getPath L (l.Hi H) ≠ getPath L hi) :
    ∃ mt, build H L U = some (mt, U.map fun _ => none) ∧
      mt.GetValueInPos H hi = some (List.replicate 32 0, none) := by
  obtain ⟨mt, hb, hold⟩ := build_spec hy
  obtain ⟨p, hp, hpl⟩ := getPath_some L hi hy.levels hlen
  have hS : U.reverse ⊆ U := fun x hx => List.mem_reverse.mp hx
  have hb0 := below_zero_free hy hS hp hfree
  have hget := GetValueInPos_spec hy hold hp hpl
  rw [valueAt_nil hb0] at hget
  exact ⟨mt, hb, hget⟩

set_option maxRecDepth 100000 in
theorem absent_lookup_empty_witness :
    Hygiene keccak256 2 [leafA] ∧ (leafB.Hi keccak256).length = 32 ∧
      (∀ l ∈ [leafA], getPath 2 (l.Hi keccak256) ≠ getPath 2 (leafB.Hi keccak256)) ∧
      ∃ mt, build keccak256 2 [leafA] = some (mt, [leafA].map fun _ => none) ∧
        mt.GetValueInPos keccak256 (leafB.Hi keccak256) = some (List.replicate 32 0, none) :=
  ⟨Hygiene_leafA, HashBytes_length _ _, by decide!,
    absent_lookup_empty keccak256 2 [leafA] Hygiene_leafA (leafB.Hi keccak256)
      (HashBytes_length _ _) (by decide!)⟩

/-! ### C7: content addressing -/

set_option maxRecDepth 100000 in
/-- Claim C7, counterexample: after Add of leafA to an empty tree of two levels the store
holds, under a key other than the root key, a record whose body does not hash to the key:
the Final record of the leaf, stored under the root digest. -/
theorem final_record_not_content_addressed :
    ((build keccak256 2 [leafA]).map fun r =>
        (r.2, r.1.storage.data.all (contentAddressed keccak256))) = some ([none], false) ∧
      (treeOf keccak256 2 [leafA]).storage.lookup (treeOf keccak256 2 [leafA]).Root =
        some (record finalNodeType 1 leafA.Bytes) ∧
      (treeOf keccak256 2 [leafA]).Root ≠ rootNodeValue keccak256 ∧
      HashBytes keccak256 leafA.Bytes ≠ (treeOf keccak256 2 [leafA]).Root := by
  decide!

/-- Claim C7, amended: after any sequence of Add calls on a tree made by New on an empty
store, every binding of the store is the root key, or a Normal or Value record under
HashBytes of its body, or a Final record under the digest that calcHashFromLeafAndLevel
folds, up to some level, from HashBytes of its body along the path of its index hash. -/
theorem records_well_keyed (H : RawHash) (L : Nat) (vs : List Value) (mt : MerkleTree)
    (es : List (Option Error)) (h : build H L vs = some (mt, es)) :
    ∀ kv ∈ mt.storage.data, WellKeyed H mt.NumLevels kv := by
  rw [build] at h
  split at h
  · rename_i mt0 hnew
    exact (runAdds_frame vs mt0 mt es h).2 (New_keyed L mt0 none hnew).2
  · exact absurd h (by simp)

set_option maxRecDepth 100000 in
theorem records_well_keyed_witness :
    build keccak256 2 [leafA, leafB] = some (treeOf keccak256 2 [leafA, leafB], [none, none]) ∧
      ∀ kv ∈ (treeOf keccak256 2 [leafA, leafB]).storage.data,
        WellKeyed keccak256 (treeOf keccak256 2 [leafA, leafB]).NumLevels kv :=
  ⟨by decide!, records_well_keyed keccak256 2 [leafA, leafB] _ [none, none] (by decide!)⟩

/-! ### Malformed proofs with no spare capacity -/

/-- On a proof of 33 bytes with no spare capacity CheckProof does not return false: it fails
at run time, slicing the second block past the end of the proof. -/
theorem CheckProof_fails_on_33_bytes :
    CheckProof keccak256 EmptyNodeValue (List.replicate 33 0) EmptyNodeValue EmptyNodeValue 2 =
      none := by
  decide

/-- For every root, hi, ht, numLevels and every proof with no spare capacity whose length is
not of the form 32 + 32k, CheckProof returns no boolean: it fails at run time with a slice
out of range. -/
theorem CheckProof_malformed_fails (H : RawHash) (root : Hash) (proof : List Nat) (hi ht : Hash)
    (L : Nat) (h : ∀ k, proof.length ≠ 32 + 32 * k) :
    CheckProof H root proof hi ht L = none := by
  by_cases h32 : 32 ≤ proof.length
  · have hs : sliceTo proof 32 = some (proof.take 32) := sliceTo_of_le h32
    have hp : parseSiblings proof.length (proof.drop 32) = none :=
      parseSiblings_none _ _ (by rw [List.length_drop]; omega) (by
        rw [List.length_drop]
        intro hmod
        exact h ((proof.length - 32) / 32) (by omega))
    simp only [CheckProof, hs, hp]
  · have hs : sliceTo proof 32 = none := by simp [sliceTo, h32]
    simp only [CheckProof, hs]

theorem CheckProof_malformed_fails_witness :
    (∀ k, (List.replicate 31 7).length ≠ 32 + 32 * k) ∧
      CheckProof keccak256 EmptyNodeValue (List.replicate 31 7) EmptyNodeValue EmptyNodeValue 4 =
        none :=
  ⟨fun k => by simp only [List.length_replicate]; omega,
    CheckProof_malformed_fails keccak256 EmptyNodeValue (List.replicate 31 7) EmptyNodeValue
      EmptyNodeValue 4 (fun k => by simp only [List.length_replicate]; omega)⟩

/-! ### The root record on a store that works -/

/-- The root record on a store that works: after an Add that returns nil, on a store that
accepts the write and serves the read under the key HashBytes("root"), the store holds under
that key the record with tag 4, index length 0 and body Root(), and New on that store with
the same number of levels returns a tree with the same Root(). -/
theorem root_record_persists (mt : MerkleTree) (v : Value) (mt1 : MerkleTree)
    (hadd : mt.Add keccak256 v = some (mt1, none))
    (hput : HashBytes keccak256 rootString ∉ mt.storage.badPut)
    (hget : HashBytes keccak256 rootString ∉ mt.storage.badGet) :
    mt1.storage.lookup (HashBytes keccak256 rootString) =
        some ([4] ++ Uint32ToBytes 0 ++ mt1.Root) ∧
      ∃ mt2, New keccak256 mt1.storage mt1.NumLevels = some (some mt2, none) ∧
        mt2.Root = mt1.Root := by
  obtain ⟨hs, _, hdone⟩ := Add_frame mt v mt1 none hadd
  obtain ⟨hlen, hlook⟩ := hdone rfl
  have hl := hlook hput
  refine ⟨hl, ?_⟩
  have hg : ({ storage := mt1.storage, root := EmptyNodeValue, numLevels := mt1.NumLevels } :
      MerkleTree).Get (rootNodeValue keccak256) = some (rootNodeType, 0, mt1.root, none) :=
    Get_stored _ _ _ _ _ rootNodeValue_keccak256 (by
      show rootNodeValue keccak256 ∉ mt1.storage.badGet
      rw [hs.2.2]; exact hget) (by norm_num) hl
  refine ⟨{ storage := mt1.storage, root := mt1.root, numLevels := mt1.NumLevels }, ?_, rfl⟩
  simp only [New, hg, copyHash_of_length hlen]

set_option maxRecDepth 100000 in
theorem root_record_persists_witness :
    (treeOf keccak256 2 [leafA]).Add keccak256 leafB =
        some (afterAdd keccak256 (treeOf keccak256 2 [leafA]) leafB, none) ∧
      (afterAdd keccak256 (treeOf keccak256 2 [leafA]) leafB).storage.lookup
          (HashBytes keccak256 rootString) =
        some ([4] ++ Uint32ToBytes 0 ++ (afterAdd keccak256 (treeOf keccak256 2 [leafA]) leafB).Root) ∧
      ∃ mt2, New keccak256 (afterAdd keccak256 (treeOf keccak256 2 [leafA]) leafB).storage
          (afterAdd keccak256 (treeOf keccak256 2 [leafA]) leafB).NumLevels = some (some mt2, none) ∧
        mt2.Root = (afterAdd keccak256 (treeOf keccak256 2 [leafA]) leafB).Root :=
  ⟨by decide!,
    root_record_persists (treeOf keccak256 2 [leafA]) leafB _ (by decide!) (by decide!)
      (by decide!)⟩

/-! ### C10: store failures -/

set_option maxRecDepth 100000 in
/-- Claim C10, evaluation of the code: on a store where the write of the Value record of
leafA fails, New returns a tree with the root Empty, and Add of leafA returns nil and moves
the root and the stored root record to the digest of the Final node of leafA. -/
theorem Add_ignores_failed_write :
    New keccak256 (failingDB (HashBytes keccak256 leafA.Bytes)) 2 =
        some (some (treeOn keccak256 (failingDB (HashBytes keccak256 leafA.Bytes)) 2), none) ∧
      (treeOn keccak256 (failingDB (HashBytes keccak256 leafA.Bytes)) 2).Root = EmptyNodeValue ∧
      ((treeOn keccak256 (failingDB (HashBytes keccak256 leafA.Bytes)) 2).Insert
        (HashBytes keccak256 leafA.Bytes) valueNodeType leafA.IndexLength leafA.Bytes).2 =
        some Error.ErrStore ∧
      (((treeOn keccak256 (failingDB (HashBytes keccak256 leafA.Bytes)) 2).Add keccak256
        leafA).map fun q => q.2) = some none ∧
      (((treeOn keccak256 (failingDB (HashBytes keccak256 leafA.Bytes)) 2).Add keccak256
        leafA).map fun q => decide (q.1.Root = EmptyNodeValue)) = some false ∧
      (((treeOn keccak256 (failingDB (HashBytes keccak256 leafA.Bytes)) 2).Add keccak256
        leafA).map fun q => decide (q.1.storage.lookup (rootNodeValue keccak256) =
          some (record rootNodeType 0 EmptyNodeValue))) = some false := by
  decide!

end

section

/-! ## The store adapter, New and getPath -/

theorem getPathFrom_getElem (hi : Hash) :
    ∀ (k : Nat) (p : List Bool), getPathFrom hi k = some p →
      ∀ i, i < k → p[i]? = testbitmap hi (k - 1 - i) := by
  intro k
  induction k with
  | zero => intro p _ i hi0; omega
  | succ k ih =>
    intro p hp i hik
    rw [getPathFrom] at hp
    cases hb : testbitmap hi k with
    | none => rw [hb] at hp; exact absurd hp (by simp)
    | some b =>
      rw [hb] at hp
      cases hr : getPathFrom hi k with
      | none => rw [hr] at hp; exact absurd hp (by simp)
      | some rest =>
        rw [hr] at hp
        simp only [Option.some.injEq] at hp
        rw [← hp]
        cases i with
        | zero => simpa using hb.symm
        | succ j =>
          rw [List.getElem?_cons_succ, ih rest hr j (by omega)]
          congr 1
          omega

/-! ### C14: the round trip of the store adapter -/

/-- Claim C14: for every key other than EmptyNodeValue, every tag, every index length of 32
bits and every body, on a store whose write and read under the key do not fail, Insert
returns nil, the stored value is the tag, the four little-endian bytes of the index length
and the body, and Get of the key then returns the tag, the index length, the body and nil. -/
theorem Insert_Get_round_trip (mt : MerkleTree) (key : Hash) (tag il : Nat) (body : List Nat)
    (hk : key ≠ EmptyNodeValue) (hput : key ∉ mt.storage.badPut)
    (hget : key ∉ mt.storage.badGet) (hil : il < 2 ^ 32) :
    (mt.Insert key tag il body).2 = none ∧
      (mt.Insert key tag il body).1.storage.lookup key =
        some ([tag] ++ [il % 256, il / 256 % 256, il / 65536 % 256, il / 16777216 % 256] ++
          body) ∧
      (mt.Insert key tag il body).1.Get key = some (tag, il, body, none) := by
  have hl := Insert_root_lookup mt key tag il body hput
  obtain ⟨hs, _, _⟩ := Insert_frame mt key tag il body
  refine ⟨?_, hl, ?_⟩
  · simp [MerkleTree.Insert, DB.Put, hput]
  · exact Get_stored _ key tag il body hk (by rw [hs.2.2]; exact hget) hil hl

theorem Insert_Get_round_trip_witness :
    ([7] : Hash) ≠ EmptyNodeValue ∧
      ((treeOn keccak256 emptyDB 3).Insert [7] valueNodeType 258 [1, 2, 3]).2 = none ∧
      ((treeOn keccak256 emptyDB 3).Insert [7] valueNodeType 258 [1, 2, 3]).1.storage.lookup [7] =
        some ([valueNodeType] ++
          [258 % 256, 258 / 256 % 256, 258 / 65536 % 256, 258 / 16777216 % 256] ++ [1, 2, 3]) ∧
      ((treeOn keccak256 emptyDB 3).Insert [7] valueNodeType 258 [1, 2, 3]).1.Get [7] =
        some (valueNodeType, 258, [1, 2, 3], none) :=
  ⟨by decide,
    Insert_Get_round_trip (treeOn keccak256 emptyDB 3) [7] valueNodeType 258 [1, 2, 3]
      (by decide) (by decide!) (by decide!) (by norm_num)⟩

/-! ### C15: Get of the Empty digest -/

/-- Claim C15: on every tree, whatever its store holds and whichever of its keys fail,
Get of EmptyNodeValue returns the tag 0, the index length 0, the 32 zero bytes and a nil
error. -/
theorem Get_Empty_reserved (mt : MerkleTree) :
    mt.Get EmptyNodeValue = some (0, 0, List.replicate 32 0, none) :=
  Get_empty mt

/-! ### C17: New on a fresh store -/

/-- Claim C17: on a store that holds no record under the key HashBytes("root") and accepts
a write under it, New returns, for every number of levels, a tree with the root
EmptyNodeValue and no error, and the store then holds under that key the record with tag 4,
index length 0 and body EmptyNodeValue. -/
theorem New_fresh (db : DB) (L : Nat)
    (hno : db.lookup (HashBytes keccak256 rootString) = none)
    (hput : HashBytes keccak256 rootString ∉ db.badPut) :
    ∃ mt, New keccak256 db L = some (some mt, none) ∧ mt.Root = EmptyNodeValue ∧
      mt.NumLevels = L ∧
      mt.storage.lookup (HashBytes keccak256 rootString) =
        some ([4] ++ Uint32ToBytes 0 ++ EmptyNodeValue) := by
  have hne : rootNodeValue keccak256 ≠ EmptyNodeValue := rootNodeValue_keccak256
  have hno1 : db.lookup (rootNodeValue keccak256) = none := hno
  have hput1 : rootNodeValue keccak256 ∉ db.badPut := hput
  have hget : ∃ e, ({ storage := db, root := EmptyNodeValue, numLevels := L } : MerkleTree).Get
      (rootNodeValue keccak256) = some (0, 0, EmptyNodeValue, some e) := by
    by_cases hb : rootNodeValue keccak256 ∈ db.badGet
    · exact ⟨Error.ErrStore, by simp [MerkleTree.Get, hne, DB.Get, hb]⟩
    · exact ⟨Error.ErrNotFound, by simp [MerkleTree.Get, hne, DB.Get, hb, hno1]⟩
  obtain ⟨e, he⟩ := hget
  have h2 : (({ storage := db, root := EmptyNodeValue, numLevels := L } : MerkleTree).Insert
      (rootNodeValue keccak256) rootNodeType 0 EmptyNodeValue).2 = none := by
    simp [MerkleTree.Insert, DB.Put, hput1]
  have h3 := Insert_root_lookup ({ storage := db, root := EmptyNodeValue, numLevels := L } :
    MerkleTree) (rootNodeValue keccak256) rootNodeType 0 EmptyNodeValue hput1
  obtain ⟨hs, _, _⟩ := Insert_frame ({ storage := db, root := EmptyNodeValue, numLevels := L } :
    MerkleTree) (rootNodeValue keccak256) rootNodeType 0 EmptyNodeValue
  refine ⟨{ (({ storage := db, root := EmptyNodeValue, numLevels := L } : MerkleTree).Insert
      (rootNodeValue keccak256) rootNodeType 0 EmptyNodeValue).1 with
      root := copyHash EmptyNodeValue }, by simp only [New, he, h2], ?_, hs.1, h3⟩
  exact copyHash_of_length EmptyNodeValue_length

set_option maxRecDepth 100000 in
theorem New_fresh_witness :
    emptyDB.lookup (HashBytes keccak256 rootString) = none ∧
      HashBytes keccak256 rootString ∉ emptyDB.badPut ∧
      ∃ mt, New keccak256 emptyDB 140 = some (some mt, none) ∧ mt.Root = EmptyNodeValue ∧
        mt.NumLevels = 140 ∧
        mt.storage.lookup (HashBytes keccak256 rootString) =
          some ([4] ++ Uint32ToBytes 0 ++ EmptyNodeValue) :=
  ⟨by decide!, by decide!, New_fresh emptyDB 140 (by decide!) (by decide!)⟩

/-! ### C18: the order of the path bits -/

/-- Claim C18, counterexample: with three levels and the digest 00..01, element 0 of the
path is bit 1 of the digest (false), not bit 0 (true). -/
theorem getPath_element_0_is_not_bit_0 :
    getPath 3 (indexOf 1) = some [false, true] ∧ testbitmap (indexOf 1) 0 = some true ∧
      testbitmap (indexOf 1) 1 = some false := by
  decide

/-- Claim C18, amended: for every number of levels L with 2 <= L <= 256, every digest hi of
32 bytes and every i with 0 <= i < L-1, element i of getPath(L, hi) is bit L-2-i of hi in
the numbering of the bitmap: the path starts with the highest bit. -/
theorem getPath_bit_order (L : Nat) (hi : Hash) (i : Nat) (hL2 : 2 ≤ L) (hL : L ≤ 256)
    (hlen : hi.length = 32) (hiL : i < L - 1) :
    ∃ p b, getPath L hi = some p ∧ p[i]? = some b ∧ testbitmap hi (L - 2 - i) = some b := by
  obtain ⟨p, hp, hpl⟩ := getPath_some L hi (by omega) hlen
  have he := getPathFrom_getElem hi (L - 1) p hp i hiL
  have hidx : L - 1 - 1 - i = L - 2 - i := by omega
  rw [hidx] at he
  have hsome : p[i]? = some (p.getD i false) := getElem?_path (by omega)
  exact ⟨p, p.getD i false, hp, hsome, by rw [← he, hsome]⟩

theorem getPath_bit_order_witness :
    2 ≤ 3 ∧ 3 ≤ 256 ∧ (indexOf 1).length = 32 ∧ 0 < 3 - 1 ∧
      ∃ p b, getPath 3 (indexOf 1) = some p ∧ p[0]? = some b ∧
        testbitmap (indexOf 1) (3 - 2 - 0) = some b :=
  ⟨by decide, by decide, by decide, by decide,
    getPath_bit_order 3 (indexOf 1) 0 (by decide) (by decide) (by decide) (by decide)⟩

end

section

variable {H : RawHash}

/-! ## The upward fold of replaceLeaf on any store -/

theorem Grows_refl (mt : MerkleTree) : Grows mt mt := ⟨[], rfl⟩

theorem Grows_trans {a b c : MerkleTree} (h1 : Grows a b) (h2 : Grows b c) : Grows a c := by
  obtain ⟨n1, e1⟩ := h1
  obtain ⟨n2, e2⟩ := h2
  exact ⟨n2 ++ n1, by rw [e2, e1, List.append_assoc]⟩

theorem Grows_mem {a b : MerkleTree} (h : Grows a b) {kv : List Nat × List Nat}
    (hkv : kv ∈ a.storage.data) : kv ∈ b.storage.data := by
  obtain ⟨n, e⟩ := h
  rw [e]
  exact List.mem_append_right _ hkv

theorem Insert_grows (mt : MerkleTree) (key : Hash) (tag il : Nat) (body : List Nat) :
    Grows mt (mt.Insert key tag il body).1 := by
  by_cases hk : key ∈ mt.storage.badPut
  · exact ⟨[], by simp [MerkleTree.Insert, DB.Put, hk]⟩
  · exact ⟨[(key, record tag il body)], by simp [MerkleTree.Insert, DB.Put, hk, record]⟩

theorem Insert_mem (mt : MerkleTree) (key : Hash) (tag il : Nat) (body : List Nat)
    (hk : key ∉ mt.storage.badPut) :
    (key, record tag il body) ∈ (mt.Insert key tag il body).1.storage.data := by
  simp [MerkleTree.Insert, DB.Put, hk, record]

theorem foldSiblings_drop (path : List Bool) (n : Nat) :
    ∀ (ss : List Hash) (k : Nat) (cur : Hash),
      foldSiblings H (path.drop n) k ss cur = foldSiblings H path (n + k) ss cur := by
  intro ss
  induction ss with
  | nil => intro k cur; rfl
  | cons s ss ih =>
    intro k cur
    have hg : (path.drop n).getD k false = path.getD (n + k) false := by
      rw [List.getD_eq_getElem?_getD, List.getD_eq_getElem?_getD, List.getElem?_drop]
    rw [foldSiblings, foldSiblings, hg, ih, Nat.add_assoc]

/-- The loop of replaceLeaf computes the upward fold over the recorded siblings, the last
recorded one first. -/
theorem replaceLeafLoop_fold (sibs : List Hash) (path : List Bool)
    (hlen : sibs.length ≤ path.length) :
    ∀ (k i : Nat) (mt : MerkleTree) (cur : Hash), i + k = sibs.length →
      ∃ mt1, replaceLeafLoop H sibs path k i mt cur =
          some (mt1, foldSiblings H path i (sibs.reverse.drop i) cur) ∧
        Grows mt mt1 ∧ mt1.root = mt.root ∧ SameStore mt mt1 := by
  intro k
  induction k with
  | zero =>
    intro i mt cur hik
    refine ⟨mt, ?_, Grows_refl mt, rfl, SameStore_refl mt⟩
    have hd : sibs.reverse.drop i = [] := List.drop_of_length_le (by rw [List.length_reverse]; omega)
    rw [replaceLeafLoop, hd, foldSiblings]
  | succ k ih =>
    intro i mt cur hik
    have hi : i < sibs.length := by omega
    have hir : i < sibs.reverse.length := by rw [List.length_reverse]; exact hi
    have e1 : path[i]? = some (path.getD i false) := getElem?_path (by omega)
    have e2 : sibs[sibs.length - 1 - i]? = some (sibs.reverse[i]) := by
      rw [List.getElem_reverse, List.getElem?_eq_getElem]
    have hd : sibs.reverse.drop i = sibs.reverse[i] :: sibs.reverse.drop (i + 1) :=
      List.drop_eq_getElem_cons hir
    rw [replaceLeafLoop, e1, e2, hd, foldSiblings]
    cases hb : path.getD i false
    · simp only [Bool.false_eq_true, if_false]
      obtain ⟨mt1, hr, hg, hroot, hs⟩ := ih (i + 1)
        (mt.Insert (treeNode.Ht H { ChildL := cur, ChildR := sibs.reverse[i] }) normalNodeType 0
          (treeNode.Bytes { ChildL := cur, ChildR := sibs.reverse[i] })).1
        (treeNode.Ht H { ChildL := cur, ChildR := sibs.reverse[i] }) (by omega)
      obtain ⟨f1, f2, _⟩ := Insert_frame mt
        (treeNode.Ht H { ChildL := cur, ChildR := sibs.reverse[i] }) normalNodeType 0
        (treeNode.Bytes { ChildL := cur, ChildR := sibs.reverse[i] })
      exact ⟨mt1, hr, Grows_trans (Insert_grows _ _ _ _ _) hg, hroot.trans f2,
        SameStore_trans f1 hs⟩
    · simp only [if_true]
      obtain ⟨mt1, hr, hg, hroot, hs⟩ := ih (i + 1)
        (mt.Insert (treeNode.Ht H { ChildL := sibs.reverse[i], ChildR := cur }) normalNodeType 0
          (treeNode.Bytes { ChildL := sibs.reverse[i], ChildR := cur })).1
        (treeNode.Ht H { ChildL := sibs.reverse[i], ChildR := cur }) (by omega)
      obtain ⟨f1, f2, _⟩ := Insert_frame mt
        (treeNode.Ht H { ChildL := sibs.reverse[i], ChildR := cur }) normalNodeType 0
        (treeNode.Bytes { ChildL := sibs.reverse[i], ChildR := cur })
      exact ⟨mt1, hr, Grows_trans (Insert_grows _ _ _ _ _) hg, hroot.trans f2,
        SameStore_trans f1 hs⟩

/-- The result of replaceLeaf: the upward fold from the hash of the new node, and a store
that holds the record of the new node when the write under its key does not fail. -/
theorem replaceLeaf_fold (mt : MerkleTree) (sibs : List Hash) (path : List Bool)
    (leafHash : Hash) (tag il : Nat) (body : List Nat) (hlen : sibs.length ≤ path.length) :
    ∃ mt1, mt.replaceLeaf H sibs path leafHash tag il body =
        some (mt1, foldSiblings H path 0 sibs.reverse leafHash) ∧
      Grows mt mt1 ∧ mt1.root = mt.root ∧ SameStore mt mt1 ∧
      (leafHash ∉ mt.storage.badPut → (leafHash, record tag il body) ∈ mt1.storage.data) := by
  obtain ⟨mt1, hr, hg, hroot, hs⟩ := replaceLeafLoop_fold (H := H) sibs path hlen sibs.length 0
    (mt.Insert leafHash tag il body).1 leafHash (by omega)
  obtain ⟨f1, f2, _⟩ := Insert_frame mt leafHash tag il body
  rw [List.drop_zero] at hr
  exact ⟨mt1, hr, Grows_trans (Insert_grows _ _ _ _ _) hg, hroot.trans f2, SameStore_trans f1 hs,
    fun hk => Grows_mem hg (Insert_mem mt leafHash tag il body hk)⟩

theorem calcHashLoop_some (path : List Bool) :
    ∀ (k i : Nat) (cur : Hash), i + k ≤ path.length →
      ∃ h, calcHashLoop H path k i cur = some h := by
  intro k
  induction k with
  | zero => intro i cur _; exact ⟨cur, rfl⟩
  | succ k ih =>
    intro i cur hik
    have e1 : path[i]? = some (path.getD i false) := getElem?_path (by omega)
    rw [calcHashLoop, e1]
    cases path.getD i false
    · exact ih (i + 1) _ (by omega)
    · exact ih (i + 1) _ (by omega)

theorem comparePathsFrom_bound (b1 b2 : List Bool) :
    ∀ (n d : Nat), comparePathsFrom b1 b2 n = some (d : Int) →
      d < n ∧ d < b1.length ∧ d < b2.length := by
  intro n
  induction n with
  | zero =>
    intro d h
    simp only [comparePathsFrom, Option.some.injEq] at h
    omega
  | succ n ih =>
    intro d h
    rw [comparePathsFrom] at h
    split at h
    · rename_i x y h1 h2
      have hl1 : n < b1.length := by
        by_contra hc
        rw [List.getElem?_eq_none (by omega)] at h1
        exact absurd h1 (by simp)
      have hl2 : n < b2.length := by
        by_contra hc
        rw [List.getElem?_eq_none (by omega)] at h2
        exact absurd h2 (by simp)
      split at h
      · simp only [Option.some.injEq, Nat.cast_inj] at h
        omega
      · obtain ⟨h3, h4, h5⟩ := ih d h
        exact ⟨by omega, h4, h5⟩
    · exact absurd h (by simp)

theorem getPathFrom_length (hi : Hash) :
    ∀ (k : Nat) (p : List Bool), getPathFrom hi k = some p → p.length = k := by
  intro k
  induction k with
  | zero =>
    intro p h
    simp only [getPathFrom, Option.some.injEq] at h
    rw [← h]; rfl
  | succ k ih =>
    intro p h
    rw [getPathFrom] at h
    split at h
    · exact absurd h (by simp)
    · split at h
      · exact absurd h (by simp)
      · rename_i rest hr
        simp only [Option.some.injEq] at h
        rw [← h, List.length_cons, ih rest hr]

theorem descentSiblings_addLoop (mt : MerkleTree) (v : Value) (path : List Bool) :
    ∀ (k : Nat) (nodeHash : Hash) (acc sibs : List Hash),
      descentSiblings mt path k nodeHash acc = some sibs →
      addLoop H v path k mt nodeHash acc = addLoop H v path 0 mt EmptyNodeValue sibs ∧
        sibs.length = acc.length + k ∧ k ≤ path.length := by
  intro k
  induction k with
  | zero =>
    intro nodeHash acc sibs h
    simp only [descentSiblings, Option.some.injEq] at h
    rw [← h]
    exact ⟨by rw [addLoop, addLoop], rfl, Nat.zero_le _⟩
  | succ i ih =>
    intro nodeHash acc sibs h
    rw [descentSiblings] at h
    cases hget : mt.Get nodeHash with
    | none => rw [hget] at h; exact absurd h (by simp)
    | some r =>
      obtain ⟨nodeType, il, nodeBytes, err⟩ := r
      rw [hget] at h
      cases err with
      | some e => exact absurd h (by simp)
      | none =>
        simp only [] at h
        by_cases hnf : nodeType = finalNodeType
        · rw [if_pos hnf] at h; exact absurd h (by simp)
        · rw [if_neg hnf] at h
          cases hside : path[i]? with
          | none => rw [hside] at h; exact absurd h (by simp)
          | some side =>
            rw [hside] at h
            simp only [] at h
            have hi : i < path.length := by
              by_contra hc
              rw [List.getElem?_eq_none (by omega)] at hside
              exact absurd hside (by simp)
            refine (?_ : addLoop H v path (i + 1) mt nodeHash acc = _ ∧ _)
            conv => lhs; lhs; rw [addLoop, hget]
            simp only [hside]
            rw [if_neg hnf]
            generalize (if side = true then (parseNodeBytes nodeBytes).ChildR
              else (parseNodeBytes nodeBytes).ChildL) = child at h ⊢
            generalize (if side = true then (parseNodeBytes nodeBytes).ChildL
              else (parseNodeBytes nodeBytes).ChildR) = sib at h ⊢
            by_cases hne : child = EmptyNodeValue
            · rw [if_pos hne] at h; exact absurd h (by simp)
            · rw [if_neg hne] at h
              obtain ⟨h1, h2, _⟩ := ih _ _ _ h
              rw [if_neg hne]
              exact ⟨h1, by rw [h2, List.length_append, List.length_singleton]; omega, hi⟩

end

section

/-! ### C19: the split at a Final node -/

set_option maxRecDepth 100000 in
/-- Claim C19, failing input: with four levels, after Add of the bytes of TestVector4 with
index lengths 8 and 7 (both nil) the root is a Normal node with two equal children, stored
once as a Final record with index length 7. Add of the same bytes with index length 5
reaches that Final node at descent index 1; the path of the record differs from the path of
the new leaf with highest index 2, and Add fails at run time instead of splitting. -/
theorem split_above_the_node_fails :
    ((build keccak256 4 [vector4H, vector4G]).map fun r => r.2) = some [none, none] ∧
      ((treeOf keccak256 4 [vector4H, vector4G]).Get
          (treeOf keccak256 4 [vector4H, vector4G]).Root).map (fun r => r.1) =
        some normalNodeType ∧
      ((treeOf keccak256 4 [vector4H, vector4G]).Get
          (treeOf keccak256 4 [vector4H, vector4G]).Root).map (fun r =>
            decide ((parseNodeBytes r.2.2.1).ChildL = (parseNodeBytes r.2.2.1).ChildR)) =
        some true ∧
      (((treeOf keccak256 4 [vector4H, vector4G]).Get
          (treeOf keccak256 4 [vector4H, vector4G]).Root).bind fun r =>
            (treeOf keccak256 4 [vector4H, vector4G]).Get (parseNodeBytes r.2.2.1).ChildL) =
        some (finalNodeType, 7, vector4Bytes, none) ∧
      getPath 4 (vector4E.Hi keccak256) = some [true, false, false] ∧
      getPath 4 (vector4G.Hi keccak256) = some [true, true, true] ∧
      comparePaths [true, true, true] [true, false, false] = some 2 ∧
      ((treeOf keccak256 4 [vector4H, vector4G]).Add keccak256 vector4E).isNone = true := by
  decide!

/-- The split within the descent: when the loop of Add(v) reads, at descent index i and with
all siblings above recorded, a Final node whose record (index length il, bytes nodeBytes) has
a path that differs from the path of v with highest index d, and d <= i, then on a store
whose writes do not fail Add returns nil, the two Final records have been written under the
keys calcHashFromLeafAndLevel(d, path_u, HashBytes(nodeBytes)) and
calcHashFromLeafAndLevel(d, path_v, HashBytes(v.Bytes())), and the new root is the upward
fold that starts at the hash of their Normal parent (the node of v is the right child iff
path_v[d] is true), combines with i-d Empty siblings from path index d+1 on, then with the
recorded siblings, the last recorded first, each side chosen by path_v. -/
theorem split_on_final_node (H : RawHash) (mt : MerkleTree) (v : Value) (path : List Bool)
    (i : Nat) (nodeHash : Hash) (siblings : List Hash) (il : Nat) (nodeBytes : List Nat)
    (pathChild : List Bool) (d : Nat)
    (hget : mt.Get nodeHash = some (finalNodeType, il, nodeBytes, none))
    (hil : il ≤ nodeBytes.length)
    (hpc : getPath mt.numLevels (HashBytes H (nodeBytes.take il)) = some pathChild)
    (hcmp : comparePaths pathChild path = some (d : Int))
    (hdi : d ≤ i) (hsib : siblings.length + (i + 1) = path.length)
    (hput : mt.storage.badPut = []) :
    ∃ mt1 k1 k2,
      calcHashFromLeafAndLevel H d pathChild (HashBytes H nodeBytes) = some k1 ∧
      calcHashFromLeafAndLevel H d path (HashBytes H v.Bytes) = some k2 ∧
      addLoop H v path (i + 1) mt nodeHash siblings = some (mt1, none) ∧
      (k1, [finalNodeType] ++ Uint32ToBytes il ++ nodeBytes) ∈ mt1.storage.data ∧
      (k2, [finalNodeType] ++ Uint32ToBytes v.IndexLength ++ v.Bytes) ∈ mt1.storage.data ∧
      mt1.Root = foldSiblings H path (d + 1)
        (List.replicate (i - d) EmptyNodeValue ++ siblings.reverse)
        (treeNode.Ht H (if path.getD d false then { ChildL := k1, ChildR := k2 }
          else { ChildL := k2, ChildR := k1 })) := by
  obtain ⟨_, hd1, hd2⟩ := comparePathsFrom_bound pathChild path _ d hcmp
  obtain ⟨k1, hk1⟩ := calcHashLoop_some (H := H) pathChild d 0 (HashBytes H nodeBytes) (by omega)
  obtain ⟨k2, hk2⟩ := calcHashLoop_some (H := H) path d 0 (HashBytes H v.Bytes) (by omega)
  have hside : path[d]? = some (path.getD d false) := getElem?_path hd2
  have hemp : getEmptiesBetweenIAndPosHash (i : Int) ((d : Int) + 1) =
      List.replicate (i - d) EmptyNodeValue := by
    have : ((i : Int) - ((d : Int) + 1) + 1).toNat = i - d := by omega
    rw [getEmptiesBetweenIAndPosHash, this]
  have hne : ¬ ((d : Int) = -1) := by omega
  generalize hparent : (if path.getD d false = true then
    ({ ChildL := k1, ChildR := k2 } : treeNode) else { ChildL := k2, ChildR := k1 }) = parent
  have hi1 := Insert_good mt k1 finalNodeType il nodeBytes hput
  have hm1 : (k1, record finalNodeType il nodeBytes) ∈
      (mt.Insert k1 finalNodeType il nodeBytes).1.storage.data :=
    Insert_mem mt _ _ _ _ (by rw [hput]; exact List.not_mem_nil _)
  obtain ⟨s1, r1, _⟩ := Insert_frame mt k1 finalNodeType il nodeBytes
  have hm2 : (k2, record finalNodeType v.IndexLength v.Bytes) ∈
      ((mt.Insert k1 finalNodeType il nodeBytes).1.Insert k2 finalNodeType v.IndexLength
        v.Bytes).1.storage.data :=
    Insert_mem _ _ _ _ _ (by rw [s1.2.1, hput]; exact List.not_mem_nil _)
  have hlen : (siblings ++ List.replicate (i - d) EmptyNodeValue).length ≤
      (path.drop (d + 1)).length := by
    rw [List.length_append, List.length_replicate, List.length_drop]; omega
  obtain ⟨mt3, hrl, hg3, _, _, _⟩ := replaceLeaf_fold (H := H)
    ((mt.Insert k1 finalNodeType il nodeBytes).1.Insert k2 finalNodeType v.IndexLength v.Bytes).1
    (siblings ++ List.replicate (i - d) EmptyNodeValue) (path.drop (d + 1)) (treeNode.Ht H parent)
    normalNodeType 0 parent.Bytes hlen
  rw [foldSiblings_drop, Nat.add_zero, List.reverse_append, List.reverse_replicate] at hrl
  generalize hX : foldSiblings H path (d + 1)
    (List.replicate (i - d) EmptyNodeValue ++ siblings.reverse) (treeNode.Ht H parent) = X
    at hrl
  refine ⟨((MerkleTree.mk mt3.storage X mt3.numLevels).Insert (rootNodeValue H) rootNodeType 0
    X).1, k1, k2, hk1, hk2, ?_, ?_, ?_, ?_⟩
  · rw [addLoop, hget]
    simp only [if_true, addFinal, sliceTo_of_le hil, hpc, hcmp, Int.toNat_ofNat,
      calcHashFromLeafAndLevel, hk1, hk2, hside, hemp, hparent, hrl]
    rw [if_neg hne]
  · exact Grows_mem (Insert_grows (MerkleTree.mk mt3.storage X mt3.numLevels) _ _ _ _)
      (Grows_mem hg3 (Grows_mem (Insert_grows _ _ _ _ _) hm1))
  · exact Grows_mem (Insert_grows (MerkleTree.mk mt3.storage X mt3.numLevels) _ _ _ _)
      (Grows_mem hg3 hm2)
  · rw [hparent, hX]; rfl

set_option maxRecDepth 100000 in
theorem split_on_final_node_witness :
    (treeOf keccak256 3 [leafD]).Get (treeOf keccak256 3 [leafD]).Root =
        some (finalNodeType, 1, [5], none) ∧
      getPath 3 (HashBytes keccak256 (List.take 1 [5])) = some [false, true] ∧
      comparePaths [false, true] [true, true] = some ((0 : Nat) : Int) ∧
      ∃ mt1 k1 k2,
        calcHashFromLeafAndLevel keccak256 0 [false, true] (HashBytes keccak256 [5]) = some k1 ∧
        calcHashFromLeafAndLevel keccak256 0 [true, true] (HashBytes keccak256 leafB.Bytes) =
          some k2 ∧
        addLoop keccak256 leafB [true, true] (1 + 1) (treeOf keccak256 3 [leafD])
          (treeOf keccak256 3 [leafD]).Root [] = some (mt1, none) ∧
        (k1, [finalNodeType] ++ Uint32ToBytes 1 ++ [5]) ∈ mt1.storage.data ∧
        (k2, [finalNodeType] ++ Uint32ToBytes leafB.IndexLength ++ leafB.Bytes) ∈
          mt1.storage.data ∧
        mt1.Root = foldSiblings keccak256 [true, true] (0 + 1)
          (List.replicate (1 - 0) EmptyNodeValue ++ ([] : List Hash).reverse)
          (treeNode.Ht keccak256 (if [true, true].getD 0 false then { ChildL := k1, ChildR := k2 }
            else { ChildL := k2, ChildR := k1 })) :=
  ⟨by decide!, by decide!, by decide,
    split_on_final_node keccak256 (treeOf keccak256 3 [leafD]) leafB [true, true] 1
      (treeOf keccak256 3 [leafD]).Root [] 1 [5] [false, true] 0 (by decide!) (by decide)
      (by decide!) (by decide) (by decide) (by decide) (by decide!)⟩

/-! ### C20: insertion at the deepest level -/

/-- Claim C20: when the descent of Add(v), on the store after the first write of Add,
passes all numLevels-1 levels without an error, a Final node or an Empty child, Add returns
nil, numLevels-1 siblings have been recorded, the new root is the upward fold of
HashBytes(v.Bytes()) along the whole path of v over the recorded siblings, the last
recorded first, each side chosen by the path bit, and, when the write under
HashBytes(v.Bytes()) does not fail, the store holds the leaf there as a Value record. -/
theorem bottom_level_insertion (H : RawHash) (mt : MerkleTree) (v : Value) (path : List Bool)
    (sibs : List Hash) (hil : v.IndexLength ≤ v.Bytes.length)
    (hpath : getPath mt.numLevels (HashBytes H (v.Bytes.take v.IndexLength)) = some path)
    (hdesc : descentSiblings
      (mt.Insert (HashBytes H v.Bytes) valueNodeType v.IndexLength v.Bytes).1 path
      (mt.numLevels - 1) mt.root [] = some sibs) :
    ∃ mt1, mt.Add H v = some (mt1, none) ∧ sibs.length = mt.numLevels - 1 ∧
      mt1.Root = foldSiblings H path 0 sibs.reverse (HashBytes H v.Bytes) ∧
      (HashBytes H v.Bytes ∉ mt.storage.badPut →
        (HashBytes H v.Bytes, [valueNodeType] ++ Uint32ToBytes v.IndexLength ++ v.Bytes) ∈
          mt1.storage.data) := by
  obtain ⟨hloop, hlen, _⟩ := descentSiblings_addLoop (H := H) _ v path _ _ _ _ hdesc
  have hpl : path.length = mt.numLevels - 1 := getPathFrom_length _ _ _ hpath
  have hle : sibs.length ≤ path.length := by rw [hlen, hpl]; simp
  obtain ⟨s0, _, _⟩ := Insert_frame mt (HashBytes H v.Bytes) valueNodeType v.IndexLength v.Bytes
  obtain ⟨mt2, hrl, hg2, _, _, hm2⟩ := replaceLeaf_fold (H := H)
    (mt.Insert (HashBytes H v.Bytes) valueNodeType v.IndexLength v.Bytes).1 sibs path
    (HashBytes H v.Bytes) valueNodeType v.IndexLength v.Bytes hle
  generalize foldSiblings H path 0 sibs.reverse (HashBytes H v.Bytes) = X at hrl ⊢
  refine ⟨((MerkleTree.mk mt2.storage X mt2.numLevels).Insert (rootNodeValue H) rootNodeType 0
    X).1, ?_, by rw [hlen]; simp, rfl, ?_⟩
  · rw [MerkleTree.Add]
    simp only [sliceTo_of_le hil]
    rw [show (mt.Insert (HashBytes H v.Bytes) valueNodeType v.IndexLength v.Bytes).1.numLevels =
      mt.numLevels from rfl, hpath]
    simp only []
    rw [show (mt.Insert (HashBytes H v.Bytes) valueNodeType v.IndexLength v.Bytes).1.root =
      mt.root from rfl, hloop, addLoop, hrl]
  · intro hk
    exact Grows_mem (Insert_grows (MerkleTree.mk mt2.storage X mt2.numLevels) _ _ _ _)
      (hm2 (by rw [s0.2.1]; exact hk))

set_option maxRecDepth 100000 in
theorem bottom_level_insertion_witness :
    leafA2.IndexLength ≤ leafA2.Bytes.length ∧
      getPath (treeOf keccak256 2 [leafA, leafB]).numLevels
        (HashBytes keccak256 (leafA2.Bytes.take leafA2.IndexLength)) = some [false] ∧
      descentSiblings ((treeOf keccak256 2 [leafA, leafB]).Insert (HashBytes keccak256 leafA2.Bytes)
          valueNodeType leafA2.IndexLength leafA2.Bytes).1 [false]
          ((treeOf keccak256 2 [leafA, leafB]).numLevels - 1)
          (treeOf keccak256 2 [leafA, leafB]).root [] = some [HashBytes keccak256 leafB.Bytes] ∧
      ∃ mt1, (treeOf keccak256 2 [leafA, leafB]).Add keccak256 leafA2 = some (mt1, none) ∧
        [HashBytes keccak256 leafB.Bytes].length = (treeOf keccak256 2 [leafA, leafB]).numLevels - 1 ∧
        mt1.Root = foldSiblings keccak256 [false] 0 [HashBytes keccak256 leafB.Bytes].reverse
          (HashBytes keccak256 leafA2.Bytes) ∧
        (HashBytes keccak256 leafA2.Bytes ∉ (treeOf keccak256 2 [leafA, leafB]).storage.badPut →
          (HashBytes keccak256 leafA2.Bytes,
              [valueNodeType] ++ Uint32ToBytes leafA2.IndexLength ++ leafA2.Bytes) ∈
            mt1.storage.data) :=
  ⟨by decide, by decide!, by decide!,
    bottom_level_insertion keccak256 (treeOf keccak256 2 [leafA, leafB]) leafA2 [false]
      [HashBytes keccak256 leafB.Bytes] (by decide) (by decide!) (by decide!)⟩

end

section

variable {H : RawHash} {L : Nat} {U : List Value}

/-! ### C16: the proof of a single leaf -/

set_option maxRecDepth 100000 in
/-- Claim C16, counterexample: the leaf of 32 zero bytes added alone to an empty tree of
three levels (Add returns nil): GenerateProof of its index hash returns
ErrNodeAlreadyExists and no proof. -/
theorem zero_leaf_alone_has_no_proof :
    ((build keccak256 3 [zeroLeaf]).map fun r => r.2) = some [none] ∧
      (treeOf keccak256 3 [zeroLeaf]).GenerateProof keccak256 (zeroLeaf.Hi keccak256) =
        some ([], some Error.ErrNodeAlreadyExists) := by
  decide!

theorem New_empty (H : RawHash) (L : Nat) (hroot : rootNodeValue H ≠ EmptyNodeValue) :
    New H emptyDB L = some (some
      { storage := { data := [(rootNodeValue H, record rootNodeType 0 EmptyNodeValue)],
                     badPut := [], badGet := [] },
        root := EmptyNodeValue, numLevels := L }, none) := by
  simp [New, MerkleTree.Get, hroot, DB.Get, emptyDB, DB.lookup, MerkleTree.Insert, DB.Put,
    record, copyHash_of_length EmptyNodeValue_length]

/-- Claim C16, amended: for every leaf l whose index length is a uint32 within its bytes and
whose bytes are not the 32 zero bytes, added to an empty tree of at most 257 levels, given
that with two levels or more the digest F of the node of the leaf at the root,
calcHashFromLeafAndLevel(numLevels-1, path, HashBytes(l.Bytes())), is neither the all-zero
digest nor HashBytes("root"): Add returns nil, Root() is F, and GenerateProof of the index
hash of l returns exactly 32 zero bytes with a nil error. -/
theorem single_leaf_proof (L : Nat) (l : Value) (hL : L ≤ 257)
    (hil : l.IndexLength ≤ l.Bytes.length) (h32 : l.IndexLength < 2 ^ 32)
    (hz : l.Bytes ≠ EmptyNodeValue) (F : Hash)
    (hF : calcHashFromLeafAndLevel keccak256 (L - 1) (l.path keccak256 L)
      (HashBytes keccak256 l.Bytes) = some F)
    (hFe : 2 ≤ L → F ≠ EmptyNodeValue) (hFr : 2 ≤ L → F ≠ rootNodeValue keccak256) :
    ∃ mt, build keccak256 L [l] = some (mt, [none]) ∧ mt.Root = F ∧
      mt.GenerateProof keccak256 (l.Hi keccak256) = some (List.replicate 32 0, none) := by
  have hroot := rootNodeValue_keccak256
  have hp : getPath L (HashBytes keccak256 (l.Bytes.take l.IndexLength)) =
      some (l.path keccak256 L) := getPath_path keccak256 L l hL
  have hpl := path_length keccak256 L l hL
  have hslice := sliceTo_of_le hil
  cases hk : L - 1 with
  | zero =>
    rw [hk] at hF
    simp only [calcHashFromLeafAndLevel, calcHashLoop, Option.some.injEq] at hF
    refine ⟨MerkleTree.mk (DB.mk
        [(rootNodeValue keccak256, record rootNodeType 0 (HashBytes keccak256 l.Bytes)),
        (HashBytes keccak256 l.Bytes, record valueNodeType l.IndexLength l.Bytes),
        (HashBytes keccak256 l.Bytes, record valueNodeType l.IndexLength l.Bytes),
        (rootNodeValue keccak256, record rootNodeType 0 EmptyNodeValue)] [] [])
      (HashBytes keccak256 l.Bytes) L, ?_, ?_, ?_⟩
    · simp only [build, New_empty keccak256 L hroot, runAdds, MerkleTree.Add, hslice,
        MerkleTree.Insert, DB.Put, List.not_mem_nil, if_false, hp, hk, addLoop, MerkleTree.replaceLeaf,
        List.length_nil, replaceLeafLoop, record]
    · simp only [MerkleTree.Root, hF]
    · simp only [MerkleTree.GenerateProof, Value.Hi, hp, hk, proofLoop]
      simp
  | succ k =>
    have h2 : 2 ≤ L := by omega
    have hside : (l.path keccak256 L)[k]? = some ((l.path keccak256 L).getD k false) :=
      getElem?_path (by omega)
    have hk2 : k + 2 = L := by omega
    rw [hk] at hF
    have hne : rootNodeValue keccak256 ≠ F := fun h => hFr h2 h.symm
    refine ⟨MerkleTree.mk (DB.mk [(rootNodeValue keccak256, record rootNodeType 0 F),
        (F, record finalNodeType l.IndexLength l.Bytes),
        (HashBytes keccak256 l.Bytes, record valueNodeType l.IndexLength l.Bytes),
        (rootNodeValue keccak256, record rootNodeType 0 EmptyNodeValue)] [] []) F L, ?_, rfl, ?_⟩
    · simp only [build, New_empty keccak256 L hroot, runAdds, MerkleTree.Add, hslice,
        MerkleTree.Insert, DB.Put, List.not_mem_nil, if_false, hp, hk, addLoop, Get_empty, hside,
        parseNodeBytes_empty, ite_self, finalNodeType, hk2, hF, and_self, if_true, record]
      simp
    · have hget : (MerkleTree.mk (DB.mk [(rootNodeValue keccak256, record rootNodeType 0 F),
          (F, record finalNodeType l.IndexLength l.Bytes),
          (HashBytes keccak256 l.Bytes, record valueNodeType l.IndexLength l.Bytes),
          (rootNodeValue keccak256, record rootNodeType 0 EmptyNodeValue)] [] []) F L).Get F =
          some (finalNodeType, l.IndexLength, l.Bytes, none) :=
        Get_record _ F finalNodeType l.IndexLength l.Bytes (hFe h2) rfl h32
          (by simp [DB.lookup, hne])
      simp only [MerkleTree.GenerateProof, Value.Hi, hp, hk, proofLoop, hget, if_true,
        proofFinal, MerkleTree.GetValueInPos, getValueLoop, hslice, comparePaths_self]
      simp [hz]

set_option maxRecDepth 1000000 in
/-- The digest of the node of testLeaf at the root of a tree of 140 levels is the root that
TestIden3MerkletreeSpecification expects. -/
theorem testLeaf_root_digest :
    calcHashFromLeafAndLevel keccak256 (140 - 1) (testLeaf.path keccak256 140)
      (HashBytes keccak256 testLeaf.Bytes) = some testLeafRoot := by
  decide!

set_option maxRecDepth 100000 in
theorem single_leaf_proof_witness :
    140 ≤ 257 ∧ testLeaf.IndexLength ≤ testLeaf.Bytes.length ∧ testLeaf.IndexLength < 2 ^ 32 ∧
      testLeaf.Bytes ≠ EmptyNodeValue ∧
      calcHashFromLeafAndLevel keccak256 (140 - 1) (testLeaf.path keccak256 140)
        (HashBytes keccak256 testLeaf.Bytes) = some testLeafRoot ∧
      testLeafRoot ≠ EmptyNodeValue ∧ testLeafRoot ≠ rootNodeValue keccak256 ∧
      ∃ mt, build keccak256 140 [testLeaf] = some (mt, [none]) ∧ mt.Root = testLeafRoot ∧
        mt.GenerateProof keccak256 (testLeaf.Hi keccak256) = some (List.replicate 32 0, none) :=
  ⟨by decide, by decide, by decide, by decide, testLeaf_root_digest, by decide, by decide!,
    single_leaf_proof 140 testLeaf (by decide) (by decide) (by decide) (by decide) testLeafRoot
      testLeaf_root_digest (fun _ => by decide) (fun _ => by decide!)⟩

/-! ### C13: the placement of Final nodes -/

theorem side_eq_of_other_nil {k : Nat} {s : Bool} {ls : List Value}
    (h : sideOf H L k (!s) ls = []) {x : Value} (hx : x ∈ ls) : x ∈ sideOf H L k s ls := by
  rcases mem_side_cases (H := H) (L := L) (j := k) hx with h0 | h1
  · cases s
    · exact h0
    · simp only [Bool.not_true] at h
      rw [h] at h0
      exact absurd h0 (List.not_mem_nil _)
  · cases s
    · simp only [Bool.not_false] at h
      rw [h] at h1
      exact absurd h1 (List.not_mem_nil _)
    · exact h1

theorem isFinalNode_multi (hy : Hygiene H L U) {mt : MerkleTree}
    (hg : mt.storage.badGet = [])
    (hc : ∀ kv ∈ mt.storage.data, CanonRec H L U kv.1 kv.2) {k : Nat} (hk : k + 1 ≤ L - 1)
    {ls : List Value} (hs : ls ⊆ U) (ha : AgreeFrom H L (k + 1) ls) (hm : Multi ls)
    (hp : Present H L mt.storage.data (k + 1) ls) {s : Bool}
    (h : sideOf H L k (!s) ls = []) :
    isFinalNode mt (canon H L k (sideOf H L k s ls)) = false := by
  obtain ⟨x, hx, y, hy1, hxy⟩ := hm
  have hx1 := side_eq_of_other_nil h hx
  have hy2 := side_eq_of_other_nil h hy1
  have hsU : sideOf H L k s ls ⊆ U := (sideOf_subset _ _ _).trans hs
  have hag : AgreeFrom H L k (sideOf H L k s ls) := AgreeFrom_side hy ha
  have hmu : Multi (sideOf H L k s ls) := ⟨x, hx1, y, hy2, hxy⟩
  have hpc := Present_children hp ⟨x, hx, y, hy1, hxy⟩ s
  cases k with
  | zero => exact absurd (eq_of_AgreeFrom_zero hy hsU hag hx1 hy2) hxy
  | succ k =>
    have hne : sideOf H L (k + 1) s ls ≠ [] := List.ne_nil_of_mem hx1
    obtain ⟨val, hval⟩ := lookup_isSome_of_key (Present_key hpc hne)
    have hrec := read_normal hy hc (by omega) hsU hag hmu (lookup_mem hval)
    rw [hrec] at hval
    have hget := Get_record mt _ normalNodeType 0 _
      (canon_ne_empty hy (k + 1) (by omega) hsU hne) hg (by norm_num) hval
    simp only [isFinalNode, hget, normalNodeType, finalNodeType]
    decide

/-- The placement rule holds below the node of a canonical subtree. -/
theorem placedFrom_canon (hy : Hygiene H L U) {mt : MerkleTree}
    (hg : mt.storage.badGet = [])
    (hc : ∀ kv ∈ mt.storage.data, CanonRec H L U kv.1 kv.2) :
    ∀ k, k ≤ L - 1 → ∀ ls : List Value, ls ⊆ U → ls.Nodup → AgreeFrom H L k ls →
      Present H L mt.storage.data k ls → placedFrom mt k (canon H L k ls) = true := by
  intro k
  induction k with
  | zero => intro _ ls _ _ _ _; rfl
  | succ k ih =>
    intro hk ls hs hnd ha hp
    rw [placedFrom]
    by_cases hne : ls = []
    · rw [hne, canon_nil, if_pos rfl]
    · have hcne := canon_ne_empty hy (k + 1) hk hs hne
      rw [if_neg hcne]
      obtain ⟨val, hval⟩ := lookup_isSome_of_key (Present_key hp hne)
      by_cases hm : Multi ls
      · have hrec := read_normal hy hc (by omega) hs ha hm (lookup_mem hval)
        rw [hrec] at hval
        have hget := Get_record mt _ normalNodeType 0 _ hcne hg (by norm_num) hval
        have hs0 : sideOf H L k false ls ⊆ U := (sideOf_subset _ _ _).trans hs
        have hs1 : sideOf H L k true ls ⊆ U := (sideOf_subset _ _ _).trans hs
        have h0 := ih (by omega) _ hs0 (hnd.filter _) (AgreeFrom_side hy ha)
          (Present_children hp hm false)
        have h1 := ih (by omega) _ hs1 (hnd.filter _) (AgreeFrom_side hy ha)
          (Present_children hp hm true)
        have e0 := canon_eq_empty_iff hy k (by omega) hs0
        have e1 := canon_eq_empty_iff hy k (by omega) hs1
        have hboth : ¬ (canon H L k (sideOf H L k false ls) = EmptyNodeValue ∧
            canon H L k (sideOf H L k true ls) = EmptyNodeValue) := by
          rintro ⟨a0, a1⟩
          obtain ⟨x, hx, _⟩ := hm
          rcases mem_side_cases (H := H) (L := L) (j := k) hx with hx0 | hx1
          · rw [e0.mp a0] at hx0; exact absurd hx0 (List.not_mem_nil _)
          · rw [e1.mp a1] at hx1; exact absurd hx1 (List.not_mem_nil _)
        have hf0 : isFinalNode mt (canon H L k (sideOf H L k false ls)) = true →
            canon H L k (sideOf H L k true ls) ≠ EmptyNodeValue := by
          intro hf he
          have := isFinalNode_multi hy hg hc (by omega) hs ha hm hp (s := false) (e1.mp he)
          rw [this] at hf
          exact absurd hf (by decide)
        have hf1 : isFinalNode mt (canon H L k (sideOf H L k true ls)) = true →
            canon H L k (sideOf H L k false ls) ≠ EmptyNodeValue := by
          intro hf he
          have := isFinalNode_multi hy hg hc (by omega) hs ha hm hp (s := true) (e0.mp he)
          rw [this] at hf
          exact absurd hf (by decide)
        simp only [hget, normalNodeType, finalNodeType,
          parseNodeBytes_append (canon_length _ _ _ _) (canon_length _ _ _ _), h0, h1]
        rw [if_neg (by decide : ¬ (1 = 2))]
        simp only [Bool.and_true, Bool.and_eq_true, Bool.not_eq_true', Bool.or_eq_true,
          decide_eq_true_eq, Bool.and_eq_false_imp, decide_eq_false_iff_not]
        refine ⟨⟨?_, ?_⟩, ?_⟩
        · intro a0 a1; exact hboth ⟨a0, a1⟩
        · by_cases hf : isFinalNode mt (canon H L k (sideOf H L k false ls)) = true
          · exact Or.inr (hf0 hf)
          · exact Or.inl (by simpa using hf)
        · by_cases hf : isFinalNode mt (canon H L k (sideOf H L k true ls)) = true
          · exact Or.inr (hf1 hf)
          · exact Or.inl (by simpa using hf)
      · obtain ⟨u, hu⟩ := single_of_not_multi hnd hne hm
        rw [hu] at hval hs hcne ⊢
        have huU : u ∈ U := hs (List.mem_cons_self _ _)
        have hrec := read_final hy hc huU (by omega : 1 ≤ k + 1) hk (lookup_mem hval)
        rw [hrec] at hval
        have hget := Get_record mt _ finalNodeType u.IndexLength u.Bytes hcne hg
          (hy.wf u huU).2 hval
        simp only [hget, if_true]

set_option maxRecDepth 100000 in
/-- Claim C13, counterexample: in a tree of five levels the leaves leafA, leafC and leafB
are added, then a leaf whose 64 bytes are the digests of leafA and leafC; every Add returns
nil, and the placement rule fails on the tree. -/
theorem node_shaped_leaf_breaks_placement :
    ((build keccak256 5 [leafA, leafC, leafB, pairLeaf keccak256]).map fun r => r.2) =
        some [none, none, none, none] ∧
      placed (treeOf keccak256 5 [leafA, leafC, leafB, pairLeaf keccak256]) = false := by
  decide!

/-- Claim C13, amended: for leaves that meet the conditions of Hygiene, added in order to an
empty tree, every Add returns nil and the placement rule holds on the tree: no reachable
node that is neither Empty nor Final has two Empty children, and a child that is a Final
node has a sibling that is not Empty. -/
theorem final_nodes_placed (H : RawHash) (L : Nat) (U : List Value) (hy : Hygiene H L U) :
    ∃ mt, build H L U = some (mt, U.map fun _ => none) ∧ placed mt = true := by
  obtain ⟨mt, hb, hold⟩ := build_spec hy
  refine ⟨mt, hb, ?_⟩
  rw [placed, hold.numLevels, hold.root]
  exact placedFrom_canon hy hold.goodGet hold.canonical (L - 1) (le_refl _) _ hold.sub
    hold.nodup (AgreeFrom_top hy _) hold.present

theorem final_nodes_placed_witness :
    Hygiene keccak256 2 [leafA, leafB] ∧
      ∃ mt, build keccak256 2 [leafA, leafB] = some (mt, [leafA, leafB].map fun _ => none) ∧
        placed mt = true :=
  ⟨Hygiene_leafA_leafB, final_nodes_placed keccak256 2 [leafA, leafB] Hygiene_leafA_leafB⟩

end

section

variable {H : RawHash} {L : Nat} {U : List Value}

/-! ### C11: the wire format of proofs -/

theorem sibsUpTo_length (S : List Value) (p : List Bool) :
    ∀ n, (sibsUpTo H L S p n).length =
      (List.range n).countP fun m => decide (beside H L S p m ≠ []) := by
  intro n
  induction n with
  | zero => simp [sibsUpTo]
  | succ n ih =>
    rw [sibsUpTo_succ, List.length_append, ih, List.range_succ, List.countP_append]
    by_cases hb : beside H L S p n = []
    · simp [sibOpt, hb]
    · simp [sibOpt, hb]

theorem flatten_length32 (l : List Hash) (h : ∀ s ∈ l, s.length = 32) :
    l.flatten.length = 32 * l.length := by
  induction l with
  | nil => rfl
  | cons a t ih =>
    rw [List.flatten_cons, List.length_append, h a (List.mem_cons_self _ _),
      ih (fun s hs => h s (List.mem_cons_of_mem _ hs)), List.length_cons]
    omega

theorem countP_range_beyond (q : Nat → Bool) (n : Nat) :
    ∀ N, n ≤ N → (List.range N).countP (fun c => decide (c < n) && q c) =
      (List.range n).countP q := by
  intro N hN
  induction N, hN using Nat.le_induction with
  | base =>
    apply List.countP_congr
    intro c hc
    simp [List.mem_range.mp hc]
  | succ N hN ih =>
    rw [List.range_succ, List.countP_append, ih]
    have : ¬ N < n := by omega
    simp [this]

theorem countP_range_flip (q : Nat → Bool) (n : Nat) :
    (List.range n).countP (fun c => q (n - 1 - c)) = (List.range n).countP q := by
  have h1 : (List.range n).reverse = (List.range n).map fun c => n - 1 - c := by
    rw [List.range_eq_range', List.reverse_range', ← List.range_eq_range']
    simp
  have h2 : ((List.range n).map fun c => n - 1 - c).countP q =
      (List.range n).countP (fun c => q (n - 1 - c)) := by
    rw [List.countP_map]; rfl
  rw [← h2, ← h1, List.countP_reverse]

/-- The number of bits set in the bitmap of a proof is the number of its siblings. -/
theorem popcount_BitsFor {S : List Value} {p : List Bool} {bm : List Nat} (hL : L ≤ 257)
    (hb : BitsFor H L S p bm (L - 1)) : popcount bm = (sibsUpTo H L S p (L - 1)).length := by
  rw [sibsUpTo_length, popcount, hb.1]
  have h1 : (List.range (8 * 32)).countP (fun c => bitSet bm c) =
      (List.range (8 * 32)).countP (fun c => decide (c < L - 1) &&
        decide (beside H L S p (L - 1 - 1 - c) ≠ [])) := by
    apply List.countP_congr
    intro c hc
    have hc1 := List.mem_range.mp hc
    rw [hb.2 c (by omega)]
    have : L - 2 - c = L - 1 - 1 - c := by omega
    rw [this]
  rw [h1, countP_range_beyond (fun c => decide (beside H L S p (L - 1 - 1 - c) ≠ [])) (L - 1)
    (8 * 32) (by omega)]
  exact countP_range_flip (fun m => decide (beside H L S p m ≠ [])) (L - 1)

theorem bitSet_beyond (bm : List Nat) (c : Nat) (hl : bm.length = 32) (hc : 256 ≤ c) :
    bitSet bm c = false := by
  have : ¬ c / 8 < bm.length := by omega
  simp [bitSet, testbitmap, this]

/-- The descent of GenerateProof from height k on a tree that holds S, for any position:
the bitmap and the non-Empty siblings of the path, or an error. -/
theorem proofLoop_cases (hy : Hygiene H L U) {S : List Value} {mt : MerkleTree}
    (h : Holds H L U S mt) {hi : Hash} {p : List Bool} (hp : getPath L hi = some p)
    (hpl : p.length = L - 1) :
    ∀ k, k ≤ L - 1 →
      (∀ m, k < m → m ≤ L - 1 → Multi (below H L S p m)) →
      ∀ bm acc, BitsFor H L S p bm (L - 1 - k) →
        sibsUpTo H L S p k ++ acc = sibsUpTo H L S p (L - 1) →
        (∃ bm1, proofLoop H mt hi p k (L - 1 - k) (canon H L k (below H L S p k)) bm acc =
            some ((bm1, sibsUpTo H L S p (L - 1)), none) ∧ BitsFor H L S p bm1 (L - 1)) ∨
        ∃ r e, proofLoop H mt hi p k (L - 1 - k) (canon H L k (below H L S p k)) bm acc =
            some (r, some e) := by
  intro k
  induction k with
  | zero =>
    intro _ _ bm acc hb hacc
    refine Or.inl ⟨bm, ?_, hb⟩
    rw [proofLoop, ← hacc]
    simp [sibsUpTo]
  | succ k ih =>
    intro hk hmulti bm acc hb hacc
    have hk' : k < L - 1 := by omega
    have hdesc := Present_descend hy hpl h.present (k + 1) hmulti
    have hix : mt.numLevels - (L - 1 - (k + 1)) - 2 = k := by rw [h.numLevels]; omega
    have e1 : p[k]? = some (p.getD k false) := getElem?_path (by omega)
    have hL : L ≤ 257 := hy.levels
    by_cases hB : below H L S p (k + 1) = []
    · have hbs : ∀ m, m < k + 1 → beside H L S p m = [] :=
        fun m hm => beside_nil_of_below_nil S p hm hB
      refine Or.inl ⟨bm, ?_, BitsFor_rest hb (by omega) (fun c h1 h2 => hbs _ (by omega))⟩
      rw [hB, canon_nil, proofLoop_empty mt hi p (by rw [h.numLevels]; omega)]
      rw [sibsUpTo_nil S p (k + 1) hbs] at hacc
      rw [← hacc]; rfl
    · have hbU : below H L S p (k + 1) ⊆ U := (below_subset _ _ _).trans h.sub
      have hkey := Present_key (hdesc (L - 1 - (k + 1)) (k + 1) (by omega) (le_refl _)).1 hB
      obtain ⟨val, hval⟩ := lookup_isSome_of_key hkey
      have hcne := canon_ne_empty hy (k + 1) hk hbU hB
      by_cases hM : Multi (below H L S p (k + 1))
      · have hrec := read_normal hy h.canonical (by omega) hbU (AgreeFrom_below _ _ _) hM
          (lookup_mem hval)
        rw [hrec] at hval
        have hget := Get_record mt _ normalNodeType 0 _ hcne h.goodGet (by norm_num) hval
        have hmulti' : ∀ m, k < m → m ≤ L - 1 → Multi (below H L S p m) := by
          intro m h1 h2
          by_cases hm : m = k + 1
          · rw [hm]; exact hM
          · exact hmulti m (by omega) h2
        have hlv : L - 1 - (k + 1) + 1 = L - 1 - k := by omega
        have hlk : L - 2 - (L - 1 - (k + 1)) = k := by omega
        have hsib : canon H L k (sideOf H L k (!p.getD k false) (below H L S p (k + 1))) =
            canon H L k (beside H L S p k) := rfl
        rw [proofLoop, hget]
        simp only [normalNodeType, finalNodeType,
          parseNodeBytes_append (canon_length _ _ _ _) (canon_length _ _ _ _), hix, e1,
          side_canon_pick, side_canon_other]
        rw [if_neg (by decide : ¬ (1 = 2)), ← below_step hy hpl hk', hsib, hlv]
        by_cases hbe : beside H L S p k = []
        · have hce : canon H L k (beside H L S p k) = EmptyNodeValue := by rw [hbe, canon_nil]
          rw [if_neg (not_not.mpr hce)]
          refine ih (by omega) hmulti' bm acc ?_ ?_
          · rw [← hlv]
            exact BitsFor_rest hb (by omega) (fun c h1 h2 => by
              have : c = L - 1 - (k + 1) := by omega
              rw [this, hlk]; exact hbe)
          · rw [← hacc, sibsUpTo_succ]
            simp [sibOpt, hbe]
        · have hce : canon H L k (beside H L S p k) ≠ EmptyNodeValue :=
            canon_ne_empty hy k (by omega) ((beside_subset _ _ _).trans h.sub) hbe
          obtain ⟨bm1, hset, hlen1, hbits⟩ :=
            setbitmap_spec bm (L - 1 - (k + 1)) hb.1 (by omega)
          rw [if_pos hce, hset]
          refine ih (by omega) hmulti' bm1 _ ?_ ?_
          · rw [← hlv]
            exact BitsFor_one hb (le_refl _) (by omega) hlen1 hbits (by rw [hlk]; exact hbe)
              (fun c h1 h2 h3 => absurd (by omega : c = L - 1 - (k + 1)) h3)
          · rw [← hacc, sibsUpTo_succ]
            simp [sibOpt, hbe]
      · obtain ⟨u, hu⟩ := single_of_not_multi (below_nodup h.nodup _ _) hB hM
        have huS : u ∈ S := below_subset _ _ _ (hu ▸ List.mem_cons_self u [])
        have huU := h.sub huS
        rw [hu] at hval hcne ⊢
        have hrec := read_final hy h.canonical huU (by omega : 1 ≤ k + 1) hk (lookup_mem hval)
        rw [hrec] at hval
        have hget := Get_record mt _ finalNodeType u.IndexLength u.Bytes hcne h.goodGet
          (hy.wf u huU).2 hval
        have hslice := sliceTo_of_le (hy.wf u huU).1
        have hpathu : getPath mt.numLevels (HashBytes H (u.Bytes.take u.IndexLength)) =
            some (u.path H L) := by rw [h.numLevels]; exact getPath_path H L u hy.levels
        have hul := path_length H L u hy.levels
        have hb0 : below H L S p 0 = if u.path H L = p then [u] else [] := by
          rw [below_below S p (Nat.zero_le (k + 1)), hu]
          simp [List.filter_cons]
        have hgv := GetValueInPos_spec hy h hp hpl
        have hudrop : (u.path H L).drop (k + 1) = p.drop (k + 1) :=
          (mem_below.mp (hu ▸ List.mem_cons_self u [] : u ∈ below H L S p (k + 1))).2
        rw [proofLoop, hget]
        simp only [if_true, proofFinal, hgv]
        by_cases hpu : u.path H L = p
        · by_cases hv : valueAt H L S p = EmptyNodeValue
          · refine Or.inr ⟨(bm, acc), Error.ErrNodeAlreadyExists, ?_⟩
            rw [hv, if_pos rfl]
            simp only [hslice, hpathu, hpu, comparePaths_self, if_true]
          have hbs : ∀ m, m < k + 1 → beside H L S p m = [] := by
            intro m hm
            apply List.eq_nil_of_subset_nil
            intro x hx
            have hx1 := mem_sideOf.mp hx
            have hx2 := below_mono (H := H) (L := L) S p (by omega : m + 1 ≤ k + 1) hx1.1
            rw [hu, List.mem_singleton] at hx2
            have hx3 := hx1.2
            rw [hx2, hpu] at hx3
            cases hq : p.getD m false <;> rw [hq] at hx3 <;> simp at hx3
          refine Or.inl ⟨bm, ?_, BitsFor_rest hb (by omega) (fun c h1 h2 => hbs _ (by omega))⟩
          rw [if_neg hv]
          rw [sibsUpTo_nil S p (k + 1) hbs] at hacc
          rw [← hacc]; rfl
        · have hv : valueAt H L S p = EmptyNodeValue := by simp [valueAt, hb0, hpu]
          obtain ⟨d, hd, hcmp, hdiff, hsame⟩ := comparePaths_ne (hul.trans hpl.symm) hpu
          have hdk : d ≤ k := by
            by_contra hcon
            exact hdiff (getD_eq_of_drop hudrop (by omega))
          obtain ⟨hbd, hsd, hbm, hsm⟩ := final_layout S p hu hdk hdiff hsame
            (hul.trans hpl.symm) (by omega)
          have hcalc := calcHash_canon H L u d (by omega)
          have hbit : ((mt.NumLevels : Int) - 2 - (d : Int)).toNat = L - 2 - d := by
            simp only [MerkleTree.NumLevels, h.numLevels]; omega
          obtain ⟨bm1, hset, hlen1, hbits⟩ := setbitmap_spec bm (L - 2 - d) hb.1 (by omega)
          have hbs : ∀ m, m < k + 1 → m ≠ d → beside H L S p m = [] := by
            intro m hm hmd
            by_cases hlt : m < d
            · exact beside_nil_of_below_nil S p hlt hbd
            · exact hsm m (by omega) (by omega)
          refine Or.inl ⟨bm1, ?_, BitsFor_one hb (by omega) (by omega) hlen1 hbits ?_ ?_⟩
          · rw [hv, if_pos rfl]
            simp only [hslice, hpathu, hcmp, Int.toNat_ofNat, hcalc, hbit, hset]
            rw [if_neg (by omega), if_pos (by
              simp only [MerkleTree.NumLevels, h.numLevels]; omega), if_neg (by
              simp only [MerkleTree.NumLevels, h.numLevels]; omega)]
            rw [sibsUpTo_only S p d (k + 1) hbs, if_pos (by omega)] at hacc
            rw [← hacc]
            simp [sibOpt, hsd]
          · have : L - 2 - (L - 2 - d) = d := by omega
            rw [this, hsd]; simp
          · intro c h1 h2 h3
            exact hbs _ (by omega) (by omega)


set_option maxRecDepth 100000 in
/-- Claim C11, failing input: in a tree of four levels the leaves vector4A, vector4B
(the same bytes with index lengths 1 and 2), leafD and vector4F (the same bytes again, index
length 6) are added, every Add returning nil; GenerateProof of the index hash of vector4A
returns a nil error and a proof of 128 bytes whose bitmap has 2 bits set, where the format
gives 32 + 32 * 2 = 96 bytes. -/
theorem proof_longer_than_its_bitmap :
    ((build keccak256 4 [vector4A, vector4B, leafD, vector4F]).map fun r => r.2) =
        some [none, none, none, none] ∧
      (((treeOf keccak256 4 [vector4A, vector4B, leafD, vector4F]).GenerateProof keccak256
          (vector4A.Hi keccak256)).map fun r => (r.2, r.1.length, popcount (r.1.take 32))) =
        some (none, 128, 2) := by
  decide!

/-- The wire format on canonical trees: for leaves that meet the conditions of Hygiene, added
in order to an empty tree, every Add returns nil and, for every hi for which GenerateProof returns a nil
error, the proof has length 32 + 32 * k where k is the number of bits set in its first 32
bytes, and no bit at a position from numLevels-1 on is set in them. -/
theorem proof_wire_format (H : RawHash) (L : Nat) (U : List Value) (hy : Hygiene H L U) :
    ∃ mt, build H L U = some (mt, U.map fun _ => none) ∧
      ∀ hi proof, mt.GenerateProof H hi = some (proof, none) →
        proof.length = 32 + 32 * popcount (proof.take 32) ∧
        ∀ c, mt.numLevels - 1 ≤ c → bitSet (proof.take 32) c = false := by
  obtain ⟨mt, hb, hold⟩ := build_spec hy
  refine ⟨mt, hb, fun hi proof hgen => ?_⟩
  rw [hold.numLevels]
  cases hp : getPath L hi with
  | none =>
    simp only [MerkleTree.GenerateProof, hold.numLevels, hp] at hgen
    exact absurd hgen (by simp)
  | some p =>
    have hpl : p.length = L - 1 := getPathFrom_length hi (L - 1) p hp
    have hcs := proofLoop_cases hy hold hp hpl (L - 1) (le_refl _)
      (fun m h1 h2 => absurd h2 (by omega)) (List.replicate 32 0) []
      (by rw [Nat.sub_self]; exact BitsFor_zero _ p) (by simp)
    rw [Nat.sub_self, below_top hy hpl, ← hold.root] at hcs
    rcases hcs with ⟨bm, hrun, hbits⟩ | ⟨r, e, hrun⟩
    · simp only [MerkleTree.GenerateProof, hold.numLevels, hp, hrun, Option.some.injEq,
        Prod.mk.injEq, and_true] at hgen
      have htake : proof.take 32 = bm := by
        rw [← hgen, List.take_left' hbits.1]
      rw [htake, popcount_BitsFor hy.levels hbits, ← hgen, List.length_append, hbits.1,
        flatten_length32 _ (sibsUpTo_length32 _ p (L - 1))]
      refine ⟨rfl, fun c hc => ?_⟩
      by_cases h256 : c < 256
      · rw [hbits.2 c h256]
        have : ¬ c < L - 1 := by omega
        simp [this]
      · exact bitSet_beyond bm c hbits.1 (by omega)
    · simp only [MerkleTree.GenerateProof, hold.numLevels, hp, hrun] at hgen
      exact absurd hgen (by simp)

set_option maxRecDepth 100000 in
theorem proof_wire_format_witness :
    Hygiene keccak256 2 [leafA, leafB] ∧
      ∃ mt, build keccak256 2 [leafA, leafB] = some (mt, [leafA, leafB].map fun _ => none) ∧
        ∀ hi proof, mt.GenerateProof keccak256 hi = some (proof, none) →
          proof.length = 32 + 32 * popcount (proof.take 32) ∧
          ∀ c, mt.numLevels - 1 ≤ c → bitSet (proof.take 32) c = false :=
  ⟨Hygiene_leafA_leafB, proof_wire_format keccak256 2 [leafA, leafB] Hygiene_leafA_leafB⟩

end

section

variable {H : RawHash} {L : Nat} {U : List Value}

/-! ### C12: what Add writes, and the records that stay -/

theorem record_tag {t t1 il il1 : Nat} {b b1 : List Nat}
    (h : record t il b = record t1 il1 b1) : t = t1 := by
  simp only [record, List.singleton_append, List.cons_append, List.cons.injEq] at h
  exact h.1

theorem ValueOf_other (v : Value) (k : List Nat) {t il : Nat} {b : List Nat}
    (ht : t ≠ valueNodeType) : ValueOf H v (k, record t il b) :=
  fun _ _ h => absurd (record_tag h) ht

theorem ValueOf_self (v : Value) :
    ValueOf H v (HashBytes H v.Bytes, record valueNodeType v.IndexLength v.Bytes) :=
  fun _ _ _ => rfl

theorem GrowsWith_refl (P : List Nat × List Nat → Prop) (mt : MerkleTree) : GrowsWith P mt mt :=
  ⟨[], rfl, fun _ h => absurd h (List.not_mem_nil _)⟩

theorem GrowsWith_trans {P : List Nat × List Nat → Prop} {a b c : MerkleTree}
    (h1 : GrowsWith P a b) (h2 : GrowsWith P b c) : GrowsWith P a c := by
  obtain ⟨n1, e1, p1⟩ := h1
  obtain ⟨n2, e2, p2⟩ := h2
  exact ⟨n2 ++ n1, by rw [e2, e1, List.append_assoc],
    fun kv h => (List.mem_append.mp h).elim (p2 kv) (p1 kv)⟩

theorem GrowsWith_mono {P Q : List Nat × List Nat → Prop} {a b : MerkleTree}
    (hpq : ∀ kv, P kv → Q kv) (h : GrowsWith P a b) : GrowsWith Q a b := by
  obtain ⟨n, e, p⟩ := h
  exact ⟨n, e, fun kv hkv => hpq kv (p kv hkv)⟩

theorem Insert_growsWith (P : List Nat × List Nat → Prop) (mt : MerkleTree) (key : Hash)
    (tag il : Nat) (body : List Nat) (hP : P (key, record tag il body)) :
    GrowsWith P mt (mt.Insert key tag il body).1 := by
  by_cases hk : key ∈ mt.storage.badPut
  · exact ⟨[], by simp [MerkleTree.Insert, DB.Put, hk], fun _ h => absurd h (List.not_mem_nil _)⟩
  · exact ⟨[(key, record tag il body)], by simp [MerkleTree.Insert, DB.Put, hk, record],
      fun kv h => by rw [List.mem_singleton.mp h]; exact hP⟩

theorem replaceLeafLoop_writes (v : Value) (sibs : List Hash) (path : List Bool) :
    ∀ k i mt cur m1 r, replaceLeafLoop H sibs path k i mt cur = some (m1, r) →
      GrowsWith (ValueOf H v) mt m1 := by
  intro k
  induction k with
  | zero =>
    intro i mt cur m1 r hr
    simp only [replaceLeafLoop, Option.some.injEq, Prod.mk.injEq] at hr
    rw [← hr.1]
    exact GrowsWith_refl _ _
  | succ k ih =>
    intro i mt cur m1 r hr
    rw [replaceLeafLoop] at hr
    split at hr
    · exact GrowsWith_trans (Insert_growsWith _ mt _ normalNodeType 0 _
        (ValueOf_other v _ (by decide))) (ih _ _ _ _ _ hr)
    · exact GrowsWith_trans (Insert_growsWith _ mt _ normalNodeType 0 _
        (ValueOf_other v _ (by decide))) (ih _ _ _ _ _ hr)
    · exact absurd hr (by simp)

theorem replaceLeaf_writes (v : Value) (mt : MerkleTree) (sibs : List Hash) (path : List Bool)
    (leafHash : Hash) (tag il : Nat) (body : List Nat) (m1 : MerkleTree) (r : Hash)
    (hw : ValueOf H v (leafHash, record tag il body))
    (hr : mt.replaceLeaf H sibs path leafHash tag il body = some (m1, r)) :
    GrowsWith (ValueOf H v) mt m1 := by
  rw [MerkleTree.replaceLeaf] at hr
  exact GrowsWith_trans (Insert_growsWith _ mt leafHash tag il body hw)
    (replaceLeafLoop_writes v sibs path _ _ _ _ _ _ hr)

theorem finish_writes (v : Value) (mt0 mtX : MerkleTree) (r : Hash)
    (h : GrowsWith (ValueOf H v) mt0 mtX) :
    AddWrites H v mt0
      (some ((({ mtX with root := r } : MerkleTree).Insert (rootNodeValue H) rootNodeType 0 r).1,
        none)) := by
  intro mt1 e he
  simp only [Option.some.injEq, Prod.mk.injEq] at he
  rw [← he.1]
  have hx : GrowsWith (ValueOf H v) mt0 ({ mtX with root := r } : MerkleTree) := h
  exact GrowsWith_trans hx (Insert_growsWith _ _ _ rootNodeType 0 r
    (ValueOf_other v _ (by decide)))

theorem AddWrites_error (v : Value) (mt : MerkleTree) (e : Error) :
    AddWrites H v mt (some (mt, some e)) := by
  intro mt1 e1 he
  simp only [Option.some.injEq, Prod.mk.injEq] at he
  rw [← he.1]
  exact GrowsWith_refl _ _

theorem AddWrites_none (v : Value) (mt : MerkleTree) : AddWrites H v mt none := by
  intro mt1 e he
  exact absurd he (by simp)

theorem addFinal_writes (mt : MerkleTree) (v : Value) (path : List Bool) (i : Nat)
    (siblings : List Hash) (indexLength : Nat) (nodeBytes : List Nat) :
    AddWrites H v mt (addFinal H mt v path i siblings indexLength nodeBytes) := by
  rw [addFinal]
  split
  · exact AddWrites_none v mt
  · split
    · exact AddWrites_none v mt
    · split
      · exact AddWrites_none v mt
      · rename_i posDiff _
        split
        · exact AddWrites_error v mt _
        · split
          · rename_i f1 f2 side hc1 hc2 _
            have g1 := Insert_growsWith (ValueOf H v) mt f1 finalNodeType indexLength nodeBytes
              (ValueOf_other v _ (by decide))
            have g2 := Insert_growsWith (ValueOf H v)
              (mt.Insert f1 finalNodeType indexLength nodeBytes).1 f2 finalNodeType
              v.IndexLength v.Bytes (ValueOf_other v _ (by decide))
            simp only []
            generalize (if side = true then ({ ChildL := f1, ChildR := f2 } : treeNode)
              else { ChildL := f2, ChildR := f1 }) = parentNode
            cases hrl : MerkleTree.replaceLeaf H
                ((mt.Insert f1 finalNodeType indexLength nodeBytes).1.Insert f2 finalNodeType
                  v.IndexLength v.Bytes).1
                (siblings ++ getEmptiesBetweenIAndPosHash i (posDiff + 1))
                (List.drop (posDiff.toNat + 1) path) (treeNode.Ht H parentNode) normalNodeType 0
                parentNode.Bytes with
            | none => exact AddWrites_none v mt
            | some res =>
              obtain ⟨mt3, root⟩ := res
              have g3 := replaceLeaf_writes v _ _ _ _ _ _ _ _ _
                (ValueOf_other v _ (by decide)) hrl
              exact finish_writes v mt mt3 root (GrowsWith_trans (GrowsWith_trans g1 g2) g3)
          · exact AddWrites_none v mt

theorem addLoop_writes (v : Value) (path : List Bool) :
    ∀ k mt nodeHash siblings, AddWrites H v mt (addLoop H v path k mt nodeHash siblings) := by
  intro k
  induction k with
  | zero =>
    intro mt nodeHash siblings
    rw [addLoop]
    split
    · exact AddWrites_none v mt
    · rename_i mt1 root hrl
      exact finish_writes v mt mt1 root
        (replaceLeaf_writes v _ _ _ _ _ _ _ _ _ (ValueOf_self v) hrl)
  | succ i ih =>
    intro mt nodeHash siblings
    rw [addLoop]
    split
    · exact AddWrites_none v mt
    · split
      · exact AddWrites_error v mt _
      · split
        · exact addFinal_writes mt v path i siblings _ _
        · rename_i nodeBytes _ _ _
          simp only []
          cases hside : path[i]? with
          | none => exact AddWrites_none v mt
          | some side =>
            simp only []
            generalize (if side = true then (parseNodeBytes nodeBytes).ChildR
              else (parseNodeBytes nodeBytes).ChildL) = nodeHash1
            generalize (if side = true then (parseNodeBytes nodeBytes).ChildL
              else (parseNodeBytes nodeBytes).ChildR) = sibling
            by_cases h1 : nodeHash1 = EmptyNodeValue
            · rw [if_pos h1]
              by_cases h2 : i + 2 = mt.numLevels ∧ sibling = EmptyNodeValue
              · rw [if_pos h2]
                cases hc : calcHashFromLeafAndLevel H (i + 1) path (HashBytes H v.Bytes) with
                | none => exact AddWrites_none v mt
                | some fh =>
                  exact finish_writes v mt _ fh
                    (Insert_growsWith _ mt fh finalNodeType v.IndexLength v.Bytes
                      (ValueOf_other v _ (by decide)))
              · rw [if_neg h2]
                cases hc : calcHashFromLeafAndLevel H i path (HashBytes H v.Bytes) with
                | none => exact AddWrites_none v mt
                | some fh =>
                  simp only []
                  cases hrl : MerkleTree.replaceLeaf H mt (siblings ++ [sibling]) (List.drop i path)
                      fh finalNodeType v.IndexLength v.Bytes with
                  | none => exact AddWrites_none v mt
                  | some res =>
                    obtain ⟨mt1, root⟩ := res
                    exact finish_writes v mt mt1 root
                      (replaceLeaf_writes v _ _ _ _ _ _ _ _ _
                        (ValueOf_other v _ (by decide)) hrl)
            · rw [if_neg h1]
              exact ih mt _ _

/-- Every run of Add only adds bindings, and the Value records among them are stored under
the hash of the bytes of the added leaf. -/
theorem Add_writes (mt : MerkleTree) (v : Value) : AddWrites H v mt (mt.Add H v) := by
  rw [MerkleTree.Add]
  have g1 := Insert_growsWith (ValueOf H v) mt (HashBytes H v.Bytes) valueNodeType
    v.IndexLength v.Bytes (ValueOf_self v)
  split
  · exact AddWrites_none v mt
  · split
    · exact AddWrites_none v mt
    · rename_i path _
      intro mt1 e he
      exact GrowsWith_trans g1 (addLoop_writes v path _ _ _ _ mt1 e he)

theorem runAdds_writes : ∀ (vs : List Value) (mt mt1 : MerkleTree) (es : List (Option Error)),
    runAdds H mt vs = some (mt1, es) →
      GrowsWith (fun kv => ∃ v ∈ vs, ValueOf H v kv) mt mt1 := by
  intro vs
  induction vs with
  | nil =>
    intro mt mt1 es h
    simp only [runAdds, Option.some.injEq, Prod.mk.injEq] at h
    rw [← h.1]
    exact GrowsWith_refl _ _
  | cons v vs ih =>
    intro mt mt1 es h
    rw [runAdds] at h
    split at h
    · exact absurd h (by simp)
    · rename_i m e hadd
      split at h
      · exact absurd h (by simp)
      · rename_i m2 es2 hrun
        simp only [Option.some.injEq, Prod.mk.injEq] at h
        rw [← h.1]
        exact GrowsWith_trans
          (GrowsWith_mono (fun kv hkv => ⟨v, List.mem_cons_self _ _, hkv⟩)
            (Add_writes mt v m e hadd))
          (GrowsWith_mono (fun kv hkv => by
            obtain ⟨w, hw, hkw⟩ := hkv
            exact ⟨w, List.mem_cons_of_mem _ hw, hkw⟩) (ih m m2 es2 hrun))

theorem runAdds_append : ∀ (a b : List Value) (mt m1 : MerkleTree) (e1 : List (Option Error)),
    runAdds H mt a = some (m1, e1) →
      runAdds H mt (a ++ b) = (runAdds H m1 b).map fun r => (r.1, e1 ++ r.2) := by
  intro a
  induction a with
  | nil =>
    intro b mt m1 e1 h
    simp only [runAdds, Option.some.injEq, Prod.mk.injEq] at h
    rw [← h.1, ← h.2, List.nil_append]
    cases runAdds H mt b with
    | none => rfl
    | some r => simp
  | cons v a ih =>
    intro b mt m1 e1 h
    rw [runAdds] at h
    split at h
    · exact absurd h (by simp)
    · rename_i m e hadd
      split at h
      · exact absurd h (by simp)
      · rename_i m2 es2 hrun
        simp only [Option.some.injEq, Prod.mk.injEq] at h
        rw [List.cons_append, runAdds, hadd]
        simp only []
        rw [ih b m m2 es2 hrun, ← h.1, ← h.2]
        cases runAdds H m2 b with
        | none => rfl
        | some r => simp

end

section

variable {H : RawHash} {L : Nat} {U : List Value}

theorem lookup_append {db : DB} {new old : List (List Nat × List Nat)} {key val : List Nat}
    (hd : db.data = new ++ old) (h : db.lookup key = some val) :
    (key, val) ∈ new ∨ (old.find? fun kv => kv.1 = key).map (fun kv => kv.2) = some val := by
  simp only [DB.lookup, hd, List.find?_append] at h
  cases hf : new.find? fun kv => decide (kv.1 = key) with
  | none =>
    rw [hf] at h
    exact Or.inr (by simpa using h)
  | some r =>
    rw [hf] at h
    simp only [Option.or, Option.map_some', Option.some.injEq] at h
    have hm := List.mem_of_find?_eq_some hf
    have hk := List.find?_some hf
    simp only [decide_eq_true_eq] at hk
    left
    rcases r with ⟨a, b⟩
    simp only at hk h
    rw [← hk, ← h]
    exact hm

set_option maxRecDepth 100000 in
/-- Claim C12, counterexample: in a tree of two levels, after Add of leafA the key
HashBytes of its bytes holds the Value record of leafA; after the later Add of leafB (both
Adds return nil) the same key holds a Final record. -/
theorem value_record_replaced_by_final :
    ((build keccak256 2 [leafA]).map fun r =>
        (r.2, r.1.storage.lookup (HashBytes keccak256 leafA.Bytes))) =
        some ([none], some (record valueNodeType 1 [1])) ∧
      ((build keccak256 2 [leafA, leafB]).map fun r =>
        (r.2, r.1.storage.lookup (HashBytes keccak256 leafA.Bytes))) =
        some ([none, none], some (record finalNodeType 1 [1])) := by
  decide!

/-- Claim C12, amended: for leaves that meet the conditions of Hygiene, added in order to an
empty tree, every Add returns nil and every record that is stored under a key other than the
root key after the Adds of a first part of the leaves is the record under that key after all
the Adds, except that the Value record of a leaf may have been replaced by the Final record
with the same index length and body. -/
theorem records_write_once (H : RawHash) (L : Nat) (U1 U2 : List Value)
    (hy : Hygiene H L (U1 ++ U2)) :
    ∃ mt1 mt2, build H L U1 = some (mt1, U1.map fun _ => none) ∧
      build H L (U1 ++ U2) = some (mt2, (U1 ++ U2).map fun _ => none) ∧
      ∀ key val, key ≠ rootNodeValue H → mt1.storage.lookup key = some val →
        mt2.storage.lookup key = some val ∨
        ∃ il body, key = HashBytes H body ∧ val = record valueNodeType il body ∧
          mt2.storage.lookup key = some (record finalNodeType il body) := by
  have hnd := List.nodup_append.mp hy.nodup
  have hs1 : U1 ⊆ U1 ++ U2 := List.subset_append_left _ _
  have hs2 : U2 ⊆ U1 ++ U2 := List.subset_append_right _ _
  have hy1 : Hygiene H L U1 := Hygiene_sub hy hs1 hnd.1
  obtain ⟨mt0, hnew, h0⟩ := New_spec hy
  obtain ⟨mtN, hnewN, h0N⟩ := New_spec hy1
  have hmt0 : mtN = mt0 := by
    rw [hnew] at hnewN
    simp only [Option.some.injEq, Prod.mk.injEq, and_true] at hnewN
    exact hnewN.symm
  rw [hmt0] at h0N
  obtain ⟨mt1, hrun1, hold1⟩ := runAdds_spec hy U1 [] mt0 h0 hs1 hnd.1
    (fun _ _ => List.not_mem_nil _)
  obtain ⟨mtM, hrunM, holdM⟩ := runAdds_spec hy1 U1 [] mt0 h0N (List.Subset.refl _) hnd.1
    (fun _ _ => List.not_mem_nil _)
  have hmt1 : mtM = mt1 := by
    rw [hrun1] at hrunM
    simp only [Option.some.injEq, Prod.mk.injEq, and_true] at hrunM
    exact hrunM.symm
  rw [hmt1] at holdM
  obtain ⟨mt2, hrun2, hold2⟩ := runAdds_spec hy U2 (U1.reverse ++ []) mt1 hold1 hs2 hnd.2.1
    (fun v hv hvS => by
      have hv1 : v ∈ U1 := by simpa using hvS
      exact hnd.2.2 hv1 hv)
  obtain ⟨new, hdata, hnewP⟩ := runAdds_writes U2 mt1 mt2 _ hrun2
  refine ⟨mt1, mt2, by simp only [build, hnew, hrun1], ?_, ?_⟩
  · simp only [build, hnew]
    rw [runAdds_append U1 U2 mt0 mt1 _ hrun1, hrun2]
    simp
  · intro key val hkey hval
    have hmem1 := lookup_mem hval
    have hmem12 : (key, val) ∈ mt2.storage.data := by
      rw [hdata]; exact List.mem_append_right _ hmem1
    obtain ⟨val2, hval2⟩ := lookup_isSome_of_key (List.mem_map.mpr ⟨(key, val), hmem12, rfl⟩)
    have hmem2 := lookup_mem hval2
    rcases holdM.canonical _ hmem1 with hk | ⟨l, hl, j, hj, hjL, hk, hv⟩ | ⟨l, hl, hk, hv⟩ |
      ⟨j, a, hjL, ha, hga, hmu, hk, hv⟩
    · exact absurd hk hkey
    · left
      simp only at hk hv
      rw [hk] at hmem2
      have := read_final hy hold2.canonical (hs1 hl) hj hjL hmem2
      rw [hval2, this, hv]
    · simp only at hk hv
      have hmemK := hmem2
      rw [hk] at hmemK
      rcases read_leaf hy hold2.canonical (hs1 hl) hmemK with h2 | h2
      · rcases hv with h1 | h1
        · left; rw [hval2, h2, h1]
        · right
          exact ⟨l.IndexLength, l.Bytes, hk, h1, by rw [hval2, h2]⟩
      · rcases hv with h1 | h1
        · rcases lookup_append hdata hval2 with hin | hold
          · obtain ⟨w, hw, hwv⟩ := hnewP _ hin
            have hkw : key = HashBytes H w.Bytes := hwv _ _ h2
            have hb : l.Bytes = w.Bytes :=
              hy.inj _ _ (Hashed_leaf (hs1 hl)) (Hashed_leaf (hs2 hw)) (hk.symm.trans hkw)
            have hlw : l = w := hy.bytes l (hs1 hl) w (hs2 hw) hb
            exact absurd hw (hnd.2.2 (hlw ▸ hl))
          · left
            have : mt1.storage.lookup key = some val2 := hold
            rw [hval2, ← hval, this]
        · left; rw [hval2, h2, h1]
    · left
      simp only at hk hv
      rw [hk] at hmem2
      have := read_normal hy hold2.canonical hjL (ha.trans hs1) hga hmu hmem2
      rw [hval2, this, hv]

theorem records_write_once_witness :
    Hygiene keccak256 2 ([leafA] ++ [leafB]) ∧
      ∃ mt1 mt2, build keccak256 2 [leafA] = some (mt1, [leafA].map fun _ => none) ∧
        build keccak256 2 ([leafA] ++ [leafB]) =
          some (mt2, ([leafA] ++ [leafB]).map fun _ => none) ∧
        ∀ key val, key ≠ rootNodeValue keccak256 → mt1.storage.lookup key = some val →
          mt2.storage.lookup key = some val ∨
          ∃ il body, key = HashBytes keccak256 body ∧ val = record valueNodeType il body ∧
            mt2.storage.lookup key = some (record finalNodeType il body) :=
  ⟨Hygiene_leafA_leafB, records_write_once keccak256 2 [leafA] [leafB] Hygiene_leafA_leafB⟩

end

section

/-! ### C22: comparePaths -/

/-- Claim C22: for every two bit sequences a and b of equal length comparePaths returns a
result; the result is -1 if and only if a = b, and otherwise it is the largest index at
which a and b differ: they differ there and agree at every index above it. -/
theorem comparePaths_highest_difference (a b : List Bool) (hlen : a.length = b.length) :
    ∃ r : Int, comparePaths a b = some r ∧ (r = -1 ↔ a = b) ∧
      (a ≠ b → ∃ d : Nat, r = (d : Int) ∧ d < a.length ∧ a[d]? ≠ b[d]? ∧
        ∀ j, d < j → a[j]? = b[j]?) := by
  by_cases hab : a = b
  · refine ⟨-1, ?_, ⟨fun _ => hab, fun _ => rfl⟩, fun h => absurd hab h⟩
    rw [hab]; exact comparePaths_self b
  · obtain ⟨d, hd, hc, hne, hdrop⟩ := comparePaths_ne hlen hab
    refine ⟨(d : Int), hc, ⟨fun h => by omega, fun h => absurd h hab⟩, fun _ => ⟨d, rfl, hd, ?_, ?_⟩⟩
    · rw [getElem?_path hd, getElem?_path (by omega : d < b.length)]
      intro h
      exact hne (Option.some.inj h)
    · intro j hj
      have h1 : a[j]? = (a.drop (d + 1))[j - (d + 1)]? := by
        rw [List.getElem?_drop]; congr 1; omega
      have h2 : b[j]? = (b.drop (d + 1))[j - (d + 1)]? := by
        rw [List.getElem?_drop]; congr 1; omega
      rw [h1, h2, hdrop]

theorem comparePaths_highest_difference_witness :
    [true, false, true].length = [true, true, true].length ∧
      ∃ r : Int, comparePaths [true, false, true] [true, true, true] = some r ∧
        (r = -1 ↔ [true, false, true] = [true, true, true]) ∧
        ([true, false, true] ≠ [true, true, true] → ∃ d : Nat, r = (d : Int) ∧
          d < [true, false, true].length ∧ [true, false, true][d]? ≠ [true, true, true][d]? ∧
          ∀ j, d < j → [true, false, true][j]? = [true, true, true][j]?) :=
  ⟨by decide, comparePaths_highest_difference [true, false, true] [true, true, true] (by decide)⟩

/-! ### C27: CheckProof and the bits of the index hash -/

theorem getPathFrom_congr (hi hi2 : Hash) :
    ∀ k, (∀ c, c < k → testbitmap hi c = testbitmap hi2 c) →
      getPathFrom hi k = getPathFrom hi2 k := by
  intro k
  induction k with
  | zero => intro _; rfl
  | succ k ih =>
    intro h
    rw [getPathFrom, getPathFrom, h k (by omega), ih (fun c hc => h c (by omega))]

theorem testbitmap_beyond (bm : List Nat) (c : Nat) (hl : bm.length = 32) (hc : 256 ≤ c) :
    testbitmap bm c = none := by
  have : ¬ c / 8 < bm.length := by omega
  simp [testbitmap, this]

/-- Claim C27: for every root, proof, ht and number of levels L, and all digests hi and hi2
of 32 bytes that agree on the bits 0..L-2 in the numbering of testbitmap, CheckProof gives
the same result, a run-time failure included, for hi and for hi2. -/
theorem CheckProof_depends_on_path (H : RawHash) (root : Hash) (proof : List Nat)
    (hi hi2 ht : Hash) (L : Nat) (hl : hi.length = 32) (hl2 : hi2.length = 32)
    (hbits : ∀ c, c < L - 1 → c < 256 → testbitmap hi c = testbitmap hi2 c) :
    CheckProof H root proof hi ht L = CheckProof H root proof hi2 ht L := by
  have hp : getPath L hi = getPath L hi2 := by
    apply getPathFrom_congr
    intro c hc
    by_cases h256 : c < 256
    · exact hbits c hc h256
    · rw [testbitmap_beyond hi c hl (by omega), testbitmap_beyond hi2 c hl2 (by omega)]
  simp only [CheckProof, hp]

theorem CheckProof_depends_on_path_witness :
    (indexOf 1).length = 32 ∧ (List.replicate 31 128 ++ [1]).length = 32 ∧
      (∀ c, c < 3 - 1 → c < 256 →
        testbitmap (indexOf 1) c = testbitmap (List.replicate 31 128 ++ [1]) c) ∧
      CheckProof keccak256 EmptyNodeValue (List.replicate 32 0) (indexOf 1) EmptyNodeValue 3 =
        CheckProof keccak256 EmptyNodeValue (List.replicate 32 0) (List.replicate 31 128 ++ [1])
          EmptyNodeValue 3 :=
  ⟨by decide, by decide, by decide,
    CheckProof_depends_on_path keccak256 EmptyNodeValue (List.replicate 32 0) (indexOf 1)
      (List.replicate 31 128 ++ [1]) EmptyNodeValue 3 (by decide) (by decide) (by decide)⟩

end

section

/-! ### C24: the proof of an all-Empty branch -/

theorem testbitmap_zero (c : Nat) (hc : c < 256) :
    testbitmap (List.replicate 32 0) c = some false := by
  rw [testbitmap_eq _ c (by simp) hc, bitSet_zero]

theorem checkLoop_empty (H : RawHash) (L : Nat) (siblings : List Hash) (path : List Bool)
    (hL : L ≤ 257) (hpl : path.length = L - 1) :
    ∀ level pos, level ≤ L - 1 →
      checkLoop H L (List.replicate 32 0) siblings path level EmptyNodeValue pos =
        some EmptyNodeValue := by
  intro level
  induction level with
  | zero => intro pos _; rfl
  | succ level ih =>
    intro pos hlv
    have hside : path[L - level - 2]? = some (path.getD (L - level - 2) false) :=
      getElem?_path (by omega)
    rw [checkLoop, testbitmap_zero level (by omega)]
    simp only [Bool.false_eq_true, if_false, hside, and_self, if_true]
    exact ih pos (by omega)

set_option maxRecDepth 100000 in
/-- Claim C24, counterexample: with 258 levels CheckProof of the 32 zero bytes for the root
EmptyNodeValue and the value EmptyNodeValue fails at run time (getPath reads bit 256 of the
index hash) instead of returning true. -/
theorem CheckProof_of_Empty_fails_at_258_levels :
    (CheckProof keccak256 EmptyNodeValue (List.replicate 32 0) (indexOf 1) EmptyNodeValue
      258).isNone = true := by
  decide

/-- Claim C24, amended: for every number of levels L <= 257 (so for 2 <= L <= 257), every hi
of 32 bytes and every root, CheckProof(root, 32 zero bytes, hi, EmptyNodeValue, L) returns a
result, and the result is true if and only if root = EmptyNodeValue. -/
theorem CheckProof_of_Empty (H : RawHash) (root hi : Hash) (L : Nat) (hL : L ≤ 257)
    (hl : hi.length = 32) :
    ∃ b, CheckProof H root (List.replicate 32 0) hi EmptyNodeValue L = some b ∧
      (b = true ↔ root = EmptyNodeValue) := by
  obtain ⟨p, hp, hpl⟩ := getPath_some L hi hL hl
  refine ⟨decide (EmptyNodeValue = root), ?_, ?_⟩
  · have hs : sliceTo (List.replicate 32 0) 32 = some (List.replicate 32 0) := by
      simp [sliceTo]
    have hd : (List.replicate 32 0).drop 32 = ([] : List Nat) := by simp
    simp only [CheckProof, hs, hd, List.length_replicate, parseSiblings, if_true, hp,
      checkLoop_empty H L [] p hL hpl (L - 1) 0 (le_refl _)]
  · simp only [decide_eq_true_eq]
    exact eq_comm

theorem CheckProof_of_Empty_witness :
    140 ≤ 257 ∧ (indexOf 1).length = 32 ∧
      ∃ b, CheckProof keccak256 EmptyNodeValue (List.replicate 32 0) (indexOf 1) EmptyNodeValue
          140 = some b ∧ (b = true ↔ EmptyNodeValue = EmptyNodeValue) :=
  ⟨by decide, by decide,
    CheckProof_of_Empty keccak256 EmptyNodeValue (indexOf 1) 140 (by decide) (by decide)⟩

/-! ### C23: the bitmap -/

theorem testBit_mask (x k : Nat) : x.testBit k = decide (x &&& 1 <<< k > 0) := by
  rw [Nat.one_shiftLeft, Nat.and_two_pow]
  cases h : x.testBit k
  · simp
  · simp [Nat.two_pow_pos]

/-- Claim C23: for every bitmap of 32 bytes and all bit numbers b, c < 256, setbitmap(bitmap,
b) changes byte 31 - b/8 only, to its old value or 1 << (b mod 8); afterwards
testbitmap(bitmap, b) is true and, for c != b, testbitmap(bitmap, c) has the value it had
before; testbitmap(bitmap, c) tells whether byte 31 - c/8 and the mask 1 << (c mod 8) have a
common bit. -/
theorem bitmap_set_test (bm : List Nat) (b : Nat) (hl : bm.length = 32)
    (hbytes : ∀ x ∈ bm, x < 256) (hb : b < 256) :
    ∃ bm1, setbitmap bm b = some bm1 ∧
      bm1 = bm.set (31 - b / 8) (bm.getD (31 - b / 8) 0 ||| 1 <<< (b % 8)) ∧
      testbitmap bm1 b = some true ∧
      (∀ c, c < 256 → c ≠ b → testbitmap bm1 c = testbitmap bm c) ∧
      ∀ c, c < 256 →
        testbitmap bm c = some (decide (bm.getD (31 - c / 8) 0 &&& 1 <<< (c % 8) > 0)) := by
  obtain ⟨bm1, hset, hlen1, hbits⟩ := setbitmap_spec bm b hl hb
  refine ⟨bm1, hset, ?_, ?_, ?_, ?_⟩
  · have hb8 : b / 8 < bm.length := by omega
    have hidx : bm.length - b / 8 - 1 = 31 - b / 8 := by omega
    simp only [setbitmap, hb8, if_true, Option.some.injEq, hidx] at hset
    rw [← hset]
    congr 1
    apply Nat.mod_eq_of_lt
    have hx : bm.getD (31 - b / 8) 0 < 2 ^ 8 := by
      have h31 : 31 - b / 8 < bm.length := by omega
      rw [List.getD_eq_getElem _ _ h31]
      exact hbytes _ (List.getElem_mem h31)
    have hm : 1 <<< (b % 8) < 2 ^ 8 := by
      rw [Nat.one_shiftLeft]
      exact Nat.pow_lt_pow_right (by norm_num) (Nat.mod_lt _ (by norm_num))
    exact Nat.or_lt_two_pow hx hm
  · rw [testbitmap_eq bm1 b hlen1 hb, hbits b hb]
    simp
  · intro c hc hcb
    rw [testbitmap_eq bm1 c hlen1 hc, testbitmap_eq bm c hl hc, hbits c hc]
    simp [hcb]
  · intro c hc
    have hc8 : c / 8 < bm.length := by omega
    have hidx : bm.length - c / 8 - 1 = 31 - c / 8 := by omega
    simp only [testbitmap, hc8, if_true, hidx, testBit_mask]

theorem bitmap_set_test_witness :
    (List.replicate 32 0).length = 32 ∧ (∀ x ∈ List.replicate 32 0, x < 256) ∧ 10 < 256 ∧
      ∃ bm1, setbitmap (List.replicate 32 0) 10 = some bm1 ∧
        bm1 = (List.replicate 32 0).set (31 - 10 / 8)
          ((List.replicate 32 0).getD (31 - 10 / 8) 0 ||| 1 <<< (10 % 8)) ∧
        testbitmap bm1 10 = some true ∧
        (∀ c, c < 256 → c ≠ 10 → testbitmap bm1 c = testbitmap (List.replicate 32 0) c) ∧
        ∀ c, c < 256 →
          testbitmap (List.replicate 32 0) c =
            some (decide ((List.replicate 32 0).getD (31 - c / 8) 0 &&& 1 <<< (c % 8) > 0)) :=
  ⟨by decide, by decide, by decide,
    bitmap_set_test (List.replicate 32 0) 10 (by decide) (by decide) (by decide)⟩

end

section

/-! ### C21: the root of a single leaf -/

theorem calcHashLoop_fold (H : RawHash) (path : List Bool) :
    ∀ k i cur, i + k ≤ path.length →
      calcHashLoop H path k i cur =
        some (foldSiblings H path i (List.replicate k EmptyNodeValue) cur) := by
  intro k
  induction k with
  | zero => intro i cur _; rfl
  | succ k ih =>
    intro i cur hik
    have hside : path[i]? = some (path.getD i false) := getElem?_path (by omega)
    rw [calcHashLoop, hside, List.replicate_succ, foldSiblings]
    cases hb : path.getD i false
    · simp only [Bool.false_eq_true, if_false]
      exact ih (i + 1) _ (by omega)
    · simp only [if_true]
      exact ih (i + 1) _ (by omega)

set_option maxRecDepth 100000 in
/-- Claim C21, counterexample: on the empty tree of 258 levels Add of the leaf leafA fails at
run time (getPath reads bit 256 of the index hash) instead of returning nil. -/
theorem Add_fails_at_258_levels :
    (treeOn keccak256 emptyDB 258).root = EmptyNodeValue ∧
      (treeOn keccak256 emptyDB 258).numLevels = 258 ∧
      leafA.IndexLength ≤ leafA.Bytes.length ∧
      ((treeOn keccak256 emptyDB 258).Add keccak256 leafA).isNone = true := by
  decide!

/-- Claim C21, amended: for every leaf v with IndexLength() <= len(Bytes()) and every number
of levels L with 2 <= L <= 257, Add(v) on a tree whose root is Empty returns nil and sets
Root() to calcHashFromLeafAndLevel(L-1, getPath(L, hi), HashBytes(v.Bytes())), which is the
leaf hash folded through L-1 levels with Empty siblings; the leaf is stored under that digest
as a Final record when the write under it does not fail. -/
theorem single_leaf_root (H : RawHash) (mt : MerkleTree) (v : Value)
    (hroot : mt.root = EmptyNodeValue) (hL2 : 2 ≤ mt.numLevels) (hL : mt.numLevels ≤ 257)
    (hil : v.IndexLength ≤ v.Bytes.length) :
    ∃ path F mt1, getPath mt.numLevels (v.Hi H) = some path ∧
      calcHashFromLeafAndLevel H (mt.numLevels - 1) path (HashBytes H v.Bytes) = some F ∧
      F = foldSiblings H path 0 (List.replicate (mt.numLevels - 1) EmptyNodeValue)
        (HashBytes H v.Bytes) ∧
      mt.Add H v = some (mt1, none) ∧ mt1.Root = F ∧
      (F ∉ mt.storage.badPut →
        (F, [finalNodeType] ++ Uint32ToBytes v.IndexLength ++ v.Bytes) ∈ mt1.storage.data) := by
  have hp : getPath mt.numLevels (HashBytes H (v.Bytes.take v.IndexLength)) =
      some (v.path H mt.numLevels) := getPath_path H _ v hL
  have hpl := path_length H mt.numLevels v hL
  have hslice := sliceTo_of_le hil
  obtain ⟨k, hk⟩ : ∃ k, mt.numLevels - 1 = k + 1 := ⟨mt.numLevels - 2, by omega⟩
  have hF := calcHashLoop_fold H (v.path H mt.numLevels) (mt.numLevels - 1) 0
    (HashBytes H v.Bytes) (by omega)
  generalize hX : foldSiblings H (v.path H mt.numLevels) 0
    (List.replicate (mt.numLevels - 1) EmptyNodeValue) (HashBytes H v.Bytes) = F at hF
  have hside : (v.path H mt.numLevels)[k]? = some ((v.path H mt.numLevels).getD k false) :=
    getElem?_path (by omega)
  have hk2 : k + 2 = mt.numLevels := by omega
  obtain ⟨s0, r0, _⟩ := Insert_frame mt (HashBytes H v.Bytes) valueNodeType v.IndexLength v.Bytes
  have hF1 : calcHashFromLeafAndLevel H (k + 1) (v.path H mt.numLevels) (HashBytes H v.Bytes) =
      some F := by rw [← hk]; exact hF
  refine ⟨v.path H mt.numLevels, F,
    ((MerkleTree.mk
      ((mt.Insert (HashBytes H v.Bytes) valueNodeType v.IndexLength v.Bytes).1.Insert F
        finalNodeType v.IndexLength v.Bytes).1.storage F
      ((mt.Insert (HashBytes H v.Bytes) valueNodeType v.IndexLength v.Bytes).1.Insert F
        finalNodeType v.IndexLength v.Bytes).1.numLevels).Insert (rootNodeValue H) rootNodeType 0
      F).1, hp, hF, hX.symm, ?_, rfl, ?_⟩
  · rw [MerkleTree.Add]
    simp only [hslice]
    rw [s0.1, hp]
    simp only []
    rw [r0, hroot, hk, addLoop, Get_empty]
    simp only [finalNodeType, parseNodeBytes_empty, hside, ite_self, s0.1, hk2, and_self,
      if_true, hF1]
    rw [if_neg (by decide : ¬ (0 = 2))]
  · intro hput
    exact Grows_mem (Insert_grows (MerkleTree.mk _ F _) _ _ _ _)
      (Insert_mem _ _ _ _ _ (by rw [s0.2.1]; exact hput))

theorem single_leaf_root_witness :
    (treeOn keccak256 emptyDB 140).root = EmptyNodeValue ∧
      2 ≤ (treeOn keccak256 emptyDB 140).numLevels ∧
      (treeOn keccak256 emptyDB 140).numLevels ≤ 257 ∧
      testLeaf.IndexLength ≤ testLeaf.Bytes.length ∧
      ∃ path F mt1, getPath (treeOn keccak256 emptyDB 140).numLevels (testLeaf.Hi keccak256) =
          some path ∧
        calcHashFromLeafAndLevel keccak256 ((treeOn keccak256 emptyDB 140).numLevels - 1) path
          (HashBytes keccak256 testLeaf.Bytes) = some F ∧
        F = foldSiblings keccak256 path 0
          (List.replicate ((treeOn keccak256 emptyDB 140).numLevels - 1) EmptyNodeValue)
          (HashBytes keccak256 testLeaf.Bytes) ∧
        (treeOn keccak256 emptyDB 140).Add keccak256 testLeaf = some (mt1, none) ∧
        mt1.Root = F ∧
        (F ∉ (treeOn keccak256 emptyDB 140).storage.badPut →
          (F, [finalNodeType] ++ Uint32ToBytes testLeaf.IndexLength ++ testLeaf.Bytes) ∈
            mt1.storage.data) :=
  ⟨by decide!, by decide!, by decide!, by decide,
    single_leaf_root keccak256 (treeOn keccak256 emptyDB 140) testLeaf (by decide!) (by decide!)
      (by decide!) (by decide)⟩

end

section

/-! ### C26: surplus data in a proof -/

theorem setBelow_succ (e : List Nat) (n : Nat) :
    setBelow e (n + 1) = setBelow e n + if bitSet e n then 1 else 0 := by
  rw [setBelow, List.range_succ, List.countP_append]
  simp [setBelow, List.countP_cons]

/-- A run of the loop of CheckProof that returns a digest returns the same digest on every
bitmap with the same bits below the level and every sibling list with the same entries at
the positions that the run reads. -/
theorem checkLoop_agree (H : RawHash) (L : Nat) (e e2 : List Nat) (s s2 : List Hash)
    (path : List Bool) :
    ∀ level nodeHash pos nh, checkLoop H L e s path level nodeHash pos = some nh →
      (∀ c, c < level → testbitmap e2 c = testbitmap e c) →
      (∀ j x, pos ≤ j → j < pos + setBelow e level → s[j]? = some x → s2[j]? = some x) →
      checkLoop H L e2 s2 path level nodeHash pos = some nh := by
  intro level
  induction level with
  | zero => intro nodeHash pos nh h _ _; exact h
  | succ level ih =>
    intro nodeHash pos nh h hbits hsib
    rw [checkLoop] at h
    rw [checkLoop, hbits level (by omega)]
    cases hb : testbitmap e level with
    | none => rw [hb] at h; exact absurd h (by simp)
    | some bit =>
      rw [hb] at h
      have hbs : bitSet e level = bit := by simp [bitSet, hb]
      have hsb := setBelow_succ e level
      rw [hbs] at hsb
      cases bit with
      | false =>
        simp only [Bool.false_eq_true, if_false] at h hsb ⊢
        cases hside : path[L - level - 2]? with
        | none => rw [hside] at h; exact absurd h (by simp)
        | some side =>
          rw [hside] at h
          simp only [] at h ⊢
          exact ih _ _ _ h (fun c hc => hbits c (by omega))
            (fun j x h1 h2 h3 => hsib j x h1 (by omega) h3)
      | true =>
        simp only [if_true] at h hsb ⊢
        cases hx : s[pos]? with
        | none => rw [hx] at h; exact absurd h (by simp)
        | some x =>
          rw [hx] at h
          rw [hsib pos x (le_refl _) (by omega) hx]
          cases hside : path[L - level - 2]? with
          | none => rw [hside] at h; exact absurd h (by simp)
          | some side =>
            rw [hside] at h
            simp only [] at h ⊢
            exact ih _ _ _ h (fun c hc => hbits c (by omega))
              (fun j y h1 h2 h3 => hsib j y (by omega) (by omega) h3)

theorem parseSiblings_append (block : List Nat) (hb : block.length = 32) :
    ∀ k rest s, rest.length ≤ 32 * k → parseSiblings k rest = some s →
      ∀ k2, (rest ++ block).length ≤ 32 * k2 →
        parseSiblings k2 (rest ++ block) = some (s ++ [block]) := by
  have hbase : ∀ k2, block.length ≤ 32 * k2 → parseSiblings k2 block = some [block] := by
    intro k2 hk2
    cases k2 with
    | zero => omega
    | succ k2 =>
      have hne : block ≠ [] := by intro h0; rw [h0] at hb; simp at hb
      have hd : block.drop 32 = [] := List.drop_of_length_le (by omega)
      have ht : block.take 32 = block := List.take_of_length_le (by omega)
      rw [parseSiblings, if_neg hne, if_neg (by omega), hd, ht]
      cases k2 <;> simp [parseSiblings]
  intro k
  induction k with
  | zero =>
    intro rest s hl hs k2 hk2
    have hr : rest = [] := List.length_eq_zero.mp (by omega)
    subst hr
    simp only [parseSiblings, Option.some.injEq] at hs
    rw [← hs]
    exact hbase k2 (by simpa using hk2)
  | succ k ih =>
    intro rest s hl hs k2 hk2
    by_cases hr : rest = []
    · subst hr
      simp only [parseSiblings, if_true, Option.some.injEq] at hs
      rw [← hs]
      exact hbase k2 (by simpa using hk2)
    · rw [parseSiblings, if_neg hr] at hs
      by_cases h32 : rest.length < 32
      · rw [if_pos h32] at hs; exact absurd hs (by simp)
      · rw [if_neg h32] at hs
        cases htl : parseSiblings k (rest.drop 32) with
        | none => rw [htl] at hs; exact absurd hs (by simp)
        | some tl =>
          rw [htl] at hs
          simp only [Option.some.injEq] at hs
          rw [List.length_append] at hk2
          cases k2 with
          | zero => omega
          | succ k2 =>
            have hne : rest ++ block ≠ [] := by simp [hr]
            have hd : (rest ++ block).drop 32 = rest.drop 32 ++ block :=
              List.drop_append_of_le_length (by omega)
            have ht : (rest ++ block).take 32 = rest.take 32 :=
              List.take_append_of_le_length (by omega)
            rw [parseSiblings, if_neg hne, if_neg (by rw [List.length_append]; omega), hd, ht,
              ih (rest.drop 32) tl (by rw [List.length_drop]; omega) htl k2
                (by rw [List.length_append, List.length_drop]; omega), ← hs]
            rfl

theorem testbitmap_flip (e : List Nat) (c d : Nat) (hl : e.length = 32) (hc : c < 256)
    (hcd : d ≠ c) :
    testbitmap (e.set (31 - c / 8) (e.getD (31 - c / 8) 0 ^^^ 1 <<< (c % 8))) d =
      testbitmap e d := by
  simp only [testbitmap, List.length_set, hl]
  by_cases hd : d / 8 < 32
  · rw [if_pos hd, if_pos hd]
    congr 1
    by_cases hb : d / 8 = c / 8
    · have hidx : 32 - d / 8 - 1 = 31 - c / 8 := by omega
      have hlt : 31 - c / 8 < e.length := by omega
      rw [hidx, List.getD_eq_getElem?_getD, List.getElem?_set_self hlt]
      simp only [Option.getD_some]
      rw [Nat.testBit_xor, Nat.one_shiftLeft, Nat.testBit_two_pow]
      have : ¬ (c % 8 = d % 8) := by omega
      simp [this, List.getD_eq_getElem?_getD]
    · have hne : 31 - c / 8 ≠ 32 - d / 8 - 1 := by omega
      rw [List.getD_eq_getElem?_getD, List.getElem?_set_ne hne, ← List.getD_eq_getElem?_getD]
  · rw [if_neg hd, if_neg hd]

set_option maxRecDepth 100000 in
/-- Claim C26, failing input: in the tree of two levels with the leaves leafA and leafB the
proof of leafA, the bitmap with bit 0 set and the digest of leafB, in a slice with no spare
capacity, is accepted; with one further byte, which changes no bitmap bit and no sibling
block, in a slice with no spare capacity, CheckProof fails at run time; the same 65 bytes in
a slice of capacity 96 are accepted. -/
theorem CheckProof_fails_on_surplus_byte :
    CheckProofCap keccak256 (treeOf keccak256 2 [leafA, leafB]).Root
        (indexOf 1 ++ HashBytes keccak256 leafB.Bytes) [] (leafA.Hi keccak256)
        (HashBytes keccak256 leafA.Bytes) 2 = some true ∧
      (indexOf 1 ++ HashBytes keccak256 leafB.Bytes ++ [0]).length = 65 ∧
      (CheckProofCap keccak256 (treeOf keccak256 2 [leafA, leafB]).Root
        (indexOf 1 ++ HashBytes keccak256 leafB.Bytes ++ [0]) [] (leafA.Hi keccak256)
        (HashBytes keccak256 leafA.Bytes) 2).isNone = true ∧
      CheckProofCap keccak256 (treeOf keccak256 2 [leafA, leafB]).Root
        (indexOf 1 ++ HashBytes keccak256 leafB.Bytes ++ [0]) (List.replicate 31 0)
        (leafA.Hi keccak256) (HashBytes keccak256 leafA.Bytes) 2 = some true := by
  decide!

/-- Surplus data in whole blocks: among the proofs that consist of a bitmap of 32 bytes and
whole blocks of 32 bytes, the result of CheckProof depends only on the bitmap bits 0..numLevels-2
and on the first k sibling blocks, k being the number of those bits that are set: when
CheckProof returns r on a proof, it returns r on the proof extended by any further block of
32 bytes, on the proof with any bitmap bit at a position from numLevels-1 on flipped, and on
every such proof with the same bits 0..numLevels-2 and the same first k blocks. -/
theorem CheckProof_ignores_surplus (H : RawHash) (root hi ht : Hash) (L : Nat)
    (p : List Nat) (r : Bool) (hr : CheckProof H root p hi ht L = some r) :
    (∀ block : List Nat, block.length = 32 →
      CheckProof H root (p ++ block) hi ht L = some r) ∧
    (∀ c, L - 1 ≤ c → c < 256 → CheckProof H root (flipBit p c) hi ht L = some r) ∧
    (∀ (q : List Nat) (s t : List Hash), 32 ≤ q.length →
      parseSiblings p.length (p.drop 32) = some s →
      parseSiblings q.length (q.drop 32) = some t →
      (∀ c, c < L - 1 → testbitmap (q.take 32) c = testbitmap (p.take 32) c) →
      (∀ j, j < setBelow (p.take 32) (L - 1) → t[j]? = s[j]?) →
      CheckProof H root q hi ht L = some r) := by
  have h32 : 32 ≤ p.length := by
    by_contra hc
    have : sliceTo p 32 = none := by simp [sliceTo, hc]
    simp only [CheckProof, this] at hr
    exact absurd hr (by simp)
  have hsl := sliceTo_of_le h32
  cases hps : parseSiblings p.length (p.drop 32) with
  | none => simp only [CheckProof, hsl, hps] at hr; exact absurd hr (by simp)
  | some s =>
    cases hpath : getPath L hi with
    | none => simp only [CheckProof, hsl, hps, hpath] at hr; exact absurd hr (by simp)
    | some path =>
      cases hrun : checkLoop H L (p.take 32) s path (L - 1) ht 0 with
      | none => simp only [CheckProof, hsl, hps, hpath, hrun] at hr; exact absurd hr (by simp)
      | some nh =>
        simp only [CheckProof, hsl, hps, hpath, hrun, Option.some.injEq] at hr
        have hgen : ∀ (q : List Nat) (t : List Hash), 32 ≤ q.length →
            parseSiblings q.length (q.drop 32) = some t →
            (∀ c, c < L - 1 → testbitmap (q.take 32) c = testbitmap (p.take 32) c) →
            (∀ j x, j < setBelow (p.take 32) (L - 1) → s[j]? = some x → t[j]? = some x) →
            CheckProof H root q hi ht L = some r := by
          intro q t hq ht1 hbits hsib
          have hrun2 := checkLoop_agree H L (p.take 32) (q.take 32) s t path (L - 1) ht 0 nh
            hrun hbits (fun j x _ h2 h3 => hsib j x (by omega) h3)
          simp only [CheckProof, sliceTo_of_le hq, ht1, hpath, hrun2, hr]
        refine ⟨fun block hb => ?_, fun c hc1 hc2 => ?_, fun q s1 t hq hs1 ht1 hbits hsib => ?_⟩
        · have hd : (p ++ block).drop 32 = p.drop 32 ++ block :=
            List.drop_append_of_le_length h32
          have htk : (p ++ block).take 32 = p.take 32 := List.take_append_of_le_length h32
          refine hgen (p ++ block) (s ++ [block]) (by rw [List.length_append]; omega) ?_
            (fun c _ => by rw [htk]) (fun j x _ hx => ?_)
          · rw [hd]
            exact parseSiblings_append block hb p.length (p.drop 32) s
              (by rw [List.length_drop]; omega) hps _
              (by rw [List.length_append, List.length_append, List.length_drop]; omega)
          · have hj : j < s.length := by
              by_contra hc
              rw [List.getElem?_eq_none (by omega)] at hx
              exact absurd hx (by simp)
            rw [List.getElem?_append_left hj]; exact hx
        · have hlen : (flipBit p c).length = p.length := by simp [flipBit]
          have hd : (flipBit p c).drop 32 = p.drop 32 := by
            rw [flipBit, List.drop_set_of_lt _ _ (by omega)]
          have hg : p.getD (31 - c / 8) 0 = (p.take 32).getD (31 - c / 8) 0 := by
            rw [List.getD_eq_getElem?_getD, List.getD_eq_getElem?_getD,
              List.getElem?_take_of_lt (by omega)]
          have htk : (flipBit p c).take 32 =
              (p.take 32).set (31 - c / 8) ((p.take 32).getD (31 - c / 8) 0 ^^^ 1 <<< (c % 8)) := by
            rw [flipBit, List.set_take, hg]
          refine hgen (flipBit p c) s (by rw [hlen]; exact h32) (by rw [hlen, hd]; exact hps)
            (fun d hd1 => ?_) (fun j x _ hx => hx)
          rw [htk]
          exact testbitmap_flip (p.take 32) c d (by rw [List.length_take]; omega) hc2 (by omega)
        · simp only [Option.some.injEq] at hs1
          refine hgen q t hq ht1 hbits (fun j x hj hx => ?_)
          rw [hsib j hj, ← hs1]; exact hx

set_option maxRecDepth 100000 in
theorem CheckProof_ignores_surplus_witness :
    CheckProof keccak256 (treeOf keccak256 2 [leafA, leafB]).Root
        (indexOf 1 ++ HashBytes keccak256 leafB.Bytes) (leafA.Hi keccak256)
        (HashBytes keccak256 leafA.Bytes) 2 = some true ∧
      (∀ block : List Nat, block.length = 32 →
        CheckProof keccak256 (treeOf keccak256 2 [leafA, leafB]).Root
          (indexOf 1 ++ HashBytes keccak256 leafB.Bytes ++ block) (leafA.Hi keccak256)
          (HashBytes keccak256 leafA.Bytes) 2 = some true) :=
  ⟨by decide!,
    (CheckProof_ignores_surplus keccak256 (treeOf keccak256 2 [leafA, leafB]).Root
      (leafA.Hi keccak256) (HashBytes keccak256 leafA.Bytes) 2
      (indexOf 1 ++ HashBytes keccak256 leafB.Bytes) true (by decide!)).1⟩

end

section

/-! ### C25: the legal range of the depth -/

theorem setbitmap_some {bm bm1 : List Nat} {b : Nat} (hl : bm.length = 32)
    (h : setbitmap bm b = some bm1) :
    b < 256 ∧ bm1.length = 32 ∧
      ∀ c, c < 256 → bitSet bm1 c = (decide (c = b) || bitSet bm c) := by
  have hb : b < 256 := by
    by_contra hc
    have : ¬ b / 8 < bm.length := by omega
    simp only [setbitmap, this, if_false] at h
    exact absurd h (by simp)
  obtain ⟨bm2, h2, hlen, hbits⟩ := setbitmap_spec bm b hl hb
  rw [h] at h2
  simp only [Option.some.injEq] at h2
  rw [h2]
  exact ⟨hb, hlen, hbits⟩

/-- The bits that the Final-node branch of GenerateProof leaves set are the bits set before
and the bit number listed by proofFinalBits. -/
theorem proofFinal_bits (H : RawHash) (mt : MerkleTree) (hi : Hash) (path : List Bool)
    (level il : Nat) (nodeBytes bm bm1 : List Nat) (sibs sibs1 : List Hash) (e : Option Error)
    (hl : bm.length = 32)
    (h : proofFinal H mt hi path level bm sibs il nodeBytes = some ((bm1, sibs1), e)) :
    ∀ c, c < 256 →
      (bitSet bm1 c = true ↔
        bitSet bm c = true ∨ c ∈ proofFinalBits H mt hi path level il nodeBytes) := by
  intro c hc
  rw [proofFinal] at h
  rw [proofFinalBits]
  cases hg : mt.GetValueInPos H hi with
  | none => rw [hg] at h; exact absurd h (by simp)
  | some res =>
    obtain ⟨val, err⟩ := res
    rw [hg] at h
    cases err with
    | some e1 =>
      simp only [Option.some.injEq, Prod.mk.injEq] at h
      rw [← h.1.1]; simp
    | none =>
      simp only [] at h ⊢
      by_cases hv : val = EmptyNodeValue
      · rw [if_pos hv] at h ⊢
        cases hs : sliceTo nodeBytes il with
        | none => rw [hs] at h; exact absurd h (by simp)
        | some index =>
          rw [hs] at h
          simp only [] at h ⊢
          cases hp : getPath mt.numLevels (HashBytes H index) with
          | none => rw [hp] at h; exact absurd h (by simp)
          | some pathChild =>
            rw [hp] at h
            simp only [] at h ⊢
            cases hcmp : comparePaths pathChild path with
            | none => rw [hcmp] at h; exact absurd h (by simp)
            | some posDiff =>
              rw [hcmp] at h
              simp only [] at h ⊢
              by_cases h1 : posDiff = -1
              · rw [if_pos h1] at h ⊢
                simp only [Option.some.injEq, Prod.mk.injEq] at h
                rw [← h.1.1]; simp
              · rw [if_neg h1] at h ⊢
                by_cases h2 : posDiff ≠ (mt.NumLevels : Int) - 1 - level
                · rw [if_pos h2] at h ⊢
                  cases hcalc : calcHashFromLeafAndLevel H posDiff.toNat pathChild
                      (HashBytes H nodeBytes) with
                  | none => rw [hcalc] at h; exact absurd h (by simp)
                  | some sib =>
                    rw [hcalc] at h
                    simp only [] at h ⊢
                    by_cases h3 : (mt.NumLevels : Int) - 2 - posDiff < 0
                    · rw [if_pos h3] at h; exact absurd h (by simp)
                    · rw [if_neg h3] at h
                      cases hset : setbitmap bm ((mt.NumLevels : Int) - 2 - posDiff).toNat with
                      | none => rw [hset] at h; exact absurd h (by simp)
                      | some bm2 =>
                        rw [hset] at h
                        simp only [Option.some.injEq, Prod.mk.injEq] at h
                        obtain ⟨hb, _, hbits⟩ := setbitmap_some hl hset
                        have hu : uintOf ((mt.NumLevels : Int) - 2 - posDiff) =
                            ((mt.NumLevels : Int) - 2 - posDiff).toNat := by
                          rw [uintOf]; omega
                        rw [← h.1.1, hbits c hc, hu, List.mem_singleton]
                        simp only [Bool.or_eq_true, decide_eq_true_eq]
                        exact or_comm
                · rw [if_neg h2] at h ⊢
                  simp only [Option.some.injEq, Prod.mk.injEq] at h
                  rw [← h.1.1]; simp
      · rw [if_neg hv] at h ⊢
        simp only [Option.some.injEq, Prod.mk.injEq] at h
        rw [← h.1.1]; simp

/-- The bits that a run of the loop of GenerateProof leaves set are the bits set before and
the bit numbers listed by proofBits. -/
theorem proofLoop_bits (H : RawHash) (mt : MerkleTree) (hi : Hash) (path : List Bool) :
    ∀ k level nodeHash (bm bm1 : List Nat) (sibs sibs1 : List Hash) (e : Option Error),
      bm.length = 32 →
      proofLoop H mt hi path k level nodeHash bm sibs = some ((bm1, sibs1), e) →
      ∀ c, c < 256 →
        (bitSet bm1 c = true ↔
          bitSet bm c = true ∨ c ∈ proofBits H mt hi path k level nodeHash) := by
  intro k
  induction k with
  | zero =>
    intro level nodeHash bm bm1 sibs sibs1 e _ h c _
    simp only [proofLoop, Option.some.injEq, Prod.mk.injEq] at h
    rw [← h.1.1]; simp [proofBits]
  | succ k ih =>
    intro level nodeHash bm bm1 sibs sibs1 e hl h c hc
    rw [proofLoop] at h
    rw [proofBits]
    cases hg : mt.Get nodeHash with
    | none => rw [hg] at h; exact absurd h (by simp)
    | some res =>
      obtain ⟨tag, il, nb, err⟩ := res
      rw [hg] at h
      cases err with
      | some e1 =>
        simp only [Option.some.injEq, Prod.mk.injEq] at h
        rw [← h.1.1]; simp
      | none =>
        simp only [] at h ⊢
        by_cases hf : tag = finalNodeType
        · rw [if_pos hf] at h ⊢
          exact proofFinal_bits H mt hi path level il nb bm bm1 sibs sibs1 e hl h c hc
        · rw [if_neg hf] at h ⊢
          cases hside : path[mt.numLevels - level - 2]? with
          | none => rw [hside] at h; exact absurd h (by simp)
          | some side =>
            rw [hside] at h
            simp only [] at h ⊢
            generalize (if side = true then (parseNodeBytes nb).ChildR
              else (parseNodeBytes nb).ChildL) = nh at h ⊢
            generalize (if side = true then (parseNodeBytes nb).ChildL
              else (parseNodeBytes nb).ChildR) = sb at h ⊢
            by_cases hs : sb ≠ EmptyNodeValue
            · rw [if_pos hs] at h ⊢
              cases hset : setbitmap bm level with
              | none => rw [hset] at h; exact absurd h (by simp)
              | some bm2 =>
                rw [hset] at h
                obtain ⟨hb, hlen2, hbits⟩ := setbitmap_some hl hset
                rw [ih _ _ _ _ _ _ _ hlen2 h c hc, hbits c hc, if_pos (by omega)]
                simp only [List.mem_cons, Bool.or_eq_true, decide_eq_true_eq]
                constructor
                · rintro ((h1 | h1) | h1)
                  · exact Or.inr (Or.inl h1)
                  · exact Or.inl h1
                  · exact Or.inr (Or.inr h1)
                · rintro (h1 | h1 | h1)
                  · exact Or.inl (Or.inr h1)
                  · exact Or.inl (Or.inl h1)
                  · exact Or.inr h1
            · rw [if_neg hs] at h ⊢
              exact ih _ _ _ _ _ _ _ hl h c hc

end

section

/-! ### C28: the bounds of the split -/

set_option maxRecDepth 100000 in
/-- Claim C28, failing input: the tree of TestVector4 (four levels, the bytes 00..01 added
with index length 1 and then with index length 2, both Adds nil). Add of the first leaf
again reads, after the write of its Value record, a Final node at descent index 0 whose
path differs from the path of the leaf with posDiff = 1 > 0; replaceLeaf is handed 2 siblings and a path of length 1, and Add fails
at run time. -/
theorem split_out_of_bounds_after_vector4 :
    ((build keccak256 4 [vector4A, vector4B]).map fun r => r.2) = some [none, none] ∧
      getPath 4 (vector4A.Hi keccak256) = some [false, true, false] ∧
      splitArgs keccak256 [false, true, false] 3
        ((treeOf keccak256 4 [vector4A, vector4B]).Insert (HashBytes keccak256 vector4A.Bytes)
          valueNodeType vector4A.IndexLength vector4A.Bytes).1
        (treeOf keccak256 4 [vector4A, vector4B]).root [] = some (0, 1, 2, 1) ∧
      ((treeOf keccak256 4 [vector4A, vector4B]).Add keccak256 vector4A).isNone = true := by
  decide!

end

section

/-! ## The capacity of the proof slice -/

theorem sliceCap_nil (s : List Nat) (n : Nat) : sliceCap s [] n = sliceTo s n := by
  simp [sliceCap, sliceTo]

theorem sliceCap_of_le {s : List Nat} (spare : List Nat) {n : Nat} (h : n ≤ s.length) :
    sliceCap s spare n = sliceTo s n := by
  have h1 : n ≤ s.length + spare.length := by omega
  simp only [sliceCap, sliceTo, h, h1, if_true, List.take_append_of_le_length h]

theorem parseSiblingsCap_nil : ∀ (k : Nat) (rest : List Nat),
    parseSiblingsCap k rest [] = parseSiblings k rest := by
  intro k
  induction k with
  | zero => intro rest; rfl
  | succ k ih =>
    intro rest
    rw [parseSiblingsCap, parseSiblings, ih]
    simp

/-- On whole blocks of 32 bytes the parsing loop does not look at the spare capacity. -/
theorem parseSiblingsCap_whole (spare : List Nat) : ∀ (k : Nat) (rest : List Nat),
    rest.length % 32 = 0 → parseSiblingsCap k rest spare = parseSiblings k rest := by
  intro k
  induction k with
  | zero => intro rest _; rfl
  | succ k ih =>
    intro rest hr
    rw [parseSiblingsCap, parseSiblings]
    by_cases h0 : rest = []
    · rw [if_pos h0, if_pos h0]
    · have hpos : 0 < rest.length := List.length_pos.mpr h0
      have h32 : 32 ≤ rest.length := by omega
      rw [if_neg h0, if_neg h0, if_neg (by omega), if_neg (by omega),
        ih (rest.drop 32) (by rw [List.length_drop]; omega),
        List.take_append_of_le_length h32]

/-- CheckProof is CheckProofCap on a proof with no spare capacity. -/
theorem CheckProofCap_nil (H : RawHash) (root : Hash) (proof : List Nat) (hi ht : Hash)
    (L : Nat) : CheckProofCap H root proof [] hi ht L = CheckProof H root proof hi ht L := by
  simp only [CheckProofCap, CheckProof, sliceCap_nil, parseSiblingsCap_nil]

/-- On a proof of a length 32 + 32k the result of CheckProof does not depend on the
capacity of the proof. -/
theorem CheckProofCap_whole (H : RawHash) (root : Hash) (proof spare : List Nat)
    (hi ht : Hash) (L k : Nat) (hlen : proof.length = 32 + 32 * k) :
    CheckProofCap H root proof spare hi ht L = CheckProof H root proof hi ht L := by
  have h1 : sliceCap proof spare 32 = sliceTo proof 32 := sliceCap_of_le spare (by omega)
  have h2 : parseSiblingsCap proof.length (proof.drop 32) spare =
      parseSiblings proof.length (proof.drop 32) :=
    parseSiblingsCap_whole spare _ _ (by rw [List.length_drop, hlen]; omega)
  simp only [CheckProofCap, CheckProof, h1, h2]

/-! ### C8: malformed proofs -/

set_option maxRecDepth 100000 in
/-- Claim C8, failing inputs: CheckProof does not return false on every proof whose length
is not of the form 32 + 32k. On a proof of 33 bytes with no spare capacity it fails at run
time, slicing the second block past the capacity. In the tree of two levels with the leaves
leafA and leafB, on the first 63 bytes of the proof of leafA in a slice of capacity 64, whose
spare byte is the last byte of that proof, it returns true. -/
theorem CheckProof_malformed_not_false :
    (CheckProofCap keccak256 EmptyNodeValue (List.replicate 33 0) [] EmptyNodeValue
        EmptyNodeValue 2).isNone = true ∧
      ((indexOf 1 ++ HashBytes keccak256 leafB.Bytes).take 63).length = 63 ∧
      CheckProofCap keccak256 (treeOf keccak256 2 [leafA, leafB]).Root
        ((indexOf 1 ++ HashBytes keccak256 leafB.Bytes).take 63)
        ((indexOf 1 ++ HashBytes keccak256 leafB.Bytes).drop 63) (leafA.Hi keccak256)
        (HashBytes keccak256 leafA.Bytes) 2 = some true := by
  decide!

/-! ### C9: the root record and a failed write -/

set_option maxRecDepth 100000 in
/-- Claim C9, failing input: on a store that holds the root record of an empty tree and on
which the write under the key HashBytes("root") fails, New with two levels returns a tree
with the root Empty; Add of leafA returns nil and moves Root() to the digest of the Final
node of leafA, the store still holds the root record with the body Empty, and New on that
store returns a tree with the root Empty. -/
theorem root_record_stale_after_failed_write :
    New keccak256 (rootLockedDB keccak256) 2 =
        some (some (treeOn keccak256 (rootLockedDB keccak256) 2), none) ∧
      (treeOn keccak256 (rootLockedDB keccak256) 2).Root = EmptyNodeValue ∧
      (((treeOn keccak256 (rootLockedDB keccak256) 2).Add keccak256 leafA).map fun q => q.2) =
        some none ∧
      (((treeOn keccak256 (rootLockedDB keccak256) 2).Add keccak256 leafA).map fun q =>
        decide (q.1.Root = EmptyNodeValue)) = some false ∧
      (((treeOn keccak256 (rootLockedDB keccak256) 2).Add keccak256 leafA).map fun q =>
        q.1.storage.lookup (rootNodeValue keccak256)) =
        some (some (record rootNodeType 0 EmptyNodeValue)) ∧
      (((treeOn keccak256 (rootLockedDB keccak256) 2).Add keccak256 leafA).bind fun q =>
        (New keccak256 q.1.storage q.1.NumLevels).map fun r => (r.1.map fun t => t.Root, r.2)) =
        some (some EmptyNodeValue, none) := by
  decide!

end

end Merkletree
